import Mathlib

/-!
# Verification of a diagonal-sudoku constraint solver

Shallow embedding of `solution.py`: the unit/peer topology, the candidate
boards, the three propagators (`eliminate`, `only_choice`, `naked_twins`),
the fixed-point reducer `reduce_puzzle`, the DFS `search`, and the
top-level `solve`, together with the instrumented variants that thread the
global `assignments` log.

Encoding conventions:
* A box `'Xy'` (row letter `X ∈ 'ABCDEFGHI'`, column digit `y ∈ '123456789'`)
  is the index `9 * rowIndex + colIndex`; e.g. `'A1' = 0`, `'E5' = 40`,
  `'I9' = 80`.
* A candidate string over `'123456789'` is the list of its digits, so
  `'123456789'` is `[1,…,9]` and `'8'` is `[8]`; `str.replace(d, '')` for a
  single digit `d` is `List.filter (· ≠ d)`.
* A grid character is a `Nat`: a given digit `1`–`9` is itself, `'.'` is `0`.
* Python's `False` / `None` results are `Option.none`.
* The two `while`/recursion constructs are modelled with an explicit fuel
  argument; the fuel bounds `82` are proved sufficient below
  (`reduceAux_fuel_stable`, `searchAux_fuel_stable`), so the fuelled
  functions agree with the unbounded Python originals.
-/

namespace Sudoku

open scoped List

/-- Source: `digits = '123456789'`, the nine candidate digits. -/
def digits : List Nat := [1, 2, 3, 4, 5, 6, 7, 8, 9]

/-- Source: `rows = 'ABCDEFGHI'`, encoded as row indices 0–8. -/
def rows : List Nat := [0, 1, 2, 3, 4, 5, 6, 7, 8]

/-- Source: `cols = '123456789'`, encoded as column indices 0–8. -/
def cols : List Nat := [0, 1, 2, 3, 4, 5, 6, 7, 8]

/-- Source: `cross(A, B) = [a + b for a in A for b in B]`; concatenating a
row letter and a column digit is encoded as `9 * a + b`. -/
def cross (A B : List Nat) : List Nat :=
  A.flatMap (fun a => B.map (fun b => 9 * a + b))

/-- Source: `boxes = cross(rows, cols)`, the 81 cells in row-major order. -/
def boxes : List Nat := cross rows cols

/-- Source: `row_units = [cross(r, cols) for r in rows]`. -/
def row_units : List (List Nat) := rows.map (fun r => cross [r] cols)

/-- Source: `col_units = [cross(rows, c) for c in cols]`. -/
def col_units : List (List Nat) := cols.map (fun c => cross rows [c])

/-- Source: `square_units = [cross(row, col) for row in ('ABC','DEF','GHI')
for col in ('123','456','789')]`. -/
def square_units : List (List Nat) :=
  [[0, 1, 2], [3, 4, 5], [6, 7, 8]].flatMap
    (fun rs => [[0, 1, 2], [3, 4, 5], [6, 7, 8]].map (fun cs => cross rs cs))

/-- Source: `diag_units`; the main diagonal `A1,B2,…,I9` from
`zip(rows, cols)` and the anti-diagonal `I1,H2,…,A9` from
`zip(reversed(rows), cols)`. -/
def diag_units : List (List Nat) :=
  [rows.map (fun i => 9 * i + i), rows.map (fun i => 9 * (8 - i) + i)]

/-- Source: `diag_boxes = set(sum(diag_units, []))`; a Python set, used only
through membership, embedded as the concatenation. -/
def diag_boxes : List Nat := diag_units.flatten

/-- Source: `unitlist = row_units + col_units + square_units + diag_units`. -/
def unitlist : List (List Nat) := row_units ++ col_units ++ square_units ++ diag_units

/-- Source: `units = dict((box, [unit for unit in unitlist if box in unit])
for box in boxes)`. -/
def units (b : Nat) : List (List Nat) := unitlist.filter (fun u => decide (b ∈ u))

/-- Source: `peers = dict((box, set(sum(units[box], [])) - {box}) for box in
boxes)`; the dict is computed once at process start, so it is embedded as a
precomputed table: entry `b` is the Python set `peers[b]` as the
duplicate-free list of its members in `boxes` order. `peers_list_eq` below
proves the table equal to its defining comprehension. -/
def peers_list : List (List Nat) :=
  [
   [1, 2, 3, 4, 5, 6, 7, 8, 9, 10, 11, 18, 19, 20, 27, 30, 36, 40, 45, 50, 54, 60, 63, 70, 72, 80],
   [0, 2, 3, 4, 5, 6, 7, 8, 9, 10, 11, 18, 19, 20, 28, 37, 46, 55, 64, 73],
   [0, 1, 3, 4, 5, 6, 7, 8, 9, 10, 11, 18, 19, 20, 29, 38, 47, 56, 65, 74],
   [0, 1, 2, 4, 5, 6, 7, 8, 12, 13, 14, 21, 22, 23, 30, 39, 48, 57, 66, 75],
   [0, 1, 2, 3, 5, 6, 7, 8, 12, 13, 14, 21, 22, 23, 31, 40, 49, 58, 67, 76],
   [0, 1, 2, 3, 4, 6, 7, 8, 12, 13, 14, 21, 22, 23, 32, 41, 50, 59, 68, 77],
   [0, 1, 2, 3, 4, 5, 7, 8, 15, 16, 17, 24, 25, 26, 33, 42, 51, 60, 69, 78],
   [0, 1, 2, 3, 4, 5, 6, 8, 15, 16, 17, 24, 25, 26, 34, 43, 52, 61, 70, 79],
   [0, 1, 2, 3, 4, 5, 6, 7, 15, 16, 17, 24, 25, 26, 32, 35, 40, 44, 48, 53, 56, 62, 64, 71, 72, 80],
   [0, 1, 2, 10, 11, 12, 13, 14, 15, 16, 17, 18, 19, 20, 27, 36, 45, 54, 63, 72],
   [0, 1, 2, 9, 11, 12, 13, 14, 15, 16, 17, 18, 19, 20, 28, 30, 37, 40, 46, 50, 55, 60, 64, 70, 73, 80],
   [0, 1, 2, 9, 10, 12, 13, 14, 15, 16, 17, 18, 19, 20, 29, 38, 47, 56, 65, 74],
   [3, 4, 5, 9, 10, 11, 13, 14, 15, 16, 17, 21, 22, 23, 30, 39, 48, 57, 66, 75],
   [3, 4, 5, 9, 10, 11, 12, 14, 15, 16, 17, 21, 22, 23, 31, 40, 49, 58, 67, 76],
   [3, 4, 5, 9, 10, 11, 12, 13, 15, 16, 17, 21, 22, 23, 32, 41, 50, 59, 68, 77],
   [6, 7, 8, 9, 10, 11, 12, 13, 14, 16, 17, 24, 25, 26, 33, 42, 51, 60, 69, 78],
   [6, 7, 8, 9, 10, 11, 12, 13, 14, 15, 17, 24, 25, 26, 32, 34, 40, 43, 48, 52, 56, 61, 64, 70, 72, 79],
   [6, 7, 8, 9, 10, 11, 12, 13, 14, 15, 16, 24, 25, 26, 35, 44, 53, 62, 71, 80],
   [0, 1, 2, 9, 10, 11, 19, 20, 21, 22, 23, 24, 25, 26, 27, 36, 45, 54, 63, 72],
   [0, 1, 2, 9, 10, 11, 18, 20, 21, 22, 23, 24, 25, 26, 28, 37, 46, 55, 64, 73],
   [0, 1, 2, 9, 10, 11, 18, 19, 21, 22, 23, 24, 25, 26, 29, 30, 38, 40, 47, 50, 56, 60, 65, 70, 74, 80],
   [3, 4, 5, 12, 13, 14, 18, 19, 20, 22, 23, 24, 25, 26, 30, 39, 48, 57, 66, 75],
   [3, 4, 5, 12, 13, 14, 18, 19, 20, 21, 23, 24, 25, 26, 31, 40, 49, 58, 67, 76],
   [3, 4, 5, 12, 13, 14, 18, 19, 20, 21, 22, 24, 25, 26, 32, 41, 50, 59, 68, 77],
   [6, 7, 8, 15, 16, 17, 18, 19, 20, 21, 22, 23, 25, 26, 32, 33, 40, 42, 48, 51, 56, 60, 64, 69, 72, 78],
   [6, 7, 8, 15, 16, 17, 18, 19, 20, 21, 22, 23, 24, 26, 34, 43, 52, 61, 70, 79],
   [6, 7, 8, 15, 16, 17, 18, 19, 20, 21, 22, 23, 24, 25, 35, 44, 53, 62, 71, 80],
   [0, 9, 18, 28, 29, 30, 31, 32, 33, 34, 35, 36, 37, 38, 45, 46, 47, 54, 63, 72],
   [1, 10, 19, 27, 29, 30, 31, 32, 33, 34, 35, 36, 37, 38, 45, 46, 47, 55, 64, 73],
   [2, 11, 20, 27, 28, 30, 31, 32, 33, 34, 35, 36, 37, 38, 45, 46, 47, 56, 65, 74],
   [0, 3, 10, 12, 20, 21, 27, 28, 29, 31, 32, 33, 34, 35, 39, 40, 41, 48, 49, 50, 57, 60, 66, 70, 75, 80],
   [4, 13, 22, 27, 28, 29, 30, 32, 33, 34, 35, 39, 40, 41, 48, 49, 50, 58, 67, 76],
   [5, 8, 14, 16, 23, 24, 27, 28, 29, 30, 31, 33, 34, 35, 39, 40, 41, 48, 49, 50, 56, 59, 64, 68, 72, 77],
   [6, 15, 24, 27, 28, 29, 30, 31, 32, 34, 35, 42, 43, 44, 51, 52, 53, 60, 69, 78],
   [7, 16, 25, 27, 28, 29, 30, 31, 32, 33, 35, 42, 43, 44, 51, 52, 53, 61, 70, 79],
   [8, 17, 26, 27, 28, 29, 30, 31, 32, 33, 34, 42, 43, 44, 51, 52, 53, 62, 71, 80],
   [0, 9, 18, 27, 28, 29, 37, 38, 39, 40, 41, 42, 43, 44, 45, 46, 47, 54, 63, 72],
   [1, 10, 19, 27, 28, 29, 36, 38, 39, 40, 41, 42, 43, 44, 45, 46, 47, 55, 64, 73],
   [2, 11, 20, 27, 28, 29, 36, 37, 39, 40, 41, 42, 43, 44, 45, 46, 47, 56, 65, 74],
   [3, 12, 21, 30, 31, 32, 36, 37, 38, 40, 41, 42, 43, 44, 48, 49, 50, 57, 66, 75],
   [0, 4, 8, 10, 13, 16, 20, 22, 24, 30, 31, 32, 36, 37, 38, 39, 41, 42, 43, 44, 48, 49, 50, 56, 58, 60, 64, 67, 70, 72, 76, 80],
   [5, 14, 23, 30, 31, 32, 36, 37, 38, 39, 40, 42, 43, 44, 48, 49, 50, 59, 68, 77],
   [6, 15, 24, 33, 34, 35, 36, 37, 38, 39, 40, 41, 43, 44, 51, 52, 53, 60, 69, 78],
   [7, 16, 25, 33, 34, 35, 36, 37, 38, 39, 40, 41, 42, 44, 51, 52, 53, 61, 70, 79],
   [8, 17, 26, 33, 34, 35, 36, 37, 38, 39, 40, 41, 42, 43, 51, 52, 53, 62, 71, 80],
   [0, 9, 18, 27, 28, 29, 36, 37, 38, 46, 47, 48, 49, 50, 51, 52, 53, 54, 63, 72],
   [1, 10, 19, 27, 28, 29, 36, 37, 38, 45, 47, 48, 49, 50, 51, 52, 53, 55, 64, 73],
   [2, 11, 20, 27, 28, 29, 36, 37, 38, 45, 46, 48, 49, 50, 51, 52, 53, 56, 65, 74],
   [3, 8, 12, 16, 21, 24, 30, 31, 32, 39, 40, 41, 45, 46, 47, 49, 50, 51, 52, 53, 56, 57, 64, 66, 72, 75],
   [4, 13, 22, 30, 31, 32, 39, 40, 41, 45, 46, 47, 48, 50, 51, 52, 53, 58, 67, 76],
   [0, 5, 10, 14, 20, 23, 30, 31, 32, 39, 40, 41, 45, 46, 47, 48, 49, 51, 52, 53, 59, 60, 68, 70, 77, 80],
   [6, 15, 24, 33, 34, 35, 42, 43, 44, 45, 46, 47, 48, 49, 50, 52, 53, 60, 69, 78],
   [7, 16, 25, 33, 34, 35, 42, 43, 44, 45, 46, 47, 48, 49, 50, 51, 53, 61, 70, 79],
   [8, 17, 26, 33, 34, 35, 42, 43, 44, 45, 46, 47, 48, 49, 50, 51, 52, 62, 71, 80],
   [0, 9, 18, 27, 36, 45, 55, 56, 57, 58, 59, 60, 61, 62, 63, 64, 65, 72, 73, 74],
   [1, 10, 19, 28, 37, 46, 54, 56, 57, 58, 59, 60, 61, 62, 63, 64, 65, 72, 73, 74],
   [2, 8, 11, 16, 20, 24, 29, 32, 38, 40, 47, 48, 54, 55, 57, 58, 59, 60, 61, 62, 63, 64, 65, 72, 73, 74],
   [3, 12, 21, 30, 39, 48, 54, 55, 56, 58, 59, 60, 61, 62, 66, 67, 68, 75, 76, 77],
   [4, 13, 22, 31, 40, 49, 54, 55, 56, 57, 59, 60, 61, 62, 66, 67, 68, 75, 76, 77],
   [5, 14, 23, 32, 41, 50, 54, 55, 56, 57, 58, 60, 61, 62, 66, 67, 68, 75, 76, 77],
   [0, 6, 10, 15, 20, 24, 30, 33, 40, 42, 50, 51, 54, 55, 56, 57, 58, 59, 61, 62, 69, 70, 71, 78, 79, 80],
   [7, 16, 25, 34, 43, 52, 54, 55, 56, 57, 58, 59, 60, 62, 69, 70, 71, 78, 79, 80],
   [8, 17, 26, 35, 44, 53, 54, 55, 56, 57, 58, 59, 60, 61, 69, 70, 71, 78, 79, 80],
   [0, 9, 18, 27, 36, 45, 54, 55, 56, 64, 65, 66, 67, 68, 69, 70, 71, 72, 73, 74],
   [1, 8, 10, 16, 19, 24, 28, 32, 37, 40, 46, 48, 54, 55, 56, 63, 65, 66, 67, 68, 69, 70, 71, 72, 73, 74],
   [2, 11, 20, 29, 38, 47, 54, 55, 56, 63, 64, 66, 67, 68, 69, 70, 71, 72, 73, 74],
   [3, 12, 21, 30, 39, 48, 57, 58, 59, 63, 64, 65, 67, 68, 69, 70, 71, 75, 76, 77],
   [4, 13, 22, 31, 40, 49, 57, 58, 59, 63, 64, 65, 66, 68, 69, 70, 71, 75, 76, 77],
   [5, 14, 23, 32, 41, 50, 57, 58, 59, 63, 64, 65, 66, 67, 69, 70, 71, 75, 76, 77],
   [6, 15, 24, 33, 42, 51, 60, 61, 62, 63, 64, 65, 66, 67, 68, 70, 71, 78, 79, 80],
   [0, 7, 10, 16, 20, 25, 30, 34, 40, 43, 50, 52, 60, 61, 62, 63, 64, 65, 66, 67, 68, 69, 71, 78, 79, 80],
   [8, 17, 26, 35, 44, 53, 60, 61, 62, 63, 64, 65, 66, 67, 68, 69, 70, 78, 79, 80],
   [0, 8, 9, 16, 18, 24, 27, 32, 36, 40, 45, 48, 54, 55, 56, 63, 64, 65, 73, 74, 75, 76, 77, 78, 79, 80],
   [1, 10, 19, 28, 37, 46, 54, 55, 56, 63, 64, 65, 72, 74, 75, 76, 77, 78, 79, 80],
   [2, 11, 20, 29, 38, 47, 54, 55, 56, 63, 64, 65, 72, 73, 75, 76, 77, 78, 79, 80],
   [3, 12, 21, 30, 39, 48, 57, 58, 59, 66, 67, 68, 72, 73, 74, 76, 77, 78, 79, 80],
   [4, 13, 22, 31, 40, 49, 57, 58, 59, 66, 67, 68, 72, 73, 74, 75, 77, 78, 79, 80],
   [5, 14, 23, 32, 41, 50, 57, 58, 59, 66, 67, 68, 72, 73, 74, 75, 76, 78, 79, 80],
   [6, 15, 24, 33, 42, 51, 60, 61, 62, 69, 70, 71, 72, 73, 74, 75, 76, 77, 79, 80],
   [7, 16, 25, 34, 43, 52, 60, 61, 62, 69, 70, 71, 72, 73, 74, 75, 76, 77, 78, 80],
   [0, 8, 10, 17, 20, 26, 30, 35, 40, 44, 50, 53, 60, 61, 62, 69, 70, 71, 72, 73, 74, 75, 76, 77, 78, 79]
  ]

/-- `peers[box]`: lookup in the startup-computed dict (all keys used by the
program are `< 81`). -/
def peers (b : Nat) : List Nat := peers_list.getD b []

/-- The peers table is exactly `dict((box, set(sum(units[box], [])) - {box})
for box in boxes)`. -/
theorem peers_list_eq :
    peers_list =
      boxes.map (fun b => boxes.filter (fun p => decide (p ∈ (units b).flatten ∧ p ≠ b))) := by
  decide!

/-- A sudoku in dictionary form: the dict with keys `boxes` (in insertion
order) is the length-81 list of candidate lists, indexed by box. -/
abbrev Board := List (List Nat)

/-- `values[box]`: dictionary lookup (all keys are `< 81` on every board the
program builds, so the default `[]` is never read). -/
def getCell (v : Board) (b : Nat) : List Nat := v.getD b []

/-- `values[box] = value`: dictionary update. -/
def setCell (v : Board) (b : Nat) (x : List Nat) : Board := v.set b x

/-- Source: `assign_value(values, box, value)` without the global
`assignments` side effect (the board component is unchanged by logging; the
logged variant `assign_valueL` below also records the snapshot). -/
def assign_value (v : Board) (b : Nat) (x : List Nat) : Board :=
  if getCell v b = x then v else setCell v b x

/-- Source: `grid_values(grid)`. The two `assert` statements (length 81,
alphabet `{1-9, '.'}`) are modelled as returning `none` on violation; a
well-formed grid maps `'.'` (here `0`) to `digits` and a given digit to its
singleton. -/
def grid_values (grid : List Nat) : Option Board :=
  if grid.length = 81 ∧ ∀ c ∈ grid, c = 0 ∨ c ∈ digits then
    some (grid.map (fun c => if c = 0 then digits else [c]))
  else none

/-- One step of `eliminate`'s inner loop: `values = assign_value(values,
peer, values[peer].replace(digit, ''))`. -/
def elimPeer (d : Nat) (w : Board) (p : Nat) : Board :=
  assign_value w p ((getCell w p).filter (fun e => decide (e ≠ d)))

/-- One step of `eliminate`'s outer loop: `digit = values[box]` is re-read
from the current board; the snapshot box held a single digit on entry and
candidate lists only shrink, so at this point it holds either a single digit
(remove it from every peer) or `''` (then `replace('', '')` is the
identity, the `| _` branch). -/
def elimBox (w : Board) (b : Nat) : Board :=
  match getCell w b with
  | [d] => (peers b).foldl (elimPeer d) w
  | _ => w

/-- Source: `eliminate(values)`. The iteration list
`[box for box in values.keys() if len(values[box]) == 1]` is evaluated once
on the entry board; the mutations then thread through the fold. -/
def eliminate (v : Board) : Board :=
  (boxes.filter (fun b => (getCell v b).length == 1)).foldl elimBox v

/-- One step of `only_choice`'s inner loop: `placements` is recomputed from
the current board, and the assignment happens only when it is a singleton
(`len(placements) == 1`). -/
def ocDigit (u : List Nat) (w : Board) (d : Nat) : Board :=
  match u.filter (fun b => decide (d ∈ getCell w b)) with
  | [b] => assign_value w b [d]
  | _ => w

/-- `only_choice`'s outer loop body: all nine digits of one unit. -/
def ocUnit (w : Board) (u : List Nat) : Board := digits.foldl (ocDigit u) w

/-- Source: `only_choice(values)`. -/
def only_choice (v : Board) : Board := unitlist.foldl ocUnit v

/-- Source: the `twins` list of `naked_twins`, computed once per unit from
the board as it stands when that unit is reached:
`[(b1, b2) for b1 in unit for b2 in unit if len == len == 2 and equal and
b1 < b2]`. -/
def twinPairs (w : Board) (u : List Nat) : List (Nat × Nat) :=
  (u.flatMap (fun b1 => u.map (fun b2 => (b1, b2)))).filter
    (fun pr =>
      ((getCell w pr.1).length == 2) && ((getCell w pr.2).length == 2) &&
      (getCell w pr.1 == getCell w pr.2) && decide (pr.1 < pr.2))

/-- Source: `set(sum(units[box], []))`-style shared-peer set
`peers[box1] & peers[box2] - {box1} - {box2}` (Python parses this as
`peers[box1] ∩ ((peers[box2] \ {box1}) \ {box2})`), embedded as the
duplicate-free list of its members in `peers box1` order. -/
def sharedPeers (b1 b2 : Nat) : List Nat :=
  (peers b1).filter (fun p => decide (p ∈ peers b2 ∧ p ≠ b1 ∧ p ≠ b2))

/-- One shared peer of a twin pair:
`values[shared_peer].replace(val1, '').replace(val2, '')`. -/
def twinPeer (d1 d2 : Nat) (w : Board) (p : Nat) : Board :=
  assign_value w p
    (((getCell w p).filter (fun e => decide (e ≠ d1))).filter (fun e => decide (e ≠ d2)))

/-- Processing of one detected twin pair. The guard
`if len(values[box1]) < 2: continue` is the `then` branch. Python's
`val1, val2 = values[box1]` demands exactly two characters; on every
reachable board the value was two digits when the pair was detected and can
only have shrunk, so with the guard it has exactly two digits here and the
`d1 :: d2 :: _` pattern reads precisely those; the final `| _` branch is
unreachable. -/
def processTwin (w : Board) (pr : Nat × Nat) : Board :=
  if (getCell w pr.1).length < 2 then w
  else
    match getCell w pr.1 with
    | d1 :: d2 :: _ => (sharedPeers pr.1 pr.2).foldl (twinPeer d1 d2) w
    | _ => w

/-- `naked_twins`' outer loop body: detect this unit's twin pairs on the
current board, then process them in order. -/
def ntUnit (w : Board) (u : List Nat) : Board := (twinPairs w u).foldl processTwin w

/-- Source: `naked_twins(values)`. -/
def naked_twins (v : Board) : Board := unitlist.foldl ntUnit v

/-- Source: `len([box for box in values.keys() if len(values[box]) == 1])`,
the count of solved (fixed) boxes. -/
def nSolved (v : Board) : Nat :=
  (boxes.filter (fun b => (getCell v b).length == 1)).length

/-- Source: `len([box for box in values.keys() if len(values[box]) == 0])`
used for truthiness: whether some box has an empty candidate list. -/
def hasEmpty (v : Board) : Bool :=
  (boxes.filter (fun b => (getCell v b).length == 0)).length != 0

/-- One pass of the reducer loop body: `eliminate`, then `only_choice`,
then `naked_twins`. -/
def reduceStep (v : Board) : Board := naked_twins (only_choice (eliminate v))

/-- The `while not reduced` loop of `reduce_puzzle`, with fuel. After the
pass, first the empty-box check returns `False` (`none`), then the loop
exits returning the board when the solved count did not change, else the
next iteration runs. `reduceAux_fuel_stable` below shows fuel `82` is never
exhausted, so `none` results correspond exactly to Python's `False`. -/
def reduceAux : Nat → Board → Option Board
  | 0, _ => none
  | fuel + 1, v =>
    let v' := reduceStep v
    if hasEmpty v' then none
    else if nSolved v' = nSolved v then some v'
    else reduceAux fuel v'

/-- Source: `reduce_puzzle(values)`. -/
def reduce_puzzle (v : Board) : Option Board := reduceAux 82 v

/-- Source: `all(len(values[b]) == 1 for b in boxes)`. -/
def allSingleton (v : Board) : Bool :=
  boxes.all (fun b => (getCell v b).length == 1)

/-- Source: `n, box = min((len(values[b]), b) for b in boxes if
len(values[b]) > 1)`: the smallest `(cardinality, box)` pair in
lexicographic order, `none` when every box is decided (there Python's `min`
would raise, which is unreachable in `search`). -/
def pickBox (v : Board) : Option (Nat × Nat) :=
  (boxes.filter (fun b => decide (1 < (getCell v b).length))).foldl
    (fun best b =>
      match best with
      | none => some ((getCell v b).length, b)
      | some (bl, bb) =>
        if (getCell v b).length < bl ∨ ((getCell v b).length = bl ∧ b < bb) then
          some ((getCell v b).length, b)
        else best)
    none

/-- Source: `search(values)`, with fuel bounding the recursion depth. The
branch loop `for v in values[box]` clones the board and sets the box
directly (`new_values[box] = v`, not via `assign_value`), returning the
first truthy recursive result; the fold keeps an already-found solution and
skips the remaining digits, matching the early `return`.
`searchAux_fuel_stable` below shows fuel `82` is never exhausted.  (The
recursion is written as an explicit `Nat.rec` so that one level unfolds
definitionally; `searchAux_zero`/`searchAux_succ` restate the two
equations.) -/
def searchBody (rec : Board → Option Board) (v : Board) : Option Board :=
  match reduce_puzzle v with
  | none => none
  | some w =>
    if allSingleton w then some w
    else
      match pickBox w with
      | none => none
      | some nb =>
        (getCell w nb.2).foldl
          (fun acc d =>
            match acc with
            | some s => some s
            | none => rec (setCell w nb.2 [d]))
          none

/-- The bounded recursion itself. -/
def searchAux : Nat → Board → Option Board :=
  Nat.rec (motive := fun _ => Board → Option Board)
    (fun _ => none)
    (fun _ ihf => searchBody ihf)

/-- `search` with its proven-sufficient recursion-depth budget. -/
def search (v : Board) : Option Board := searchAux 82 v

/-- Source: `solve(grid)`: parse, search, and normalize every falsy result
(`False` from a contradiction, `None` from branch exhaustion) to the
failure sentinel `none`. -/
def solve (grid : List Nat) : Option Board := (grid_values grid).bind search


/-! ## The instrumented solver

Python threads one piece of state the functions above drop: the global
`assignments` list, to which `assign_value` appends a full-board snapshot
whenever it changes a box to a single-digit value.  The `…L` variants below
are the same functions with that state made explicit, together with an
event counter `events` that increments at *every* moment some box's
candidate value changes to a single-element value — the notion of "fixing
event" the Assignment-Record property quantifies over.  There are exactly
two kinds of such moments in the program: assignments through
`assign_value` (which also append), and the direct branch assignment
`new_values[box] = v` in `search` (which does not). -/

/-- Instrumented state: the current board, the global `assignments` log,
and the count of fixing events so far. -/
abbrev SState := Board × List Board × Nat

/-- `assign_value` with its real side effect: on a change to a
single-element value, append a snapshot of the updated board (Python's
`values.copy()`) and count the fixing event. -/
def assign_valueL (s : SState) (b : Nat) (x : List Nat) : SState :=
  if getCell s.1 b = x then s
  else
    let v' := setCell s.1 b x
    if x.length == 1 then (v', s.2.1 ++ [v'], s.2.2 + 1) else (v', s.2.1, s.2.2)

/-- Instrumented `elimPeer`. -/
def elimPeerL (d : Nat) (s : SState) (p : Nat) : SState :=
  assign_valueL s p ((getCell s.1 p).filter (fun e => decide (e ≠ d)))

/-- Instrumented `elimBox`. -/
def elimBoxL (s : SState) (b : Nat) : SState :=
  match getCell s.1 b with
  | [d] => (peers b).foldl (elimPeerL d) s
  | _ => s

/-- Instrumented `eliminate`. -/
def eliminateL (s : SState) : SState :=
  (boxes.filter (fun b => (getCell s.1 b).length == 1)).foldl elimBoxL s

/-- Instrumented `ocDigit`. -/
def ocDigitL (u : List Nat) (s : SState) (d : Nat) : SState :=
  match u.filter (fun b => decide (d ∈ getCell s.1 b)) with
  | [b] => assign_valueL s b [d]
  | _ => s

/-- Instrumented `ocUnit`. -/
def ocUnitL (s : SState) (u : List Nat) : SState := digits.foldl (ocDigitL u) s

/-- Instrumented `only_choice`. -/
def only_choiceL (s : SState) : SState := unitlist.foldl ocUnitL s

/-- Instrumented `twinPeer`. -/
def twinPeerL (d1 d2 : Nat) (s : SState) (p : Nat) : SState :=
  assign_valueL s p
    (((getCell s.1 p).filter (fun e => decide (e ≠ d1))).filter (fun e => decide (e ≠ d2)))

/-- Instrumented `processTwin`. -/
def processTwinL (s : SState) (pr : Nat × Nat) : SState :=
  if (getCell s.1 pr.1).length < 2 then s
  else
    match getCell s.1 pr.1 with
    | d1 :: d2 :: _ => (sharedPeers pr.1 pr.2).foldl (twinPeerL d1 d2) s
    | _ => s

/-- Instrumented `ntUnit`. -/
def ntUnitL (s : SState) (u : List Nat) : SState := (twinPairs s.1 u).foldl processTwinL s

/-- Instrumented `naked_twins`. -/
def naked_twinsL (s : SState) : SState := unitlist.foldl ntUnitL s

/-- Instrumented reducer pass. -/
def reduceStepL (s : SState) : SState := naked_twinsL (only_choiceL (eliminateL s))

/-- Instrumented `reduce_puzzle` loop: the result plus the final log state
(the global `assignments` persists whether or not the pass fails). -/
def reduceAuxL : Nat → SState → Option Board × List Board × Nat
  | 0, s => (none, s.2)
  | fuel + 1, s =>
    let s' := reduceStepL s
    if hasEmpty s'.1 then (none, s'.2)
    else if nSolved s'.1 = nSolved s.1 then (some s'.1, s'.2)
    else reduceAuxL fuel s'

/-- Instrumented `reduce_puzzle`. -/
def reduce_puzzleL (s : SState) : Option Board × List Board × Nat := reduceAuxL 82 s

/-- Instrumented `search`.  The branch assignment `new_values[box] = v`
sets the box directly: it is a fixing event (the box goes from several
candidates to one digit) and is counted, but nothing is appended to the
log.  A branch explored after a success is skipped, so a failed sibling's
log writes persist while no further writes happen once a solution is
found, exactly as with Python's early `return`. -/
def searchBodyL (rec : SState → Option Board × List Board × Nat) (s : SState) :
    Option Board × List Board × Nat :=
  match reduce_puzzleL s with
  | (none, t) => (none, t)
  | (some w, t) =>
    if allSingleton w then (some w, t)
    else
      match pickBox w with
      | none => (none, t)
      | some nb =>
        (getCell w nb.2).foldl
          (fun acc d =>
            match acc with
            | (some _, _) => acc
            | (none, t') => rec (setCell w nb.2 [d], t'.1, t'.2 + 1))
          (none, t)

/-- The bounded instrumented recursion itself. -/
def searchAuxL : Nat → SState → Option Board × List Board × Nat :=
  Nat.rec (motive := fun _ => SState → Option Board × List Board × Nat)
    (fun s => (none, s.2))
    (fun _ ihf => searchBodyL ihf)

/-- Instrumented `solve`, starting from the empty `assignments` list. -/
def solveL (grid : List Nat) : Option Board × List Board × Nat :=
  match grid_values grid with
  | none => (none, [], 0)
  | some v => searchAuxL 82 (v, [], 0)

/-! ## Concrete inputs used by the witnesses -/

/-- The solved board of the repository's demo diagonal puzzle, as a grid of
81 givens (a valid complete diagonal sudoku). -/
def solGrid : List Nat :=
  [2, 6, 7, 9, 4, 5, 3, 8, 1,
   8, 5, 3, 7, 1, 6, 2, 4, 9,
   4, 9, 1, 8, 2, 3, 5, 7, 6,
   5, 7, 6, 4, 3, 8, 1, 9, 2,
   3, 8, 4, 1, 9, 2, 6, 5, 7,
   1, 2, 9, 6, 5, 7, 4, 3, 8,
   6, 4, 2, 3, 7, 9, 8, 1, 5,
   9, 3, 5, 2, 8, 1, 7, 6, 4,
   7, 1, 8, 5, 6, 4, 9, 2, 3]

/-- The parsed `solGrid`: all 81 boxes fixed. -/
def solBoard : Board := solGrid.map (fun d => [d])

/-- `solGrid` with box `A2` overwritten by the digit 2: row `A` then holds
the digit 2 twice, so this grid has no solution. -/
def dupGrid : List Nat := solGrid.set 1 2

/-- The parsed `dupGrid`. -/
def dupParsed : Board := dupGrid.map (fun d => [d])

/-- `solGrid` blanked at `A2`, `A3`, `D2`, `D3` (a deadly rectangle on the
digits 6 and 7, off both diagonals): the reducer stalls with those four
boxes at `{6, 7}` and the search must branch; both branch digits complete
the puzzle. -/
def rectGrid : List Nat := (((solGrid.set 1 0).set 2 0).set 28 0).set 29 0

/-- The board of an all-blank grid: every box holds all nine candidates.
It is a fixed point of all three propagators. -/
def blankBoard : Board := List.replicate 81 digits

/-- A small board exercising `processTwin`: boxes `A1` and `A2` share the
two-element value `{1, 2}`. -/
def twinBoard : Board := (blankBoard.set 0 [1, 2]).set 1 [1, 2]

/-- A board with an unsatisfiable box pattern: boxes `A1` and `A2` both
fixed to 5, so the first elimination pass empties one of them. -/
def clashBoard : Board := (blankBoard.set 0 [5]).set 1 [5]

/-- Pointwise shrinking: same shape, and every box's candidate list a
subsequence of what it was. -/
def bLe (w v : Board) : Prop :=
  w.length = v.length ∧ ∀ c : Nat, getCell w c <+ getCell v c

/-- Decides that no digit of a solved box among `l` survives in any of that
box's peers: every `eliminate` step over `l` is then a no-op. -/
def conflictFreeOn (v : Board) (l : List Nat) : Bool :=
  l.all fun b =>
    match getCell v b with
    | [d] => (peers b).all fun p => !(getCell v p).contains d
    | _ => true

/-- `conflictFreeOn` over the whole grid. -/
def conflictFree (v : Board) : Bool := conflictFreeOn v boxes

/-- Decides that every only-choice placement over the units of `us` is
already made. -/
def ocFreeOn (v : Board) (us : List (List Nat)) : Bool :=
  us.all fun u =>
    digits.all fun d =>
      match u.filter (fun b => decide (d ∈ getCell v b)) with
      | [b] => getCell v b == [d]
      | _ => true

/-- `ocFreeOn` over all 29 units. -/
def ocFree (v : Board) : Bool := ocFreeOn v unitlist

/-- Decides that every naked-twins removal is a no-op: no shared peer of a
detected twin pair holds either twin digit. -/
def ntFree (v : Board) : Bool :=
  unitlist.all fun u =>
    (twinPairs v u).all fun pr =>
      match getCell v pr.1 with
      | d1 :: d2 :: _ =>
        (sharedPeers pr.1 pr.2).all fun p =>
          !(getCell v p).contains d1 && !(getCell v p).contains d2
      | _ => true

/-- A solution of a parsed puzzle: a completion of the parsed board (same
shape, every box's candidate list narrowed to a single digit) satisfying
all 29 units.  This is what any board reached by `search` from the parsed
board must be when it is solved. -/
def validSolution (v0 b : Board) : Prop :=
  bLe b v0 ∧ (∀ c ∈ boxes, (getCell b c).length = 1) ∧
    ∀ u ∈ unitlist, ∀ d ∈ digits, u.countP (fun c => getCell b c == [d]) = 1

/-- The number of boxes still holding more than one candidate. -/
def nUnsolved (v : Board) : Nat :=
  boxes.countP (fun b => decide (1 < (getCell v b).length))

/-! ### Intermediate states of the instrumented run on `rectGrid`

The boards and box lists below are the intermediate states of
`solveL rectGrid`; each is certified against the definitions by the
theorems that use it. -/

/-- The parsed `rectGrid`: 77 givens, 4 blank boxes. -/
def rV0 : Board :=
  [[2], [1, 2, 3, 4, 5, 6, 7, 8, 9], [1, 2, 3, 4, 5, 6, 7, 8, 9], [9], [4],
   [5], [3], [8], [1], [8], [5], [3], [7], [1], [6], [2], [4], [9], [4],
   [9], [1], [8], [2], [3], [5], [7], [6], [5], [1, 2, 3, 4, 5, 6, 7, 8,
   9], [1, 2, 3, 4, 5, 6, 7, 8, 9], [4], [3], [8], [1], [9], [2], [3],
   [8], [4], [1], [9], [2], [6], [5], [7], [1], [2], [9], [6], [5], [7],
   [4], [3], [8], [6], [4], [2], [3], [7], [9], [8], [1], [5], [9], [3],
   [5], [2], [8], [1], [7], [6], [4], [7], [1], [8], [5], [6], [4], [9],
   [2], [3]]

/-- First quarter of the solved boxes of `rV0` (the `eliminate` snapshot). -/
def rc1 : List Nat :=
  [0, 3, 4, 5, 6, 7, 8, 9, 10, 11]

/-- Second quarter of the snapshot. -/
def rc2 : List Nat :=
  [12, 13, 14, 15, 16, 17, 18, 19, 20, 21]

/-- Third quarter of the snapshot. -/
def rc3 : List Nat :=
  [22, 23, 24, 25, 26, 27, 30, 31, 32, 33]

/-- Fourth quarter of the snapshot. -/
def rc4 : List Nat :=
  [34, 35, 36, 37, 38, 39, 40, 41, 42, 43]

/-- Tail of the snapshot: boxes whose elimination no longer changes anything. -/
def rRest1 : List Nat :=
  [44, 45, 46, 47, 48, 49, 50, 51, 52, 53, 54, 55, 56, 57, 58, 59, 60, 61,
   62, 63, 64, 65, 66, 67, 68, 69, 70, 71, 72, 73, 74, 75, 76, 77, 78, 79,
   80]

/-- Board after eliminating the boxes of `rc1` from `rV0`. -/
def rB1 : Board :=
  [[2], [6, 7], [6, 7], [9], [4], [5], [3], [8], [1], [8], [5], [3], [7],
   [1], [6], [2], [4], [9], [4], [9], [1], [8], [2], [3], [5], [7], [6],
   [5], [1, 2, 3, 4, 6, 7, 8, 9], [1, 2, 4, 5, 6, 7, 8, 9], [4], [3], [8],
   [1], [9], [2], [3], [8], [4], [1], [9], [2], [6], [5], [7], [1], [2],
   [9], [6], [5], [7], [4], [3], [8], [6], [4], [2], [3], [7], [9], [8],
   [1], [5], [9], [3], [5], [2], [8], [1], [7], [6], [4], [7], [1], [8],
   [5], [6], [4], [9], [2], [3]]

/-- Board after the boxes of `rc2` as well. -/
def rB2 : Board :=
  [[2], [6, 7], [6, 7], [9], [4], [5], [3], [8], [1], [8], [5], [3], [7],
   [1], [6], [2], [4], [9], [4], [9], [1], [8], [2], [3], [5], [7], [6],
   [5], [1, 2, 3, 4, 6, 7, 8], [2, 4, 5, 6, 7, 8, 9], [4], [3], [8], [1],
   [9], [2], [3], [8], [4], [1], [9], [2], [6], [5], [7], [1], [2], [9],
   [6], [5], [7], [4], [3], [8], [6], [4], [2], [3], [7], [9], [8], [1],
   [5], [9], [3], [5], [2], [8], [1], [7], [6], [4], [7], [1], [8], [5],
   [6], [4], [9], [2], [3]]

/-- Board after the boxes of `rc3` as well. -/
def rB3 : Board :=
  [[2], [6, 7], [6, 7], [9], [4], [5], [3], [8], [1], [8], [5], [3], [7],
   [1], [6], [2], [4], [9], [4], [9], [1], [8], [2], [3], [5], [7], [6],
   [5], [2, 6, 7], [2, 6, 7, 9], [4], [3], [8], [1], [9], [2], [3], [8],
   [4], [1], [9], [2], [6], [5], [7], [1], [2], [9], [6], [5], [7], [4],
   [3], [8], [6], [4], [2], [3], [7], [9], [8], [1], [5], [9], [3], [5],
   [2], [8], [1], [7], [6], [4], [7], [1], [8], [5], [6], [4], [9], [2],
   [3]]

/-- The root reducer fixed point of `rV0`: the four blanks at `{6, 7}`. -/
def rW1 : Board :=
  [[2], [6, 7], [6, 7], [9], [4], [5], [3], [8], [1], [8], [5], [3], [7],
   [1], [6], [2], [4], [9], [4], [9], [1], [8], [2], [3], [5], [7], [6],
   [5], [6, 7], [6, 7], [4], [3], [8], [1], [9], [2], [3], [8], [4], [1],
   [9], [2], [6], [5], [7], [1], [2], [9], [6], [5], [7], [4], [3], [8],
   [6], [4], [2], [3], [7], [9], [8], [1], [5], [9], [3], [5], [2], [8],
   [1], [7], [6], [4], [7], [1], [8], [5], [6], [4], [9], [2], [3]]

/-- `rW1` with the branch assignment `A2 := 6` applied. -/
def rW1b : Board :=
  [[2], [6], [6, 7], [9], [4], [5], [3], [8], [1], [8], [5], [3], [7], [1],
   [6], [2], [4], [9], [4], [9], [1], [8], [2], [3], [5], [7], [6], [5],
   [6, 7], [6, 7], [4], [3], [8], [1], [9], [2], [3], [8], [4], [1], [9],
   [2], [6], [5], [7], [1], [2], [9], [6], [5], [7], [4], [3], [8], [6],
   [4], [2], [3], [7], [9], [8], [1], [5], [9], [3], [5], [2], [8], [1],
   [7], [6], [4], [7], [1], [8], [5], [6], [4], [9], [2], [3]]

/-- Tail of the branch snapshot after boxes 0 and 1. -/
def rRestA : List Nat :=
  [3, 4, 5, 6, 7, 8, 9, 10, 11, 12, 13, 14, 15, 16, 17, 18, 19, 20, 21, 22,
   23, 24, 25, 26, 27, 30, 31, 32, 33, 34, 35, 36, 37, 38, 39, 40, 41, 42,
   43, 44, 45, 46, 47, 48, 49, 50, 51, 52, 53, 54, 55, 56, 57, 58, 59, 60,
   61, 62, 63, 64, 65, 66, 67, 68, 69, 70, 71, 72, 73, 74, 75, 76, 77, 78,
   79, 80]

/-- First snapshot logged in the branch: `A3` fixed to 7. -/
def rLA1 : Board :=
  [[2], [6], [7], [9], [4], [5], [3], [8], [1], [8], [5], [3], [7], [1], [6],
   [2], [4], [9], [4], [9], [1], [8], [2], [3], [5], [7], [6], [5], [6,
   7], [6, 7], [4], [3], [8], [1], [9], [2], [3], [8], [4], [1], [9], [2],
   [6], [5], [7], [1], [2], [9], [6], [5], [7], [4], [3], [8], [6], [4],
   [2], [3], [7], [9], [8], [1], [5], [9], [3], [5], [2], [8], [1], [7],
   [6], [4], [7], [1], [8], [5], [6], [4], [9], [2], [3]]

/-- Second snapshot logged in the branch: `D2` fixed to 7. -/
def rLA2 : Board :=
  [[2], [6], [7], [9], [4], [5], [3], [8], [1], [8], [5], [3], [7], [1], [6],
   [2], [4], [9], [4], [9], [1], [8], [2], [3], [5], [7], [6], [5], [7],
   [6, 7], [4], [3], [8], [1], [9], [2], [3], [8], [4], [1], [9], [2],
   [6], [5], [7], [1], [2], [9], [6], [5], [7], [4], [3], [8], [6], [4],
   [2], [3], [7], [9], [8], [1], [5], [9], [3], [5], [2], [8], [1], [7],
   [6], [4], [7], [1], [8], [5], [6], [4], [9], [2], [3]]

/-- The three row units before row `D`. -/
def rUPre : List (List Nat) :=
  [[0, 1, 2, 3, 4, 5, 6, 7, 8], [9, 10, 11, 12, 13, 14, 15, 16, 17], [18, 19,
   20, 21, 22, 23, 24, 25, 26]]

/-- The 25 units after row `D`. -/
def rUPost : List (List Nat) :=
  [[36, 37, 38, 39, 40, 41, 42, 43, 44], [45, 46, 47, 48, 49, 50, 51, 52,
   53], [54, 55, 56, 57, 58, 59, 60, 61, 62], [63, 64, 65, 66, 67, 68, 69,
   70, 71], [72, 73, 74, 75, 76, 77, 78, 79, 80], [0, 9, 18, 27, 36, 45,
   54, 63, 72], [1, 10, 19, 28, 37, 46, 55, 64, 73], [2, 11, 20, 29, 38,
   47, 56, 65, 74], [3, 12, 21, 30, 39, 48, 57, 66, 75], [4, 13, 22, 31,
   40, 49, 58, 67, 76], [5, 14, 23, 32, 41, 50, 59, 68, 77], [6, 15, 24,
   33, 42, 51, 60, 69, 78], [7, 16, 25, 34, 43, 52, 61, 70, 79], [8, 17,
   26, 35, 44, 53, 62, 71, 80], [0, 1, 2, 9, 10, 11, 18, 19, 20], [3, 4,
   5, 12, 13, 14, 21, 22, 23], [6, 7, 8, 15, 16, 17, 24, 25, 26], [27, 28,
   29, 36, 37, 38, 45, 46, 47], [30, 31, 32, 39, 40, 41, 48, 49, 50], [33,
   34, 35, 42, 43, 44, 51, 52, 53], [54, 55, 56, 63, 64, 65, 72, 73, 74],
   [57, 58, 59, 66, 67, 68, 75, 76, 77], [60, 61, 62, 69, 70, 71, 78, 79,
   80], [0, 10, 20, 30, 40, 50, 60, 70, 80], [72, 64, 56, 48, 40, 32, 24,
   16, 8]]

/-- Growth discipline of the side state across one step: the log may only
be extended, and the event counter grows by at least the number of new log
entries. -/
def LogLe (a b : List Board × Nat) : Prop :=
  (∃ t, b.1 = a.1 ++ t) ∧ a.2 + b.1.length ≤ a.1.length + b.2

/-- Invariant tying the running board to the assignment record: the board
is a full 81-box grid, no two consecutive snapshots are equal, and the
board refines the last snapshot (so the next snapshot, which is strictly
newer at its assigned box, cannot repeat it). -/
def RecordInv (s : SState) : Prop :=
  s.1.length = 81 ∧ s.2.1.Chain' (· ≠ ·) ∧
    ∀ l, s.2.1.getLast? = some l → bLe s.1 l

/-- Box `c` is pinned to digit `d`: `c` holds exactly `[d]` and no peer of
`c` still has `d` as a candidate — nothing the solver does from here on can
change box `c` or reintroduce `d` near it. -/
def Pinned (b : Board) (c d : Nat) : Prop :=
  getCell b c = [d] ∧ ∀ p ∈ peers c, d ∉ getCell b p

/-- No solved box's digit survives in any of its peers (the propositional
form of `conflictFree`).  Every board the reducer returns satisfies this. -/
def StallFree (b : Board) : Prop :=
  ∀ q e, getCell b q = [e] → ∀ p ∈ peers q, e ∉ getCell b p

/-- A branch-entry board: box `bx` was just set to the single digit `d` on
a conflict-free reducer fixed point, so `bx` is the only solved box that
may still conflict with its peers. -/
def SeamState (b : Board) (bx d : Nat) : Prop :=
  getCell b bx = [d] ∧
    ∀ q e, q ≠ bx → getCell b q = [e] → ∀ p ∈ peers q, e ∉ getCell b p

/-- Prepending older entries to the log of a side state. -/
def shiftL (L0 : List Board) (s : SState) : SState :=
  (s.1, L0 ++ s.2.1, s.2.2)

/-- The assignments the three propagators perform, with the facts that
hold about the board at the moment of each call: an elimination assigns a
peer of a solved box its value minus that box's digit; an only-choice
assignment fixes the single box of a unit that can still take a digit; a
naked-twins assignment strips the twin digits from a shared peer of the
pair. -/
inductive PropCall : Board → Nat → List Nat → Prop where
  | elim (v : Board) (q e p : Nat) (hq : getCell v q = [e]) (hp : p ∈ peers q) :
      PropCall v p ((getCell v p).filter (fun a => decide (a ≠ e)))
  | oc (v : Board) (u : List Nat) (e b : Nat)
      (hb : u.filter (fun b2 => decide (e ∈ getCell v b2)) = [b]) :
      PropCall v b [e]
  | twin (v : Board) (t1 t2 p d1 d2 : Nat) (rest : List Nat)
      (ht : getCell v t1 = d1 :: d2 :: rest) (hp : p ∈ sharedPeers t1 t2) :
      PropCall v p
        (((getCell v p).filter (fun a => decide (a ≠ d1))).filter
          (fun a => decide (a ≠ d2)))

/-- What one `search` call adds to the assignment record: the record is
only appended to; the appended stretch has no two consecutive equal
snapshots; every appended snapshot shrinks the entry board; and a pin (or
a fresh branch seam) on the entry board shows unchanged on every appended
snapshot. -/
def SearchExt (s : SState) (r : Option Board × List Board × Nat) : Prop :=
  ∃ ext : List Board, r.2.1 = s.2.1 ++ ext ∧
    ext.Chain' (· ≠ ·) ∧
    (∀ S ∈ ext, bLe S s.1) ∧
    (∀ c e, Pinned s.1 c e → ∀ S ∈ ext, getCell S c = [e]) ∧
    (∀ bx dd, SeamState s.1 bx dd → bx < 81 → ∀ S ∈ ext, getCell S bx = [dd])

/-! ## Basic board lemmas -/

/-- Reading after writing: a write at `b` is visible at `b` when `b` is a
real key, and invisible elsewhere. -/
theorem getCell_setCell (v : Board) (b : Nat) (x : List Nat) (c : Nat) :
    getCell (setCell v b x) c = if b < v.length ∧ c = b then x else getCell v c := by
  unfold getCell setCell
  rw [List.getD_eq_getElem?_getD, List.getD_eq_getElem?_getD, List.getElem?_set]
  by_cases hc : b = c
  · subst hc
    by_cases hb : b < v.length
    · simp [hb]
    · simp [hb, List.getElem?_eq_none (Nat.le_of_not_lt hb)]
  · have hnot : ¬(b < v.length ∧ c = b) := fun h => hc h.2.symm
    simp [hc, hnot]

theorem length_setCell (v : Board) (b : Nat) (x : List Nat) :
    (setCell v b x).length = v.length := List.length_set ..

/-- `assign_value` and `setCell` build the same board. -/
theorem getCell_assign (v : Board) (b : Nat) (x : List Nat) (c : Nat) :
    getCell (assign_value v b x) c = if b < v.length ∧ c = b then x else getCell v c := by
  unfold assign_value
  by_cases h : getCell v b = x
  · rw [if_pos h]
    split
    · next hc => rw [hc.2, h]
    · rfl
  · rw [if_neg h, getCell_setCell]

theorem length_assign (v : Board) (b : Nat) (x : List Nat) :
    (assign_value v b x).length = v.length := by
  unfold assign_value
  split
  · rfl
  · exact length_setCell ..

/-! ## The shrinking order on boards -/

theorem bLe_refl (v : Board) : bLe v v := ⟨rfl, fun _ => List.Sublist.refl _⟩

theorem bLe_trans {w v u : Board} (h1 : bLe w v) (h2 : bLe v u) : bLe w u :=
  ⟨h1.1.trans h2.1, fun c => (h1.2 c).trans (h2.2 c)⟩

theorem bLe_antisymm {w v : Board} (h1 : bLe w v) (h2 : bLe v w) : w = v := by
  refine List.ext_getElem h1.1 (fun i hi hi2 => ?_)
  have hc : getCell w i = getCell v i := (h1.2 i).antisymm (h2.2 i)
  unfold getCell at hc
  rw [List.getD_eq_getElem?_getD, List.getD_eq_getElem?_getD,
    List.getElem?_eq_getElem hi, List.getElem?_eq_getElem hi2] at hc
  simpa using hc

/-- A fold of shrinking steps shrinks. -/
theorem foldl_bLe {β : Type} (f : Board → β → Board) (l : List β)
    (hf : ∀ w x, x ∈ l → bLe (f w x) w) (v : Board) : bLe (l.foldl f v) v := by
  induction l generalizing v with
  | nil => exact bLe_refl v
  | cons x t ih =>
    rw [List.foldl_cons]
    exact bLe_trans (ih (fun w y hy => hf w y (List.mem_cons_of_mem x hy)) (f v x))
      (hf v x (List.mem_cons_self x t))

/-- If a fold of shrinking steps returns its starting board, then each
step, taken from that board, is the identity. -/
theorem foldl_fix {β : Type} (f : Board → β → Board) (l : List β)
    (hf : ∀ w x, x ∈ l → bLe (f w x) w) (v : Board) (h : l.foldl f v = v) :
    ∀ x ∈ l, f v x = v := by
  induction l generalizing v with
  | nil => intro x hx; cases hx
  | cons y t ih =>
    rw [List.foldl_cons] at h
    have hft : ∀ w x, x ∈ t → bLe (f w x) w :=
      fun w x hx => hf w x (List.mem_cons_of_mem y hx)
    have hy : f v y = v := by
      have h1 : bLe (f v y) v := hf v y (List.mem_cons_self y t)
      have h2 : bLe (List.foldl f (f v y) t) (f v y) := foldl_bLe f t hft (f v y)
      rw [h] at h2
      exact bLe_antisymm h1 h2
    intro x hx
    rcases List.mem_cons.1 hx with rfl | hx
    · exact hy
    · exact ih hft v (by rwa [hy] at h) x hx

/-! ## The propagators only shrink candidate lists -/

/-- Assigning a subsequence of a box's current value shrinks the board. -/
theorem assign_bLe {v : Board} {b : Nat} {x : List Nat} (h : x <+ getCell v b) :
    bLe (assign_value v b x) v := by
  refine ⟨length_assign .., fun c => ?_⟩
  rw [getCell_assign]
  split
  · next hc => rw [hc.2]; exact h
  · exact List.Sublist.refl _

theorem elimPeer_bLe (d : Nat) (w : Board) (p : Nat) : bLe (elimPeer d w p) w :=
  assign_bLe (List.filter_sublist _)

theorem elimBox_bLe (w : Board) (b : Nat) : bLe (elimBox w b) w := by
  unfold elimBox
  split
  · exact foldl_bLe _ _ (fun u p _ => elimPeer_bLe _ u p) w
  · exact bLe_refl w

theorem eliminate_bLe (v : Board) : bLe (eliminate v) v :=
  foldl_bLe _ _ (fun w b _ => elimBox_bLe w b) v

theorem ocDigit_bLe (u : List Nat) (w : Board) (d : Nat) : bLe (ocDigit u w d) w := by
  unfold ocDigit
  split
  · next b heq =>
    have hb : b ∈ u.filter (fun b => decide (d ∈ getCell w b)) := by
      rw [heq]; exact List.mem_singleton_self b
    have hd := List.of_mem_filter hb
    exact assign_bLe (List.singleton_sublist.2 (of_decide_eq_true hd))
  · exact bLe_refl w

theorem ocUnit_bLe (w : Board) (u : List Nat) : bLe (ocUnit w u) w :=
  foldl_bLe _ _ (fun w2 d _ => ocDigit_bLe u w2 d) w

theorem only_choice_bLe (v : Board) : bLe (only_choice v) v :=
  foldl_bLe _ _ (fun w u _ => ocUnit_bLe w u) v

theorem twinPeer_bLe (d1 d2 : Nat) (w : Board) (p : Nat) : bLe (twinPeer d1 d2 w p) w :=
  assign_bLe ((List.filter_sublist _).trans (List.filter_sublist _))

theorem processTwin_bLe (w : Board) (pr : Nat × Nat) : bLe (processTwin w pr) w := by
  unfold processTwin
  split
  · exact bLe_refl w
  · split
    · exact foldl_bLe _ _ (fun u p _ => twinPeer_bLe _ _ u p) w
    · exact bLe_refl w

theorem ntUnit_bLe (w : Board) (u : List Nat) : bLe (ntUnit w u) w :=
  foldl_bLe _ _ (fun w2 pr _ => processTwin_bLe w2 pr) w

theorem naked_twins_bLe (v : Board) : bLe (naked_twins v) v :=
  foldl_bLe _ _ (fun w u _ => ntUnit_bLe w u) v

theorem reduceStep_bLe (v : Board) : bLe (reduceStep v) v :=
  bLe_trans (bLe_trans (naked_twins_bLe _) (only_choice_bLe _)) (eliminate_bLe v)

/-! ## Counting lemmas -/

/-- The 81 boxes are exactly the indices `0`–`80`. -/
theorem boxes_eq_range : boxes = List.range 81 := by decide

theorem mem_boxes {c : Nat} : c ∈ boxes ↔ c < 81 := by
  rw [boxes_eq_range]; exact List.mem_range

/-- Out-of-range keys read as the empty list. -/
theorem getCell_eq_nil {v : Board} {c : Nat} (h : v.length ≤ c) : getCell v c = [] := by
  unfold getCell
  rw [List.getD_eq_getElem?_getD, List.getElem?_eq_none h]
  rfl

theorem hasEmpty_eq_false {v : Board} :
    hasEmpty v = false ↔ ∀ c ∈ boxes, getCell v c ≠ [] := by
  unfold hasEmpty
  rw [bne_eq_false_iff_eq]
  simp only [List.length_eq_zero, List.filter_eq_nil_iff, beq_iff_eq]

theorem allSingleton_iff {v : Board} :
    allSingleton v = true ↔ ∀ c ∈ boxes, (getCell v c).length = 1 := by
  unfold allSingleton
  simp only [List.all_eq_true, beq_iff_eq]

theorem nSolved_eq_countP (v : Board) :
    nSolved v = boxes.countP (fun b => (getCell v b).length == 1) := by
  unfold nSolved
  rw [List.countP_eq_length_filter]

/-- Any list is obtained from a one-element list only as `[]` or itself. -/
theorem sublist_of_singleton {l m : List Nat} (h : l <+ m) (hm : m.length = 1) :
    l = [] ∨ l = m := by
  rcases Nat.lt_or_ge l.length 1 with h1 | h1
  · exact Or.inl (List.length_eq_zero.1 (Nat.lt_one_iff.1 h1))
  · refine Or.inr (h.eq_of_length ?_)
    have := h.length_le
    omega

/-- On a shrink with no empty box, every solved box keeps its digit. -/
theorem getCell_eq_of_singleton {w v : Board} (h : bLe w v) (hne : hasEmpty w = false)
    {c : Nat} (hc : c ∈ boxes) (h1 : (getCell v c).length = 1) : getCell w c = getCell v c := by
  rcases sublist_of_singleton (h.2 c) h1 with h0 | h0
  · exact absurd h0 (hasEmpty_eq_false.1 hne c hc)
  · exact h0

/-- A shrink with no empty box cannot lose solved boxes. -/
theorem nSolved_le_of_bLe {w v : Board} (h : bLe w v) (hne : hasEmpty w = false) :
    nSolved v ≤ nSolved w := by
  rw [nSolved_eq_countP, nSolved_eq_countP]
  refine List.countP_mono_left (fun c hc hp => ?_)
  have h1 : (getCell v c).length = 1 := by simpa using hp
  simp [getCell_eq_of_singleton h hne hc h1, h1]

/-- A fully solved shrink of a board with the same solved count is that
board (the pass that certifies a solved board changed nothing). -/
theorem eq_of_allSingleton_of_nSolved {w u : Board} (hw : w.length = 81) (h : bLe w u)
    (hne : hasEmpty w = false) (hall : allSingleton w = true)
    (hcount : nSolved w = nSolved u) : u = w := by
  have hwu : ∀ c ∈ boxes, (getCell u c).length = 1 := by
    have hw81 : nSolved w = boxes.length := by
      rw [nSolved_eq_countP, List.countP_eq_length]
      intro c hc
      simpa using allSingleton_iff.1 hall c hc
    have hu81 : nSolved u = boxes.length := by omega
    rw [nSolved_eq_countP, List.countP_eq_length] at hu81
    intro c hc
    simpa using hu81 c hc
  refine bLe_antisymm ⟨h.1.symm, fun c => ?_⟩ h
  by_cases hc : c ∈ boxes
  · rw [getCell_eq_of_singleton h hne hc (hwu c hc)]
  · have h81 : 81 ≤ c := Nat.le_of_not_lt (fun hlt => hc (mem_boxes.2 hlt))
    rw [getCell_eq_nil (hw ▸ h81 : w.length ≤ c),
      getCell_eq_nil ((h.1 ▸ hw : u.length = 81) ▸ h81 : u.length ≤ c)]

/-! ## Properties of the fixed-point reducer -/

theorem nSolved_le_81 (v : Board) : nSolved v ≤ 81 :=
  (List.length_filter_le _ _).trans (by decide)

/-- Everything a returned board of the reducer satisfies: it shrinks the
input, it has no empty box (even when the stabilising pass is the one that
found it), and it is the output of a full pass that did not change the
solved count. -/
theorem reduceAux_some {fuel : Nat} {v w : Board} (h : reduceAux fuel v = some w) :
    bLe w v ∧ hasEmpty w = false ∧
      ∃ u, bLe u v ∧ reduceStep u = w ∧ nSolved w = nSolved u := by
  induction fuel generalizing v with
  | zero => exact absurd h (by simp [reduceAux])
  | succ f ih =>
    simp only [reduceAux] at h
    by_cases he : hasEmpty (reduceStep v)
    · simp [he] at h
    · rw [if_neg he] at h
      by_cases hn : nSolved (reduceStep v) = nSolved v
      · rw [if_pos hn] at h
        injection h with h
        subst h
        exact ⟨reduceStep_bLe v, by simpa using he, v, bLe_refl v, rfl, hn⟩
      · rw [if_neg hn] at h
        obtain ⟨h1, h2, u, hu1, hu2, hu3⟩ := ih h
        exact ⟨bLe_trans h1 (reduceStep_bLe v), h2, u,
          bLe_trans hu1 (reduceStep_bLe v), hu2, hu3⟩

/-- While no box is empty, every continuing pass strictly increases the
solved count, so any fuel beyond `81 - nSolved v` computes the same result:
the Python `while` loop always terminates and `82` units of fuel are
enough. -/
theorem reduceAux_fuel_stable {n : Nat} : ∀ {f g : Nat} {v : Board}, 81 - nSolved v ≤ n →
    n < f → n < g → reduceAux f v = reduceAux g v := by
  induction n with
  | zero =>
    intro f g v hn hf hg
    obtain ⟨f', rfl⟩ : ∃ f', f = f' + 1 := ⟨f - 1, by omega⟩
    obtain ⟨g', rfl⟩ : ∃ g', g = g' + 1 := ⟨g - 1, by omega⟩
    simp only [reduceAux]
    by_cases he : hasEmpty (reduceStep v)
    · simp [he]
    · rw [if_neg he, if_neg he]
      by_cases hc : nSolved (reduceStep v) = nSolved v
      · rw [if_pos hc, if_pos hc]
      · have hle := nSolved_le_of_bLe (reduceStep_bLe v) (by simpa using he)
        have h81 := nSolved_le_81 (reduceStep v)
        omega
  | succ m ih =>
    intro f g v hn hf hg
    obtain ⟨f', rfl⟩ : ∃ f', f = f' + 1 := ⟨f - 1, by omega⟩
    obtain ⟨g', rfl⟩ : ∃ g', g = g' + 1 := ⟨g - 1, by omega⟩
    simp only [reduceAux]
    by_cases he : hasEmpty (reduceStep v)
    · simp [he]
    · rw [if_neg he, if_neg he]
      by_cases hc : nSolved (reduceStep v) = nSolved v
      · rw [if_pos hc, if_pos hc]
      · rw [if_neg hc, if_neg hc]
        have hle := nSolved_le_of_bLe (reduceStep_bLe v) (by simpa using he)
        have h81 := nSolved_le_81 (reduceStep v)
        exact ih (by omega) (by omega) (by omega)

/-- `reduce_puzzle`'s fuel of `82` is exact: any larger budget agrees. -/
theorem reduce_puzzle_eq_reduceAux {f : Nat} (hf : 82 ≤ f) (v : Board) :
    reduce_puzzle v = reduceAux f v := by
  have h81 := nSolved_le_81 v
  exact reduceAux_fuel_stable (n := 81) (by omega) (by omega) (by omega)

/-! ## Topology facts -/

/-- The peers table entry of a box is the defining comprehension. -/
theorem peers_eq {b : Nat} (hb : b < 81) :
    peers b = boxes.filter (fun p => decide (p ∈ (units b).flatten ∧ p ≠ b)) := by
  unfold peers
  conv_lhs => rw [peers_list_eq, boxes_eq_range]
  rw [List.getD_eq_getElem?_getD, List.getElem?_map, List.getElem?_range hb]
  rfl

theorem mem_units_iff {b : Nat} {u : List Nat} : u ∈ units b ↔ u ∈ unitlist ∧ b ∈ u := by
  unfold units
  simp [List.mem_filter]

/-- Membership in a peer set: a different box sharing some unit. -/
theorem mem_peers_iff {b p : Nat} (hb : b < 81) :
    p ∈ peers b ↔ p ∈ boxes ∧ p ≠ b ∧ ∃ u ∈ unitlist, b ∈ u ∧ p ∈ u := by
  rw [peers_eq hb]
  simp only [List.mem_filter, decide_eq_true_eq, List.mem_flatten]
  constructor
  · rintro ⟨hp, ⟨u, hu, hpu⟩, hne⟩
    exact ⟨hp, hne, u, (mem_units_iff.1 hu).1, (mem_units_iff.1 hu).2, hpu⟩
  · rintro ⟨hp, hne, u, hu, hbu, hpu⟩
    exact ⟨hp, ⟨u, mem_units_iff.2 ⟨hu, hbu⟩, hpu⟩, hne⟩

/-- Every unit has 9 pairwise-distinct cells, all of them boxes. -/
theorem unitlist_facts :
    ∀ u ∈ unitlist, u.length = 9 ∧ u.Nodup ∧ ∀ b ∈ u, b ∈ boxes := by decide

/-- Two distinct cells of one unit are peers of each other. -/
theorem mem_peers_of_same_unit {u : List Nat} (hu : u ∈ unitlist) {a b : Nat}
    (ha : a ∈ u) (hb : b ∈ u) (hne : b ≠ a) : b ∈ peers a := by
  have haB : a ∈ boxes := (unitlist_facts u hu).2.2 a ha
  have hbB : b ∈ boxes := (unitlist_facts u hu).2.2 b hb
  exact (mem_peers_iff (mem_boxes.1 haB)).2 ⟨hbB, hne, u, hu, ha, hb⟩

/-! ## A board that `eliminate` does not change has no peer conflicts -/

/-- On a board `eliminate` leaves unchanged, a solved box's digit is not a
candidate of any of its peers. -/
theorem eliminate_fixed_no_conflict {w : Board} (hw81 : w.length = 81)
    (hfix : eliminate w = w) {b : Nat} (hb : b ∈ boxes)
    {d : Nat} (hd : getCell w b = [d]) {p : Nat} (hp : p ∈ peers b) :
    d ∉ getCell w p := by
  have hplt : p < w.length := by
    rw [hw81]
    exact mem_boxes.1 ((mem_peers_iff (mem_boxes.1 hb)).1 hp).1
  have hmem : b ∈ boxes.filter (fun b => (getCell w b).length == 1) :=
    List.mem_filter.2 ⟨hb, by rw [hd]; rfl⟩
  have hbox : elimBox w b = w :=
    foldl_fix _ _ (fun u x _ => elimBox_bLe u x) w hfix b hmem
  rw [elimBox, hd] at hbox
  have hpeer : elimPeer d w p = w :=
    foldl_fix _ _ (fun u x _ => elimPeer_bLe d u x) w hbox p hp
  unfold elimPeer assign_value at hpeer
  by_cases hg : getCell w p = (getCell w p).filter (fun e => decide (e ≠ d))
  · intro hdin
    have hdf : d ∈ (getCell w p).filter (fun e => decide (e ≠ d)) := hg ▸ hdin
    have := List.of_mem_filter hdf
    simp at this
  · rw [if_neg hg] at hpeer
    have hgc := congrArg (fun t => getCell t p) hpeer
    simp only [getCell_setCell] at hgc
    rw [if_pos ⟨hplt, trivial⟩] at hgc
    exact absurd hgc.symm hg

/-! ## A solved eliminate-fixed board satisfies every unit -/

/-- Each digit matches the nine singleton candidate values exactly once. -/
theorem countP_singleton_digits :
    ∀ d ∈ digits, digits.countP (fun e => ([e] : List Nat) == [d]) = 1 := by
  decide

/-- Pigeonhole over one unit: nine pairwise-distinct singleton digits drawn
from the nine digits hit each digit exactly once. -/
theorem unit_each_digit_once {w : Board} (hw81 : w.length = 81)
    (hfix : eliminate w = w) (hall : ∀ c ∈ boxes, (getCell w c).length = 1)
    (hcanon : ∀ c ∈ boxes, getCell w c <+ digits)
    {u : List Nat} (hu : u ∈ unitlist) {d : Nat} (hd : d ∈ digits) :
    u.countP (fun c => getCell w c == [d]) = 1 := by
  obtain ⟨hlen, hnodup, hcells⟩ := unitlist_facts u hu
  -- the singleton value of each cell of the unit
  have hsing : ∀ c ∈ u, ∃ e, getCell w c = [e] ∧ e ∈ digits := by
    intro c hc
    obtain ⟨e, he⟩ := List.length_eq_one.1 (hall c (hcells c hc))
    refine ⟨e, he, ?_⟩
    have hcc := hcanon c (hcells c hc)
    rw [he] at hcc
    exact List.singleton_sublist.1 hcc
  have hdist : ∀ c1 ∈ u, ∀ c2 ∈ u, c1 ≠ c2 → getCell w c1 ≠ getCell w c2 := by
    intro c1 hc1 c2 hc2 hne heq
    obtain ⟨e1, he1, _⟩ := hsing c1 hc1
    have hp : c2 ∈ peers c1 := mem_peers_of_same_unit hu hc1 hc2 (Ne.symm hne)
    have hnc := eliminate_fixed_no_conflict hw81 hfix (hcells c1 hc1) he1 hp
    rw [← heq, he1] at hnc
    exact hnc (List.mem_singleton_self e1)
  have hmap : (u.map (fun c => getCell w c)).Nodup :=
    List.Nodup.map_on
      (fun x hx y hy hf =>
        Classical.byContradiction (fun hne => hdist x hx y hy hne hf)) hnodup
  have hsub : (u.map (fun c => getCell w c)) ⊆ digits.map (fun e => [e]) := by
    intro l hl
    obtain ⟨c, hc, rfl⟩ := List.mem_map.1 hl
    obtain ⟨e, he, hed⟩ := hsing c hc
    rw [he]
    exact List.mem_map.2 ⟨e, hed, rfl⟩
  have hperm : (u.map (fun c => getCell w c)) ~ (digits.map (fun e => [e])) := by
    refine List.Subperm.perm_of_length_le (List.subperm_of_subset hmap hsub) ?_
    rw [List.length_map, List.length_map, hlen]
    decide
  have hcnt := hperm.countP_eq (fun l => l == [d])
  rw [List.countP_map, List.countP_map] at hcnt
  simp only [Function.comp_def] at hcnt
  rw [hcnt]
  exact countP_singleton_digits d hd


/-! ## Properties of the search -/

theorem setCell_bLe {v : Board} {b : Nat} {x : List Nat} (h : x <+ getCell v b) :
    bLe (setCell v b x) v := by
  refine ⟨length_setCell .., fun c => ?_⟩
  rw [getCell_setCell]
  split
  · next hc => rw [hc.2]; exact h
  · exact List.Sublist.refl _

theorem searchAux_zero (v : Board) : searchAux 0 v = none := rfl

/-- Definitional unfolding of one level of the search. -/
theorem searchAux_succ (f : Nat) (v : Board) :
    searchAux (f + 1) v = searchBody (searchAux f) v := rfl

theorem searchAuxL_zero (s : SState) : searchAuxL 0 s = (none, s.2) := rfl

/-- Definitional unfolding of one level of the instrumented search. -/
theorem searchAuxL_succ (f : Nat) (s : SState) :
    searchAuxL (f + 1) s = searchBodyL (searchAuxL f) s := rfl

attribute [irreducible] searchAux searchAuxL

/-- The two cases of the search body, keyed by the reducer's verdict. -/
theorem searchBody_none {rec : Board → Option Board} {v : Board}
    (h : reduce_puzzle v = none) : searchBody rec v = none := by
  unfold searchBody
  rw [h]

theorem searchBody_some {rec : Board → Option Board} {v w : Board}
    (h : reduce_puzzle v = some w) :
    searchBody rec v =
      if allSingleton w then some w
      else
        match pickBox w with
        | none => none
        | some nb =>
          (getCell w nb.2).foldl
            (fun acc d =>
              match acc with
              | some s => some s
              | none => rec (setCell w nb.2 [d]))
            none := by
  unfold searchBody
  rw [h]

/-- A malformed grid makes the solve fail before searching. -/
theorem solve_of_grid_none {g : List Nat} (h : grid_values g = none) : solve g = none := by
  unfold solve
  rw [h]
  rfl

/-- A parsed grid is searched with the proven-sufficient depth budget. -/
theorem solve_of_grid_some {g : List Nat} {v : Board} (h : grid_values g = some v) :
    solve g = searchAux 82 v := by
  unfold solve
  rw [h]
  rfl

/-- The branch loop returns the carried result or some branch's result. -/
theorem branch_fold_some {f : Nat} {w : Board} {bx : Nat} :
    ∀ {ds : List Nat} {acc : Option Board} {b : Board},
    ds.foldl
      (fun acc d => match acc with
        | some s => some s
        | none => searchAux f (setCell w bx [d])) acc = some b →
    acc = some b ∨ ∃ d ∈ ds, searchAux f (setCell w bx [d]) = some b := by
  intro ds
  induction ds with
  | nil => exact fun h => Or.inl h
  | cons d t ih =>
    intro acc b h
    rw [List.foldl_cons] at h
    rcases ih h with hacc | ⟨e, he, hse⟩
    · match acc, hacc with
      | some s, hacc => exact Or.inl hacc
      | none, hacc => exact Or.inr ⟨d, List.mem_cons_self d t, hacc⟩
    · exact Or.inr ⟨e, List.mem_cons_of_mem d he, hse⟩

/-- What a successful search returns: a shrink of its input that is fully
solved, has no empty box, and is the unchanged output of a full reducer
pass. -/
theorem searchAux_some : ∀ {f : Nat} {v b : Board}, searchAux f v = some b →
    bLe b v ∧ allSingleton b = true ∧ hasEmpty b = false ∧
      ∃ u, reduceStep u = b ∧ nSolved b = nSolved u := by
  intro f
  induction f with
  | zero => intro v b h; rw [searchAux_zero] at h; cases h
  | succ f ih =>
    intro v b h
    rw [searchAux_succ] at h
    match hr : reduce_puzzle v with
    | none => rw [searchBody_none hr] at h; cases h
    | some w =>
      rw [searchBody_some hr] at h
      have hred := reduceAux_some (v := v) (w := w) hr
      by_cases hall : allSingleton w
      · rw [if_pos hall] at h
        injection h with h
        subst h
        exact ⟨hred.1, hall, hred.2.1, hred.2.2.choose,
          hred.2.2.choose_spec.2.1, hred.2.2.choose_spec.2.2⟩
      · rw [if_neg hall] at h
        match hp : pickBox w with
        | none => rw [hp] at h; cases h
        | some nb =>
          rw [hp] at h
          rcases branch_fold_some h with hacc | ⟨d, hd, hs⟩
          · cases hacc
          · obtain ⟨h1, h2, h3, h4⟩ := ih hs
            have hset : bLe (setCell w nb.2 [d]) w :=
              setCell_bLe (List.singleton_sublist.2 hd)
            exact ⟨bLe_trans (bLe_trans h1 hset) hred.1, h2, h3, h4⟩

/-- A parsed grid: a length-81 board whose boxes all hold subsequences of
the nine digits. -/
theorem grid_values_some {g : List Nat} {v : Board} (h : grid_values g = some v) :
    v.length = 81 ∧ ∀ c ∈ boxes, getCell v c <+ digits := by
  unfold grid_values at h
  split at h
  · next hg =>
    injection h with h
    subst h
    refine ⟨by rw [List.length_map, hg.1], fun c hc => ?_⟩
    have hlt : c < g.length := by rw [hg.1]; exact mem_boxes.1 hc
    unfold getCell
    rw [List.getD_eq_getElem?_getD, List.getElem?_map, List.getElem?_eq_getElem hlt]
    simp only [Option.map_some', Option.getD_some]
    split
    · exact List.Sublist.refl _
    · next hne =>
      rcases hg.2 (g[c]) (List.getElem_mem hlt) with h0 | hd
      · exact absurd h0 hne
      · exact List.singleton_sublist.2 hd
  · cases h

/-- Everything the claims need about a successful top-level solve. -/
theorem solve_some {g : List Nat} {b : Board} (h : solve g = some b) :
    ∃ v0, grid_values g = some v0 ∧ bLe b v0 ∧ b.length = 81 ∧
      allSingleton b = true ∧ (∀ c ∈ boxes, getCell b c <+ digits) ∧
      eliminate b = b := by
  match hg : grid_values g with
  | none => rw [solve_of_grid_none hg] at h; cases h
  | some v0 =>
    rw [solve_of_grid_some hg] at h
    obtain ⟨h1, h2, h3, u, hu1, hu2⟩ := searchAux_some h
    obtain ⟨hv81, hvcanon⟩ := grid_values_some hg
    have hb81 : b.length = 81 := by rw [h1.1, hv81]
    have hbu : bLe b u := hu1 ▸ reduceStep_bLe u
    have hub : u = b := eq_of_allSingleton_of_nSolved hb81 hbu h3 h2 hu2
    have hstep : reduceStep b = b := by rw [hub] at hu1; exact hu1
    have hfix : eliminate b = b := by
      have he1 : bLe b (eliminate b) := by
        conv_lhs => rw [← hstep]
        exact bLe_trans (naked_twins_bLe _) (only_choice_bLe _)
      exact bLe_antisymm (eliminate_bLe b) he1
    refine ⟨v0, rfl, h1, hb81, h2, fun c hc => (h1.2 c).trans (hvcanon c hc), hfix⟩

/-! ## The search depth is bounded by the number of unresolved boxes -/

theorem nUnsolved_le_81 (v : Board) : nUnsolved v ≤ 81 :=
  (List.countP_le_length _).trans (by decide)

theorem nUnsolved_le_of_bLe {w v : Board} (h : bLe w v) : nUnsolved w ≤ nUnsolved v := by
  refine List.countP_mono_left (fun c hc hp => ?_)
  have h1 := (h.2 c).length_le
  have h2 : 1 < (getCell w c).length := by simpa using hp
  simp only [decide_eq_true_eq]
  omega

/-- The picked branching box really is an unresolved box. -/
theorem pickBox_some {v : Board} {nb : Nat × Nat} (h : pickBox v = some nb) :
    nb.2 ∈ boxes ∧ 1 < (getCell v nb.2).length := by
  unfold pickBox at h
  suffices hgen : ∀ (l : List Nat) (acc : Option (Nat × Nat)),
      (∀ p, acc = some p → p.2 ∈ boxes ∧ 1 < (getCell v p.2).length) →
      (∀ b ∈ l, b ∈ boxes ∧ 1 < (getCell v b).length) →
      ∀ p, l.foldl
        (fun best b =>
          match best with
          | none => some ((getCell v b).length, b)
          | some (bl, bb) =>
            if (getCell v b).length < bl ∨ ((getCell v b).length = bl ∧ b < bb) then
              some ((getCell v b).length, b)
            else best) acc = some p → p.2 ∈ boxes ∧ 1 < (getCell v p.2).length by
    refine hgen _ none (fun p hp => by cases hp) (fun b hb => ?_) nb h
    have := List.mem_filter.1 hb
    exact ⟨this.1, by simpa using this.2⟩
  intro l
  induction l with
  | nil => intro acc hacc _ p hp; exact hacc p hp
  | cons b t ih =>
    intro acc hacc hl p hp
    rw [List.foldl_cons] at hp
    refine ih _ ?_ (fun c hc => hl c (List.mem_cons_of_mem b hc)) p hp
    intro q hq
    rcases acc with _ | ⟨bl, bb⟩
    · have hq2 : some ((getCell v b).length, b) = some q := hq
      injection hq2 with hq2
      subst hq2
      exact hl b (List.mem_cons_self b t)
    · have hq2 : (if (getCell v b).length < bl ∨ ((getCell v b).length = bl ∧ b < bb) then
          some ((getCell v b).length, b) else some (bl, bb)) = some q := hq
      by_cases hcond : (getCell v b).length < bl ∨ ((getCell v b).length = bl ∧ b < bb)
      · rw [if_pos hcond] at hq2
        injection hq2 with hq2
        subst hq2
        exact hl b (List.mem_cons_self b t)
      · rw [if_neg hcond] at hq2
        exact hacc q hq2

/-- `countP` strictly drops when one satisfied entry stops satisfying it
and nothing else changes. -/
theorem countP_lt_of_flip {l : List Nat} {p q : Nat → Bool} {b : Nat}
    (hl : l.Nodup) (hb : b ∈ l) (hpq : ∀ x ∈ l, x ≠ b → q x = p x)
    (hqb : q b = false) (hpb : p b = true) : l.countP q < l.countP p := by
  induction l with
  | nil => cases hb
  | cons a t ih =>
    rw [List.countP_cons, List.countP_cons]
    by_cases hab : b = a
    · subst hab
      have hqt : t.countP q = t.countP p := by
        refine List.countP_congr (fun x hx => ?_)
        rw [hpq x (List.mem_cons_of_mem b hx)
          (fun hxb => (List.nodup_cons.1 hl).1 (hxb ▸ hx))]
      rw [hqb, hpb, hqt]
      simp
    · have hbt : b ∈ t := (List.mem_cons.1 hb).resolve_left hab
      have hqa : q a = p a :=
        hpq a (List.mem_cons_self a t) (fun h => hab h.symm)
      have hrec := ih (List.nodup_cons.1 hl).2 hbt
        (fun x hx hxb => hpq x (List.mem_cons_of_mem a hx) hxb)
      rw [hqa]
      omega

theorem boxes_nodup : boxes.Nodup := by
  rw [boxes_eq_range]
  exact List.nodup_range 81

/-- Fixing the branch box strictly decreases the unresolved count. -/
theorem nUnsolved_setCell_lt {w : Board} {bx d : Nat} (hbx : bx ∈ boxes)
    (hw : 1 < (getCell w bx).length) (hlen : bx < w.length) :
    nUnsolved (setCell w bx [d]) < nUnsolved w := by
  refine countP_lt_of_flip boxes_nodup hbx (fun c hc hcb => ?_) ?_ (by simpa using hw)
  · have : getCell (setCell w bx [d]) c = getCell w c := by
      rw [getCell_setCell, if_neg (fun hand => hcb hand.2)]
    rw [this]
  · rw [getCell_setCell, if_pos ⟨hlen, rfl⟩]
    simp

/-- The branch fold only depends on the per-digit searches. -/
theorem branch_fold_congr {F1 F2 : Board → Option Board} {w : Board} {bx : Nat}
    (hF : ∀ d ∈ getCell w bx, F1 (setCell w bx [d]) = F2 (setCell w bx [d])) :
    ∀ (ds : List Nat), (∀ d ∈ ds, d ∈ getCell w bx) → ∀ (acc : Option Board),
    ds.foldl (fun acc d => match acc with
      | some s => some s
      | none => F1 (setCell w bx [d])) acc =
    ds.foldl (fun acc d => match acc with
      | some s => some s
      | none => F2 (setCell w bx [d])) acc := by
  intro ds
  induction ds with
  | nil => intro _ acc; rfl
  | cons d t ih =>
    intro hmem acc
    rw [List.foldl_cons, List.foldl_cons]
    have hstep : (match acc with
        | some s => some s
        | none => F1 (setCell w bx [d])) =
        (match acc with
        | some s => some s
        | none => F2 (setCell w bx [d])) := by
      match acc with
      | some s => rfl
      | none => exact hF d (hmem d (List.mem_cons_self d t))
    rw [hstep]
    exact ih (fun e he => hmem e (List.mem_cons_of_mem d he)) _

/-- Any two fuel budgets beyond the unresolved count agree: the recursion
depth of `search` is bounded by the number of unresolved boxes, which never
exceeds 81. -/
theorem searchAux_stable : ∀ (n : Nat) {f g : Nat} {v : Board}, nUnsolved v ≤ n →
    n < f → n < g → searchAux f v = searchAux g v := by
  intro n
  induction n with
  | zero =>
    intro f g v hn hf hg
    obtain ⟨f2, rfl⟩ : ∃ f2, f = f2 + 1 := ⟨f - 1, by omega⟩
    obtain ⟨g2, rfl⟩ : ∃ g2, g = g2 + 1 := ⟨g - 1, by omega⟩
    rw [searchAux_succ, searchAux_succ]
    match hr : reduce_puzzle v with
    | none => rw [searchBody_none hr, searchBody_none hr]
    | some w =>
      rw [searchBody_some hr, searchBody_some hr]
      have hred := reduceAux_some (v := v) (w := w) hr
      by_cases hall : allSingleton w
      · rw [if_pos hall, if_pos hall]
      · rw [if_neg hall, if_neg hall]
        match hp : pickBox w with
        | none => rfl
        | some nb =>
          exfalso
          obtain ⟨hnb, hlen⟩ := pickBox_some hp
          have h1 : nUnsolved w ≤ 0 := (nUnsolved_le_of_bLe hred.1).trans hn
          have h2 : 0 < nUnsolved w := by
            have : boxes.countP (fun b => decide (1 < (getCell w b).length)) ≠ 0 := by
              intro h0
              rw [List.countP_eq_zero] at h0
              exact absurd (by simpa using hlen) (by simpa using h0 nb.2 hnb)
            unfold nUnsolved
            omega
          omega
  | succ m ih =>
    intro f g v hn hf hg
    obtain ⟨f2, rfl⟩ : ∃ f2, f = f2 + 1 := ⟨f - 1, by omega⟩
    obtain ⟨g2, rfl⟩ : ∃ g2, g = g2 + 1 := ⟨g - 1, by omega⟩
    rw [searchAux_succ, searchAux_succ]
    match hr : reduce_puzzle v with
    | none => rw [searchBody_none hr, searchBody_none hr]
    | some w =>
      rw [searchBody_some hr, searchBody_some hr]
      have hred := reduceAux_some (v := v) (w := w) hr
      by_cases hall : allSingleton w
      · rw [if_pos hall, if_pos hall]
      · rw [if_neg hall, if_neg hall]
        match hp : pickBox w with
        | none => rfl
        | some nb =>
          obtain ⟨hnb, hlen⟩ := pickBox_some hp
          refine branch_fold_congr (fun d hd => ?_) _ (fun d hd => hd) none
          have hwlen : nb.2 < w.length := by
            by_contra hcon
            rw [getCell_eq_nil (Nat.le_of_not_lt hcon)] at hlen
            simp at hlen
          have hlt : nUnsolved (setCell w nb.2 [d]) < nUnsolved w :=
            nUnsolved_setCell_lt hnb hlen hwlen
          have hww : nUnsolved w ≤ m + 1 := (nUnsolved_le_of_bLe hred.1).trans hn
          exact ih (by omega) (by omega) (by omega)

/-! ## Assembled correctness payload of a successful solve -/

theorem search_eq (v : Board) : search v = searchAux 82 v := rfl

/-- A returned solved board satisfies all 29 units. -/
theorem solve_some_units {g : List Nat} {b : Board} (h : solve g = some b) :
    (∀ c ∈ boxes, (getCell b c).length = 1) ∧
      (∀ u ∈ unitlist, ∀ d ∈ digits, u.countP (fun c => getCell b c == [d]) = 1) ∧
      ∃ v0, grid_values g = some v0 ∧ bLe b v0 := by
  obtain ⟨v0, hg, hble, hb81, hall, hcanon, hfix⟩ := solve_some h
  exact ⟨fun c hc => allSingleton_iff.1 hall c hc,
    fun u hu d hd =>
      unit_each_digit_once hb81 hfix (fun c hc => allSingleton_iff.1 hall c hc) hcanon hu hd,
    v0, hg, hble⟩

/-- One unfolding of the reducer when a pass changes nothing. -/
theorem reduceAux_fix {fuel : Nat} {v : Board} (hstep : reduceStep v = v) :
    reduceAux (fuel + 1) v = if hasEmpty v then none else some v := by
  simp only [reduceAux, hstep, if_true]

theorem reduceAux_zero (v : Board) : reduceAux 0 v = none := rfl

/-- One unfolding of the reducer loop. -/
theorem reduceAux_succ (f : Nat) (v : Board) :
    reduceAux (f + 1) v =
      if hasEmpty (reduceStep v) then none
      else if nSolved (reduceStep v) = nSolved v then some (reduceStep v)
      else reduceAux f (reduceStep v) := by
  simp only [reduceAux]

theorem reduceAuxL_zero (s : SState) : reduceAuxL 0 s = (none, s.2) := rfl

/-- One unfolding of the instrumented reducer loop. -/
theorem reduceAuxL_succ (f : Nat) (s : SState) :
    reduceAuxL (f + 1) s =
      if hasEmpty (reduceStepL s).1 then (none, (reduceStepL s).2)
      else if nSolved (reduceStepL s).1 = nSolved s.1 then
        (some (reduceStepL s).1, (reduceStepL s).2)
      else reduceAuxL f (reduceStepL s) := by
  simp only [reduceAuxL]

attribute [irreducible] reduceAux reduceAuxL

/-! ## Canonical candidate values -/

/-- Two subsequences of one duplicate-free list with the same members are
equal: over canonical candidate values, value equality is exactly
candidate-set equality. -/
theorem sublist_eq_of_mem_iff :
    ∀ {m l1 l2 : List Nat}, m.Nodup → l1 <+ m → l2 <+ m →
      (∀ d, d ∈ l1 ↔ d ∈ l2) → l1 = l2 := by
  intro m
  induction m with
  | nil =>
    intro l1 l2 _ h1 h2 _
    rw [List.sublist_nil.1 h1, List.sublist_nil.1 h2]
  | cons a t ih =>
    intro l1 l2 hnd h1 h2 hmem
    have hat : a ∉ t := (List.nodup_cons.1 hnd).1
    have hndt : t.Nodup := (List.nodup_cons.1 hnd).2
    rcases List.sublist_cons_iff.1 h1 with h1t | ⟨r1, rfl, hr1⟩
    · rcases List.sublist_cons_iff.1 h2 with h2t | ⟨r2, rfl, hr2⟩
      · exact ih hndt h1t h2t hmem
      · exact absurd (h1t.subset ((hmem a).2 (List.mem_cons_self a r2))) hat
    · rcases List.sublist_cons_iff.1 h2 with h2t | ⟨r2, rfl, hr2⟩
      · exact absurd (h2t.subset ((hmem a).1 (List.mem_cons_self a r1))) hat
      · have hre : r1 = r2 := by
          refine ih hndt hr1 hr2 (fun d => ?_)
          constructor
          · intro hd
            have hda : d ≠ a := fun hda => hat (hda ▸ hr1.subset hd)
            rcases List.mem_cons.1 ((hmem d).1 (List.mem_cons_of_mem a hd)) with h | h
            · exact absurd h hda
            · exact h
          · intro hd
            have hda : d ≠ a := fun hda => hat (hda ▸ hr2.subset hd)
            rcases List.mem_cons.1 ((hmem d).2 (List.mem_cons_of_mem a hd)) with h | h
            · exact absurd h hda
            · exact h
        rw [hre]

theorem digits_nodup : digits.Nodup := by decide

theorem digits_sorted : List.Pairwise (· < ·) digits := by decide

/-! ## Anatomy of naked twins -/

theorem peers_list_nodup : ∀ l ∈ peers_list, l.Nodup := by decide

theorem peers_list_length : peers_list.length = 81 := by decide

theorem peers_nodup (b : Nat) : (peers b).Nodup := by
  unfold peers
  by_cases hb : b < peers_list.length
  · rw [List.getD_eq_getElem?_getD, List.getElem?_eq_getElem hb]
    exact peers_list_nodup _ (List.getElem_mem hb)
  · rw [List.getD_eq_getElem?_getD, List.getElem?_eq_none (Nat.le_of_not_lt hb)]
    exact List.nodup_nil

theorem mem_peers_mem_boxes {b p : Nat} (hp : p ∈ peers b) : p ∈ boxes := by
  by_cases hb : b < 81
  · exact ((mem_peers_iff hb).1 hp).1
  · unfold peers at hp
    rw [List.getD_eq_getElem?_getD,
      List.getElem?_eq_none (by rw [peers_list_length]; omega)] at hp
    cases hp

/-- The detected twin list: exactly the ordered pairs of distinct cells of
the unit carrying the same two-element candidate value. -/
theorem twinPairs_mem {w : Board} {u : List Nat} {pr : Nat × Nat} :
    pr ∈ twinPairs w u ↔
      pr.1 ∈ u ∧ pr.2 ∈ u ∧ (getCell w pr.1).length = 2 ∧
        (getCell w pr.2).length = 2 ∧ getCell w pr.1 = getCell w pr.2 ∧
        pr.1 < pr.2 := by
  unfold twinPairs
  rw [List.mem_filter]
  simp only [List.mem_flatMap, List.mem_map, Bool.and_eq_true, beq_iff_eq,
    decide_eq_true_eq]
  constructor
  · rintro ⟨⟨b1, hb1, b2, hb2, rfl⟩, ⟨⟨h1, h2⟩, h3⟩, h4⟩
    exact ⟨hb1, hb2, h1, h2, h3, h4⟩
  · rintro ⟨hb1, hb2, h1, h2, h3, h4⟩
    exact ⟨⟨pr.1, hb1, pr.2, hb2, rfl⟩, ⟨⟨h1, h2⟩, h3⟩, h4⟩

/-- The computed shared-peer list is the intersection of the two members'
peer sets, both members excluded. -/
theorem mem_sharedPeers {b1 b2 p : Nat} :
    p ∈ sharedPeers b1 b2 ↔
      p ∈ peers b1 ∧ p ∈ peers b2 ∧ p ≠ b1 ∧ p ≠ b2 := by
  unfold sharedPeers
  rw [List.mem_filter]
  simp [decide_eq_true_eq]

/-- A fold of per-cell reassignments over duplicate-free cells rewrites
exactly the listed (real) cells, each from its original value. -/
theorem foldl_assign_pointwise {cells : List Nat} (hnd : cells.Nodup)
    (F : List Nat → List Nat) :
    ∀ (w : Board) (c : Nat),
      getCell (cells.foldl (fun u p => assign_value u p (F (getCell u p))) w) c =
        if c ∈ cells ∧ c < w.length then F (getCell w c) else getCell w c := by
  induction cells with
  | nil =>
    intro w c
    rw [if_neg (fun h => List.not_mem_nil c h.1)]
    rfl
  | cons p t ih =>
    intro w c
    rw [List.foldl_cons]
    have hnt : t.Nodup := (List.nodup_cons.1 hnd).2
    have hpt : p ∉ t := (List.nodup_cons.1 hnd).1
    rw [ih hnt, length_assign]
    by_cases hct : c ∈ t
    · have hcp : c ≠ p := fun h => hpt (h ▸ hct)
      have hw2 : getCell (assign_value w p (F (getCell w p))) c = getCell w c := by
        rw [getCell_assign, if_neg (fun h => hcp h.2)]
      rw [hw2]
      by_cases hcl : c < w.length
      · rw [if_pos ⟨hct, hcl⟩, if_pos ⟨List.mem_cons_of_mem p hct, hcl⟩]
      · rw [if_neg (fun h => hcl h.2), if_neg (fun h => hcl h.2)]
    · rw [if_neg (fun h => hct h.1)]
      by_cases hcp : c = p
      · subst hcp
        rw [getCell_assign]
        by_cases hcl : c < w.length
        · rw [if_pos ⟨hcl, rfl⟩, if_pos ⟨List.mem_cons_self c t, hcl⟩]
        · rw [if_neg (fun h => hcl h.1), if_neg (fun h => hcl h.2)]
      · rw [getCell_assign, if_neg (fun h => hcp h.2),
          if_neg (fun h => (List.mem_cons.1 h.1).elim hcp hct)]

/-! ## Claim theorems -/

/-- **C1**: For every input grid string, if the top-level `solve` returns a
board rather than the failure sentinel (`none`), then every one of the 81
cells (`boxes`) is fixed to a single digit, and every one of the 29 units
(`unitlist`: 9 rows, 9 columns, 9 boxes, 2 diagonals) contains each digit
1–9 exactly once. -/
theorem C1_solve_returns_solved_board {g : List Nat} {b : Board}
    (h : solve g = some b) :
    (∀ c ∈ boxes, (getCell b c).length = 1) ∧
      ∀ u ∈ unitlist, ∀ d ∈ digits, u.countP (fun c => getCell b c == [d]) = 1 := by
  obtain ⟨h1, h2, _⟩ := solve_some_units h
  exact ⟨h1, h2⟩

/-- **C2**: Whenever a pass of the fixed-point reducer leaves some cell
with an empty candidate set, `reduce_puzzle` returns the contradiction
signal (`none`, Python's `False`) instead of a board; consequently every
board `reduce_puzzle` returns has a non-empty candidate set in every cell,
even on the pass in which the fixed-cell count stops increasing. -/
theorem C2_reduce_contradiction :
    (∀ (fuel : Nat) (v : Board), hasEmpty (reduceStep v) = true →
        reduceAux (fuel + 1) v = none) ∧
      ∀ v w : Board, reduce_puzzle v = some w → ∀ c ∈ boxes, getCell w c ≠ [] := by
  constructor
  · intro fuel v he
    simp only [reduceAux, he, if_true]
  · intro v w h c hc
    exact hasEmpty_eq_false.1 (reduceAux_some h).2.1 c hc

/-- **C5**: Running the fixed-point reducer twice in succession on an
already-fixed-point board (one unchanged by each of the three propagators)
yields exactly the result of running it once. -/
theorem C5_reduce_idempotent {v : Board} (h1 : eliminate v = v)
    (h2 : only_choice v = v) (h3 : naked_twins v = v) :
    (reduce_puzzle v).bind reduce_puzzle = reduce_puzzle v := by
  have hstep : reduceStep v = v := by
    unfold reduceStep
    rw [h1, h2, h3]
  have hred : reduce_puzzle v = if hasEmpty v then none else some v :=
    reduceAux_fix hstep
  by_cases he : hasEmpty v
  · rw [hred, if_pos he]
    rfl
  · rw [hred, if_neg he]
    show reduce_puzzle v = some v
    rw [hred, if_neg he]

/-- **C6**: None of the three propagators ever increases any cell's
candidate-set cardinality. -/
theorem C6_propagators_monotone (v : Board) (c : Nat) :
    (getCell (eliminate v) c).length ≤ (getCell v c).length ∧
      (getCell (only_choice v) c).length ≤ (getCell v c).length ∧
      (getCell (naked_twins v) c).length ≤ (getCell v c).length :=
  ⟨((eliminate_bLe v).2 c).length_le, ((only_choice_bLe v).2 c).length_le,
    ((naked_twins_bLe v).2 c).length_le⟩

/-- **C7**: `search` terminates on every starting board: each recursive
branch fixes the chosen cell and the propagators never enlarge a candidate
set, so the number of multi-candidate boxes strictly decreases down any
branch and a recursion-depth budget of 82 calls (81 recursion levels) is
never exhausted — any larger fuel computes the same result as `search`. -/
theorem C7_search_terminates (v : Board) {f : Nat} (hf : 82 ≤ f) :
    searchAux f v = search v := by
  rw [search_eq]
  exact searchAux_stable 81 (nUnsolved_le_81 v) (by omega) (by omega)

/-- **C9**: The topology built at startup has exactly 81 cells and 29 units
of 9 cells each; the center cell `E5` (index 40) belongs to 5 units and has
32 peers, every other cell on a diagonal belongs to 4 units and has 26
peers, and every cell off both diagonals belongs to 3 units and has 20
peers. -/
theorem C9_topology :
    boxes.length = 81 ∧ unitlist.length = 29 ∧ (∀ u ∈ unitlist, u.length = 9) ∧
      (units 40).length = 5 ∧ (peers 40).length = 32 ∧
      (∀ b ∈ boxes, b ∈ diag_boxes → b ≠ 40 →
        (units b).length = 4 ∧ (peers b).length = 26) ∧
      (∀ b ∈ boxes, b ∉ diag_boxes →
        (units b).length = 3 ∧ (peers b).length = 20) := by
  refine ⟨by decide, by decide, by decide, by decide, by decide, ?_, ?_⟩
  · decide!
  · decide!

/-- **C10**: Every cell value produced by `grid_values` or preserved by the
propagators is a subsequence of `'123456789'` — strictly ascending and
duplicate-free (the propagators only delete characters, and `only_choice`
assigns a single digit already present) — and over such canonical values,
value equality (the comparison `naked_twins` uses) is exactly
candidate-set equality. -/
theorem C10_canonical_values :
    (∀ (g : List Nat) (v : Board), grid_values g = some v →
        ∀ c ∈ boxes, getCell v c <+ digits) ∧
      (∀ v : Board, (∀ c ∈ boxes, getCell v c <+ digits) →
        (∀ c ∈ boxes, getCell (eliminate v) c <+ digits) ∧
        (∀ c ∈ boxes, getCell (only_choice v) c <+ digits) ∧
        (∀ c ∈ boxes, getCell (naked_twins v) c <+ digits)) ∧
      (∀ l : List Nat, l <+ digits → List.Pairwise (· < ·) l) ∧
      (∀ l1 l2 : List Nat, l1 <+ digits → l2 <+ digits →
        (l1 = l2 ↔ ∀ d, d ∈ l1 ↔ d ∈ l2)) := by
  refine ⟨fun g v hg => (grid_values_some hg).2,
    fun v hv =>
      ⟨fun c hc => ((eliminate_bLe v).2 c).trans (hv c hc),
       fun c hc => ((only_choice_bLe v).2 c).trans (hv c hc),
       fun c hc => ((naked_twins_bLe v).2 c).trans (hv c hc)⟩,
    fun l hl => List.Pairwise.sublist hl digits_sorted,
    fun l1 l2 h1 h2 => ⟨fun he d => he ▸ Iff.rfl, ?_⟩⟩
  exact fun hmem => sublist_eq_of_mem_iff digits_nodup h1 h2 hmem

/-- **C4**: In `naked_twins`: (i) the per-unit twin scan detects exactly
the ordered pairs (`b1 < b2`) of distinct cells of the unit whose candidate
values are identical two-element values; (ii) the computed shared-peer set
is the intersection of the two members' peer sets with the members
excluded; (iii) a detected pair whose first member no longer has exactly 2
candidates by the time it is processed is skipped without error; and
(iv) processing a live pair removes the pair's two digits exactly from the
cells of that intersection, each from its current candidate value. -/
theorem C4_naked_twins_behaviour :
    (∀ (w : Board) (u : List Nat) (pr : Nat × Nat),
        pr ∈ twinPairs w u ↔
          pr.1 ∈ u ∧ pr.2 ∈ u ∧ (getCell w pr.1).length = 2 ∧
            (getCell w pr.2).length = 2 ∧ getCell w pr.1 = getCell w pr.2 ∧
            pr.1 < pr.2) ∧
      (∀ b1 b2 p : Nat,
        p ∈ sharedPeers b1 b2 ↔
          p ∈ peers b1 ∧ p ∈ peers b2 ∧ p ≠ b1 ∧ p ≠ b2) ∧
      (∀ (w : Board) (pr : Nat × Nat),
        (getCell w pr.1).length < 2 → processTwin w pr = w) ∧
      (∀ (w : Board) (b1 b2 d1 d2 : Nat) (rest : List Nat),
        w.length = 81 → getCell w b1 = d1 :: d2 :: rest →
        ∀ c : Nat,
          getCell (processTwin w (b1, b2)) c =
            if c ∈ sharedPeers b1 b2 then
              ((getCell w c).filter (fun e => decide (e ≠ d1))).filter
                (fun e => decide (e ≠ d2))
            else getCell w c) := by
  refine ⟨fun w u pr => twinPairs_mem, fun b1 b2 p => mem_sharedPeers,
    fun w pr h => ?_, fun w b1 b2 d1 d2 rest hw81 hv c => ?_⟩
  · unfold processTwin
    rw [if_pos h]
  · have hlen : ¬(getCell w (b1, b2).1).length < 2 := by
      simp only at *
      rw [hv]
      simp
    unfold processTwin
    rw [if_neg hlen]
    have hfold :
        (match getCell w (b1, b2).1 with
          | d1 :: d2 :: _ => (sharedPeers (b1, b2).1 (b1, b2).2).foldl (twinPeer d1 d2) w
          | _ => w) =
          (sharedPeers b1 b2).foldl
            (fun u p => assign_value u p
              (((getCell u p).filter (fun e => decide (e ≠ d1))).filter
                (fun e => decide (e ≠ d2)))) w := by
      show (match getCell w b1 with
          | d1 :: d2 :: _ => (sharedPeers b1 b2).foldl (twinPeer d1 d2) w
          | _ => w) = _
      rw [hv]
      rfl
    have hnd : (sharedPeers b1 b2).Nodup := List.Nodup.filter _ (peers_nodup b1)
    rw [hfold, foldl_assign_pointwise hnd
      (fun x => (x.filter (fun e => decide (e ≠ d1))).filter (fun e => decide (e ≠ d2)))]
    by_cases hc : c ∈ sharedPeers b1 b2
    · have hcl : c < w.length := by
        rw [hw81]
        exact mem_boxes.1 (mem_peers_mem_boxes (mem_sharedPeers.1 hc).1)
    
      rw [if_pos ⟨hc, hcl⟩, if_pos hc]
    · rw [if_neg (fun h2 => hc h2.1), if_neg hc]

/-! ## C8: unsolvable puzzles yield the failure sentinel -/

/-- If a parsed puzzle has no valid solution, `solve` cannot return a
board: any board it returned would be one. -/
theorem no_solution_solve_none {g : List Nat} {v0 : Board}
    (hg : grid_values g = some v0) (hns : ∀ b : Board, ¬ validSolution v0 b) :
    solve g = none := by
  rcases hsv : solve g with _ | b
  · rfl
  · exfalso
    obtain ⟨hall, hunits, v1, hg1, hble⟩ := solve_some_units hsv
    rw [hg] at hg1
    cases hg1
    exact hns b ⟨hble, hall, hunits⟩

/-- The parsed `dupGrid` has no solution: boxes `A1` and `A2` are both
fixed to the digit 2, so any completion holds 2 twice in row `A`. -/
theorem dupParsed_unsolvable : ∀ b : Board, ¬ validSolution dupParsed b := by
  rintro b ⟨hble, hall, hunits⟩
  have hcell : ∀ c, c ∈ boxes → getCell dupParsed c = [2] → getCell b c = [2] := by
    intro c hc hv
    have hs := hble.2 c
    rw [hv] at hs
    rcases sublist_of_singleton hs rfl with h | h
    · have h1 := hall c hc
      rw [h] at h1
      cases h1
    · exact h
  have h0 : getCell b 0 = [2] := hcell 0 (by decide) (by decide!)
  have h1 : getCell b 1 = [2] := hcell 1 (by decide) (by decide!)
  have hmem : ([0, 1, 2, 3, 4, 5, 6, 7, 8] : List Nat) ∈ unitlist := by decide
  have hcount := hunits _ hmem 2 (by decide)
  have hsubl : ([0, 1] : List Nat) <+ [0, 1, 2, 3, 4, 5, 6, 7, 8] :=
    List.Sublist.cons₂ 0 (List.Sublist.cons₂ 1 (List.nil_sublist _))
  have hle := List.Sublist.countP_le (fun c => getCell b c == [2]) hsubl
  rw [hcount] at hle
  have h2 : ([0, 1] : List Nat).countP (fun c => getCell b c == [2]) = 2 := by
    simp [List.countP_cons, h0, h1]
  omega

/-- C8: for every valid grid whose puzzle has no solution, the top-level
`solve` returns the failure sentinel (`none`), which is distinct from any
board. -/
theorem C8_unsolvable_returns_sentinel {g : List Nat} {v0 : Board}
    (hg : grid_values g = some v0) (hns : ∀ b : Board, ¬ validSolution v0 b) :
    solve g = none ∧ ∀ b : Board, some b ≠ (none : Option Board) :=
  ⟨no_solution_solve_none hg hns, fun _ h => Option.noConfusion h⟩

/-- Witness for C8: the demo solution grid with its second box overwritten
by a duplicate 2 parses successfully but has no solution, and `solve`
returns the sentinel on it. -/
theorem C8_unsolvable_returns_sentinel_witness :
    grid_values dupGrid = some dupParsed ∧ solve dupGrid = none :=
  ⟨by decide!, (C8_unsolvable_returns_sentinel (by decide!) dupParsed_unsolvable).1⟩

/-! ## Identity passes: boards on which a propagator is a no-op

The solver repeatedly runs full passes that change nothing: the pass that
certifies a fixed point, and every elimination step whose digit is absent
from the peer.  These lemmas let a concrete run be certified without
evaluating the no-op folds step by step. -/

/-- A fold whose every step fixes the start state never moves. -/
theorem foldl_id {α β : Type} {f : α → β → α} {s : α} :
    ∀ {l : List β}, (∀ x ∈ l, f s x = s) → l.foldl f s = s
  | [], _ => rfl
  | x :: t, h => by
    rw [List.foldl_cons, h x (List.mem_cons_self x t)]
    exact foldl_id fun y hy => h y (List.mem_cons_of_mem x hy)

/-- Re-assigning a box its current value is a no-op. -/
theorem assign_value_self {v : Board} {b : Nat} :
    assign_value v b (getCell v b) = v := by
  unfold assign_value
  rw [if_pos rfl]

/-- Eliminating a digit absent from the peer changes nothing. -/
theorem elimPeer_id {v : Board} {p d : Nat} (h : d ∉ getCell v p) :
    elimPeer d v p = v := by
  unfold elimPeer
  have hf : (getCell v p).filter (fun e => decide (e ≠ d)) = getCell v p :=
    List.filter_eq_self.2 fun a ha =>
      decide_eq_true fun had : a = d => h (had ▸ ha)
  rw [hf]
  exact assign_value_self

/-- A solved box whose digit is absent from all its peers eliminates
nothing. -/
theorem elimBox_id {v : Board} {b : Nat}
    (h : ∀ d, getCell v b = [d] → ∀ p ∈ peers b, d ∉ getCell v p) :
    elimBox v b = v := by
  show (match getCell v b with
      | [d] => (peers b).foldl (elimPeer d) v
      | _ => v) = v
  rcases hd : getCell v b with _ | ⟨d, _ | ⟨e, t⟩⟩
  · rfl
  · exact foldl_id fun p hp => elimPeer_id (h d hd p hp)
  · rfl

/-- On a conflict-free board, `eliminate` is the identity. -/
theorem eliminate_id {v : Board} (h : conflictFree v = true) : eliminate v = v := by
  refine foldl_id fun b hb => ?_
  have hbx : b ∈ boxes := List.mem_of_mem_filter hb
  have hc := List.all_eq_true.1 h b hbx
  refine elimBox_id fun d hd p hp => ?_
  rw [hd] at hc
  have hc2 : ((peers b).all fun p => !(getCell v p).contains d) = true := hc
  simpa using List.all_eq_true.1 hc2 p hp

/-- An only-choice placement already on the board changes nothing. -/
theorem ocDigit_id {v : Board} {u : List Nat} {d : Nat}
    (h : ∀ b, u.filter (fun b => decide (d ∈ getCell v b)) = [b] →
      getCell v b = [d]) :
    ocDigit u v d = v := by
  show (match u.filter (fun b => decide (d ∈ getCell v b)) with
      | [b] => assign_value v b [d]
      | _ => v) = v
  rcases hf : u.filter (fun b => decide (d ∈ getCell v b)) with _ | ⟨b, _ | _⟩
  · rfl
  · rw [← h b hf]
    exact assign_value_self
  · rfl

/-- On a board with every only-choice placement made, `only_choice` is the
identity. -/
theorem only_choice_id {v : Board} (h : ocFree v = true) : only_choice v = v := by
  refine foldl_id fun u hu => ?_
  show ocUnit v u = v
  refine foldl_id fun d hd => ?_
  refine ocDigit_id fun b hf => ?_
  have hc := List.all_eq_true.1 (List.all_eq_true.1 h u hu) d hd
  rw [hf] at hc
  exact eq_of_beq hc

/-- Removing the twin digits from a peer holding neither changes nothing. -/
theorem twinPeer_id {v : Board} {p d1 d2 : Nat} (h1 : d1 ∉ getCell v p)
    (h2 : d2 ∉ getCell v p) : twinPeer d1 d2 v p = v := by
  unfold twinPeer
  have hf1 : (getCell v p).filter (fun e => decide (e ≠ d1)) = getCell v p :=
    List.filter_eq_self.2 fun a ha =>
      decide_eq_true fun had : a = d1 => h1 (had ▸ ha)
  have hf2 : (getCell v p).filter (fun e => decide (e ≠ d2)) = getCell v p :=
    List.filter_eq_self.2 fun a ha =>
      decide_eq_true fun had : a = d2 => h2 (had ▸ ha)
  rw [hf1, hf2]
  exact assign_value_self

/-- A twin pair none of whose shared peers holds a twin digit is processed
without effect. -/
theorem processTwin_id {v : Board} {pr : Nat × Nat}
    (h : ∀ d1 d2 rest, getCell v pr.1 = d1 :: d2 :: rest →
      ∀ p ∈ sharedPeers pr.1 pr.2, d1 ∉ getCell v p ∧ d2 ∉ getCell v p) :
    processTwin v pr = v := by
  unfold processTwin
  by_cases hlt : (getCell v pr.1).length < 2
  · rw [if_pos hlt]
  · rw [if_neg hlt]
    show (match getCell v pr.1 with
        | d1 :: d2 :: _ => (sharedPeers pr.1 pr.2).foldl (twinPeer d1 d2) v
        | _ => v) = v
    rcases hd : getCell v pr.1 with _ | ⟨d1, _ | ⟨d2, rest⟩⟩
    · rfl
    · rfl
    · exact foldl_id fun p hp =>
        twinPeer_id (h d1 d2 rest hd p hp).1 (h d1 d2 rest hd p hp).2

/-- On a board with no effective twin removal, `naked_twins` is the
identity. -/
theorem naked_twins_id {v : Board} (h : ntFree v = true) : naked_twins v = v := by
  refine foldl_id fun u hu => ?_
  show ntUnit v u = v
  refine foldl_id fun pr hpr => ?_
  refine processTwin_id fun d1 d2 rest hd p hp => ?_
  have hc := List.all_eq_true.1 (List.all_eq_true.1 h u hu) pr hpr
  rw [hd] at hc
  have hc2 : ((sharedPeers pr.1 pr.2).all fun p =>
      !(getCell v p).contains d1 && !(getCell v p).contains d2) = true := hc
  have hp2 := List.all_eq_true.1 hc2 p hp
  simp only [Bool.and_eq_true] at hp2
  exact ⟨by simpa using hp2.1, by simpa using hp2.2⟩

/-- A board passing all three no-op checks is a reducer fixed point. -/
theorem reduceStep_id {v : Board} (h1 : conflictFree v = true)
    (h2 : ocFree v = true) (h3 : ntFree v = true) : reduceStep v = v := by
  unfold reduceStep
  rw [eliminate_id h1, only_choice_id h2, naked_twins_id h3]

/-! ## The demo solution grid solves to itself -/

theorem conflictFree_solBoard : conflictFree solBoard = true := by decide!

theorem ocFree_solBoard : ocFree solBoard = true := by decide!

theorem ntFree_solBoard : ntFree solBoard = true := by decide!

theorem hasEmpty_solBoard : hasEmpty solBoard = false := by decide!

theorem allSingleton_solBoard : allSingleton solBoard = true := by decide!

theorem grid_values_solGrid : grid_values solGrid = some solBoard := by decide!

/-- The reducer certifies the solved board in one silent pass. -/
theorem reduce_puzzle_solBoard : reduce_puzzle solBoard = some solBoard := by
  have h := @reduceAux_fix 81 solBoard
    (reduceStep_id conflictFree_solBoard ocFree_solBoard ntFree_solBoard)
  rw [hasEmpty_solBoard, if_neg (by simp)] at h
  exact h

/-- `solve` on the already-solved demo grid returns its parsed board. -/
theorem solve_solGrid : solve solGrid = some solBoard := by
  rw [solve_of_grid_some grid_values_solGrid,
    show (82 : Nat) = 81 + 1 from rfl, searchAux_succ,
    searchBody_some reduce_puzzle_solBoard, allSingleton_solBoard, if_pos rfl]

/-! ## Witnesses at concrete inputs -/

/-- Witness for C1: the demo solution grid solves, and the returned board
is fully fixed with every unit holding each digit exactly once. -/
theorem C1_solve_returns_solved_board_witness :
    solve solGrid = some solBoard ∧
      (∀ c ∈ boxes, (getCell solBoard c).length = 1) ∧
      ∀ u ∈ unitlist, ∀ d ∈ digits,
        u.countP (fun c => getCell solBoard c == [d]) = 1 :=
  ⟨solve_solGrid, C1_solve_returns_solved_board solve_solGrid⟩

/-- Witness for C5: the all-blank board is fixed by all three propagators,
and rerunning the reducer on it changes nothing. -/
theorem C5_reduce_idempotent_witness :
    eliminate blankBoard = blankBoard ∧ only_choice blankBoard = blankBoard ∧
      naked_twins blankBoard = blankBoard ∧
      (reduce_puzzle blankBoard).bind reduce_puzzle = reduce_puzzle blankBoard :=
  ⟨by decide!, by decide!, by decide!,
    C5_reduce_idempotent (by decide!) (by decide!) (by decide!)⟩

/-- Witness for C7: one extra unit of fuel computes `search` itself. -/
theorem C7_search_terminates_witness :
    82 ≤ 83 ∧ searchAux 83 blankBoard = search blankBoard :=
  ⟨by decide, C7_search_terminates blankBoard (by decide)⟩

/-! ## Instrumented no-op passes -/

/-- Re-assigning a box its current value leaves board, log and counter
untouched. -/
theorem assign_valueL_self {s : SState} {b : Nat} :
    assign_valueL s b (getCell s.1 b) = s := by
  unfold assign_valueL
  rw [if_pos rfl]

theorem elimPeerL_id {s : SState} {p d : Nat} (h : d ∉ getCell s.1 p) :
    elimPeerL d s p = s := by
  unfold elimPeerL
  have hf : (getCell s.1 p).filter (fun e => decide (e ≠ d)) = getCell s.1 p :=
    List.filter_eq_self.2 fun a ha =>
      decide_eq_true fun had : a = d => h (had ▸ ha)
  rw [hf]
  exact assign_valueL_self

theorem elimBoxL_id {s : SState} {b : Nat}
    (h : ∀ d, getCell s.1 b = [d] → ∀ p ∈ peers b, d ∉ getCell s.1 p) :
    elimBoxL s b = s := by
  show (match getCell s.1 b with
      | [d] => (peers b).foldl (elimPeerL d) s
      | _ => s) = s
  rcases hd : getCell s.1 b with _ | ⟨d, _ | ⟨e, t⟩⟩
  · rfl
  · exact foldl_id fun p hp => elimPeerL_id (h d hd p hp)
  · rfl

/-- A stretch of conflict-free boxes eliminates nothing. -/
theorem foldl_elimBoxL_id {s : SState} {l : List Nat}
    (h : conflictFreeOn s.1 l = true) : l.foldl elimBoxL s = s := by
  refine foldl_id fun b hb => ?_
  have hc := List.all_eq_true.1 h b hb
  refine elimBoxL_id fun d hd p hp => ?_
  rw [hd] at hc
  have hc2 : ((peers b).all fun p => !(getCell s.1 p).contains d) = true := hc
  simpa using List.all_eq_true.1 hc2 p hp

theorem conflictFreeOn_subset {v : Board} {l1 l2 : List Nat}
    (hsub : ∀ x ∈ l1, x ∈ l2) (h : conflictFreeOn v l2 = true) :
    conflictFreeOn v l1 = true :=
  List.all_eq_true.2 fun b hb => List.all_eq_true.1 h b (hsub b hb)

theorem eliminateL_id {s : SState} (h : conflictFree s.1 = true) :
    eliminateL s = s :=
  foldl_elimBoxL_id
    (conflictFreeOn_subset (fun _ hb => List.mem_of_mem_filter hb) h)

theorem ocDigitL_id {s : SState} {u : List Nat} {d : Nat}
    (h : ∀ b, u.filter (fun b => decide (d ∈ getCell s.1 b)) = [b] →
      getCell s.1 b = [d]) :
    ocDigitL u s d = s := by
  show (match u.filter (fun b => decide (d ∈ getCell s.1 b)) with
      | [b] => assign_valueL s b [d]
      | _ => s) = s
  rcases hf : u.filter (fun b => decide (d ∈ getCell s.1 b)) with _ | ⟨b, _ | _⟩
  · rfl
  · rw [← h b hf]
    exact assign_valueL_self
  · rfl

/-- A stretch of units with every only-choice placement made places
nothing. -/
theorem foldl_ocUnitL_id {s : SState} {us : List (List Nat)}
    (h : ocFreeOn s.1 us = true) : us.foldl ocUnitL s = s := by
  refine foldl_id fun u hu => ?_
  show ocUnitL s u = s
  refine foldl_id fun d hd => ?_
  refine ocDigitL_id fun b hf => ?_
  have hc := List.all_eq_true.1 (List.all_eq_true.1 h u hu) d hd
  rw [hf] at hc
  exact eq_of_beq hc

theorem only_choiceL_id {s : SState} (h : ocFree s.1 = true) :
    only_choiceL s = s :=
  foldl_ocUnitL_id h

theorem twinPeerL_id {s : SState} {p d1 d2 : Nat} (h1 : d1 ∉ getCell s.1 p)
    (h2 : d2 ∉ getCell s.1 p) : twinPeerL d1 d2 s p = s := by
  unfold twinPeerL
  have hf1 : (getCell s.1 p).filter (fun e => decide (e ≠ d1)) = getCell s.1 p :=
    List.filter_eq_self.2 fun a ha =>
      decide_eq_true fun had : a = d1 => h1 (had ▸ ha)
  have hf2 : (getCell s.1 p).filter (fun e => decide (e ≠ d2)) = getCell s.1 p :=
    List.filter_eq_self.2 fun a ha =>
      decide_eq_true fun had : a = d2 => h2 (had ▸ ha)
  rw [hf1, hf2]
  exact assign_valueL_self

theorem processTwinL_id {s : SState} {pr : Nat × Nat}
    (h : ∀ d1 d2 rest, getCell s.1 pr.1 = d1 :: d2 :: rest →
      ∀ p ∈ sharedPeers pr.1 pr.2, d1 ∉ getCell s.1 p ∧ d2 ∉ getCell s.1 p) :
    processTwinL s pr = s := by
  unfold processTwinL
  by_cases hlt : (getCell s.1 pr.1).length < 2
  · rw [if_pos hlt]
  · rw [if_neg hlt]
    show (match getCell s.1 pr.1 with
        | d1 :: d2 :: _ => (sharedPeers pr.1 pr.2).foldl (twinPeerL d1 d2) s
        | _ => s) = s
    rcases hd : getCell s.1 pr.1 with _ | ⟨d1, _ | ⟨d2, rest⟩⟩
    · rfl
    · rfl
    · exact foldl_id fun p hp =>
        twinPeerL_id (h d1 d2 rest hd p hp).1 (h d1 d2 rest hd p hp).2

theorem naked_twinsL_id {s : SState} (h : ntFree s.1 = true) :
    naked_twinsL s = s := by
  refine foldl_id fun u hu => ?_
  show ntUnitL s u = s
  refine foldl_id fun pr hpr => ?_
  refine processTwinL_id fun d1 d2 rest hd p hp => ?_
  have hc := List.all_eq_true.1 (List.all_eq_true.1 h u hu) pr hpr
  rw [hd] at hc
  have hc2 : ((sharedPeers pr.1 pr.2).all fun p =>
      !(getCell s.1 p).contains d1 && !(getCell s.1 p).contains d2) = true := hc
  have hp2 := List.all_eq_true.1 hc2 p hp
  simp only [Bool.and_eq_true] at hp2
  exact ⟨by simpa using hp2.1, by simpa using hp2.2⟩

/-- The two cases of the instrumented search body. -/
theorem searchBodyL_none {rec : SState → Option Board × List Board × Nat}
    {s : SState} {t : List Board × Nat} (h : reduce_puzzleL s = (none, t)) :
    searchBodyL rec s = (none, t) := by
  unfold searchBodyL
  rw [h]

theorem searchBodyL_some {rec : SState → Option Board × List Board × Nat}
    {s : SState} {w : Board} {t : List Board × Nat}
    (h : reduce_puzzleL s = (some w, t)) :
    searchBodyL rec s =
      if allSingleton w then (some w, t)
      else
        match pickBox w with
        | none => (none, t)
        | some nb =>
          (getCell w nb.2).foldl
            (fun acc d =>
              match acc with
              | (some _, _) => acc
              | (none, t') => rec (setCell w nb.2 [d], t'.1, t'.2 + 1))
            (none, t) := by
  unfold searchBodyL
  rw [h]

/-! ## The instrumented run on `rectGrid`: the record has three
snapshots but four fixing events -/

theorem grid_values_rectGrid : grid_values rectGrid = some rV0 := by decide!

theorem rsnap1_eq :
    boxes.filter (fun b => (getCell rV0 b).length == 1) =
      rc1 ++ rc2 ++ rc3 ++ rc4 ++ rRest1 := by decide!

theorem rchunk1 : rc1.foldl elimBoxL (rV0, [], 0) = (rB1, [], 0) := by decide!

theorem rchunk2 : rc2.foldl elimBoxL (rB1, [], 0) = (rB2, [], 0) := by decide!

theorem rchunk3 : rc3.foldl elimBoxL (rB2, [], 0) = (rB3, [], 0) := by decide!

theorem rchunk4 : rc4.foldl elimBoxL (rB3, [], 0) = (rW1, [], 0) := by decide!

theorem rRest1_free : conflictFreeOn rW1 rRest1 = true := by decide!

/-- The root `eliminate` pass: the four blanks narrow to `{6, 7}`, nothing
is logged (no value reaches size 1) and no event is counted. -/
theorem eliminateL_rV0 : eliminateL (rV0, [], 0) = (rW1, [], 0) := by
  show (boxes.filter (fun b => (getCell rV0 b).length == 1)).foldl
      elimBoxL (rV0, [], 0) = (rW1, [], 0)
  rw [rsnap1_eq, List.foldl_append, List.foldl_append, List.foldl_append,
    List.foldl_append, rchunk1, rchunk2, rchunk3, rchunk4]
  exact foldl_elimBoxL_id rRest1_free

theorem ocFree_rW1 : ocFree rW1 = true := by decide!

theorem ntFree_rW1 : ntFree rW1 = true := by decide!

theorem hasEmpty_rW1 : hasEmpty rW1 = false := by decide!

theorem nSolved_rV0 : nSolved rV0 = 77 := by decide!

theorem nSolved_rW1 : nSolved rW1 = 77 := by decide!

/-- The root reducer pass changes the board but fixes no new box, so the
loop stops at `rW1` with an empty record. -/
theorem reduce_puzzleL_rV0 : reduce_puzzleL (rV0, [], 0) = (some rW1, [], 0) := by
  show reduceAuxL (81 + 1) (rV0, [], 0) = (some rW1, [], 0)
  rw [reduceAuxL_succ]
  have hstep : reduceStepL (rV0, [], 0) = (rW1, [], 0) := by
    unfold reduceStepL
    rw [eliminateL_rV0, only_choiceL_id (s := (rW1, [], 0)) ocFree_rW1,
      naked_twinsL_id (s := (rW1, [], 0)) ntFree_rW1]
  rw [hstep]
  show (if hasEmpty rW1 = true then ((none : Option Board), ([] : List Board), 0)
      else if nSolved rW1 = nSolved rV0 then (some rW1, ([] : List Board), 0)
      else reduceAuxL 81 (rW1, [], 0)) = (some rW1, [], 0)
  rw [hasEmpty_rW1, nSolved_rW1, nSolved_rV0, if_neg (by decide), if_pos rfl]

theorem allSingleton_rW1 : allSingleton rW1 = false := by decide!

theorem pickBox_rW1 : pickBox rW1 = some (2, 1) := by decide!

theorem getCell_rW1_1 : getCell rW1 1 = [6, 7] := by decide!

theorem setCell_rW1 : setCell rW1 1 [6] = rW1b := by decide!

theorem rsnapA_eq :
    boxes.filter (fun b => (getCell rW1b b).length == 1) =
      [0, 1] ++ rRestA := by decide!

/-- Eliminating boxes `A1` and `A2` in the branch: two peers collapse to
one digit, and `assign_value` appends a snapshot for each. -/
theorem rchunkA :
    [0, 1].foldl elimBoxL (rW1b, [], 1) = (rLA2, [rLA1, rLA2], 3) := by decide!

theorem rRestA_free : conflictFreeOn rLA2 rRestA = true := by decide!

/-- The branch `eliminate` pass: two snapshots logged, two events. -/
theorem eliminateL_rW1b :
    eliminateL (rW1b, [], 1) = (rLA2, [rLA1, rLA2], 3) := by
  show (boxes.filter (fun b => (getCell rW1b b).length == 1)).foldl
      elimBoxL (rW1b, [], 1) = (rLA2, [rLA1, rLA2], 3)
  rw [rsnapA_eq, List.foldl_append, rchunkA]
  exact foldl_elimBoxL_id rRestA_free

theorem runits_eq :
    unitlist = rUPre ++ [27, 28, 29, 30, 31, 32, 33, 34, 35] :: rUPost := by
  decide!

theorem rUPre_free : ocFreeOn rLA2 rUPre = true := by decide!

/-- Row `D` is the unit where only-choice fires: digit 6 fits only `D3`,
whose assignment completes the board and logs the third snapshot. -/
theorem rocUnit_rowD :
    ocUnitL (rLA2, [rLA1, rLA2], 3) [27, 28, 29, 30, 31, 32, 33, 34, 35] =
      (solBoard, [rLA1, rLA2, solBoard], 4) := by decide!

theorem rUPost_free : ocFreeOn solBoard rUPost = true := by decide!

/-- The branch `only_choice` pass: the last blank is fixed (snapshot three,
event four) and every later unit is already placed. -/
theorem only_choiceL_rA :
    only_choiceL (rLA2, [rLA1, rLA2], 3) =
      (solBoard, [rLA1, rLA2, solBoard], 4) := by
  show unitlist.foldl ocUnitL (rLA2, [rLA1, rLA2], 3) =
    (solBoard, [rLA1, rLA2, solBoard], 4)
  rw [runits_eq, List.foldl_append,
    foldl_ocUnitL_id (s := (rLA2, [rLA1, rLA2], 3)) rUPre_free,
    List.foldl_cons, rocUnit_rowD]
  exact foldl_ocUnitL_id rUPost_free

theorem nSolved_rW1b : nSolved rW1b = 78 := by decide!

theorem nSolved_solBoard : nSolved solBoard = 81 := by decide!

/-- The branch reducer: one working pass, then one silent pass on the
solved board. -/
theorem reduce_puzzleL_rW1b :
    reduce_puzzleL (rW1b, [], 1) =
      (some solBoard, [rLA1, rLA2, solBoard], 4) := by
  have hstep : reduceStepL (rW1b, [], 1) = (solBoard, [rLA1, rLA2, solBoard], 4) := by
    unfold reduceStepL
    rw [eliminateL_rW1b, only_choiceL_rA,
      naked_twinsL_id (s := (solBoard, [rLA1, rLA2, solBoard], 4)) ntFree_solBoard]
  have hfix : reduceStepL (solBoard, [rLA1, rLA2, solBoard], 4) =
      (solBoard, [rLA1, rLA2, solBoard], 4) := by
    unfold reduceStepL
    rw [eliminateL_id (s := (solBoard, [rLA1, rLA2, solBoard], 4)) conflictFree_solBoard,
      only_choiceL_id (s := (solBoard, [rLA1, rLA2, solBoard], 4)) ocFree_solBoard,
      naked_twinsL_id (s := (solBoard, [rLA1, rLA2, solBoard], 4)) ntFree_solBoard]
  have h2 : reduceAuxL 81 (solBoard, [rLA1, rLA2, solBoard], 4) =
      (some solBoard, [rLA1, rLA2, solBoard], 4) := by
    show reduceAuxL (80 + 1) (solBoard, [rLA1, rLA2, solBoard], 4) = _
    rw [reduceAuxL_succ, hfix]
    show (if hasEmpty solBoard = true then
          ((none : Option Board), [rLA1, rLA2, solBoard], 4)
        else if nSolved solBoard = nSolved solBoard then
          (some solBoard, [rLA1, rLA2, solBoard], 4)
        else reduceAuxL 80 (solBoard, [rLA1, rLA2, solBoard], 4)) =
      (some solBoard, [rLA1, rLA2, solBoard], 4)
    rw [hasEmpty_solBoard, if_neg (by decide), if_pos rfl]
  show reduceAuxL (81 + 1) (rW1b, [], 1) = (some solBoard, [rLA1, rLA2, solBoard], 4)
  rw [reduceAuxL_succ, hstep]
  show (if hasEmpty solBoard = true then
        ((none : Option Board), [rLA1, rLA2, solBoard], 4)
      else if nSolved solBoard = nSolved rW1b then
        (some solBoard, [rLA1, rLA2, solBoard], 4)
      else reduceAuxL 81 (solBoard, [rLA1, rLA2, solBoard], 4)) =
    (some solBoard, [rLA1, rLA2, solBoard], 4)
  rw [hasEmpty_solBoard, nSolved_solBoard, nSolved_rW1b, if_neg (by decide),
    if_neg (by decide), h2]

/-- The branch call of the instrumented search succeeds with the solved
board, three snapshots and four events. -/
theorem searchAuxL_rW1b :
    searchAuxL 81 (rW1b, [], 1) = (some solBoard, [rLA1, rLA2, solBoard], 4) := by
  show searchAuxL (80 + 1) (rW1b, [], 1) = _
  rw [searchAuxL_succ, searchBodyL_some reduce_puzzleL_rW1b,
    allSingleton_solBoard, if_pos rfl]

/-- The search body once the reducer stalls: the branch loop over the
chosen box's candidates. -/
theorem searchBodyL_branch {rec : SState → Option Board × List Board × Nat}
    {s : SState} {w : Board} {t : List Board × Nat} {nb : Nat × Nat}
    (h : reduce_puzzleL s = (some w, t)) (hall : allSingleton w = false)
    (hpick : pickBox w = some nb) :
    searchBodyL rec s =
      (getCell w nb.2).foldl
        (fun acc d =>
          match acc with
          | (some _, _) => acc
          | (none, t') => rec (setCell w nb.2 [d], t'.1, t'.2 + 1))
        (none, t) := by
  rw [searchBodyL_some h, hall, if_neg (by simp), hpick]

/-- The branch loop at the root: the first branch (digit 6) succeeds and
the second is skipped. -/
theorem rroot_fold :
    List.foldl
      (fun acc d =>
        match acc with
        | (some _, _) => acc
        | (none, t') => searchAuxL 81 (setCell rW1 1 [d], t'.1, t'.2 + 1))
      ((none, ([], 0)) : Option Board × List Board × Nat) [6, 7] =
      (some solBoard, [rLA1, rLA2, solBoard], 4) := by
  rw [List.foldl_cons]
  have h1 : (match ((none, ([], 0)) : Option Board × List Board × Nat) with
      | (some _, _) => ((none, ([], 0)) : Option Board × List Board × Nat)
      | (none, t') => searchAuxL 81 (setCell rW1 1 [6], t'.1, t'.2 + 1)) =
      (some solBoard, [rLA1, rLA2, solBoard], 4) := by
    show searchAuxL 81 (setCell rW1 1 [6], [], 0 + 1) = _
    rw [setCell_rW1]
    exact searchAuxL_rW1b
  rw [h1, List.foldl_cons]
  rfl

/-- The whole instrumented run: `solveL rectGrid` returns the solved
board, an assignment record of three snapshots, and four fixing events. -/
theorem solveL_rectGrid :
    solveL rectGrid = (some solBoard, [rLA1, rLA2, solBoard], 4) := by
  unfold solveL
  rw [grid_values_rectGrid]
  show searchAuxL (81 + 1) (rV0, [], 0) = _
  rw [searchAuxL_succ,
    searchBodyL_branch reduce_puzzleL_rV0 allSingleton_rW1 pickBox_rW1]
  show List.foldl _ (none, [], 0) (getCell rW1 1) = _
  rw [getCell_rW1_1]
  exact rroot_fold

/-! ## The assignment record: growth, slack and distinctness -/

/-- The assignment primitive, with its two `if`s flattened. -/
theorem assign_valueL_eq (s : SState) (b : Nat) (x : List Nat) :
    assign_valueL s b x =
      if getCell s.1 b = x then s
      else if x.length == 1 then
        (setCell s.1 b x, s.2.1 ++ [setCell s.1 b x], s.2.2 + 1)
      else (setCell s.1 b x, s.2.1, s.2.2) := rfl

theorem logLe_refl (a : List Board × Nat) : LogLe a a :=
  ⟨⟨[], (List.append_nil _).symm⟩, by omega⟩

theorem logLe_trans {a b c : List Board × Nat} (h1 : LogLe a b)
    (h2 : LogLe b c) : LogLe a c := by
  obtain ⟨⟨t1, ht1⟩, n1⟩ := h1
  obtain ⟨⟨t2, ht2⟩, n2⟩ := h2
  refine ⟨⟨t1 ++ t2, by rw [ht2, ht1, List.append_assoc]⟩, ?_⟩
  omega

/-- One `assign_value` call extends the log by at most one snapshot and
then also counts one event. -/
theorem assign_valueL_log (s : SState) (b : Nat) (x : List Nat) :
    LogLe s.2 (assign_valueL s b x).2 := by
  rw [assign_valueL_eq]
  by_cases heq : getCell s.1 b = x
  · rw [if_pos heq]
    exact logLe_refl _
  · rw [if_neg heq]
    by_cases hlen : (x.length == 1) = true
    · rw [if_pos hlen]
      refine ⟨⟨[setCell s.1 b x], rfl⟩, ?_⟩
      show s.2.2 + (s.2.1 ++ [setCell s.1 b x]).length ≤ s.2.1.length + (s.2.2 + 1)
      rw [List.length_append]
      simp only [List.length_cons, List.length_nil]
      omega
    · rw [if_neg hlen]
      exact logLe_refl _

/-- A fold of steps that respect the growth discipline respects it. -/
theorem foldl_logLe {α β : Type} (g : β → List Board × Nat) {f : β → α → β}
    (hf : ∀ s x, LogLe (g s) (g (f s x))) :
    ∀ (l : List α) (s : β), LogLe (g s) (g (l.foldl f s))
  | [], _ => logLe_refl _
  | x :: t, s => logLe_trans (hf s x) (foldl_logLe g hf t (f s x))

theorem elimBoxL_log (s : SState) (b : Nat) : LogLe s.2 (elimBoxL s b).2 := by
  show LogLe s.2
    ((match getCell s.1 b with
      | [d] => (peers b).foldl (elimPeerL d) s
      | _ => s)).2
  rcases getCell s.1 b with _ | ⟨d, _ | _⟩
  · exact logLe_refl _
  · exact foldl_logLe Prod.snd (fun s p => assign_valueL_log s p _) _ s
  · exact logLe_refl _

theorem eliminateL_log (s : SState) : LogLe s.2 (eliminateL s).2 :=
  foldl_logLe Prod.snd (fun s b => elimBoxL_log s b) _ s

theorem ocDigitL_log (u : List Nat) (s : SState) (d : Nat) :
    LogLe s.2 (ocDigitL u s d).2 := by
  show LogLe s.2
    ((match u.filter (fun b => decide (d ∈ getCell s.1 b)) with
      | [b] => assign_valueL s b [d]
      | _ => s)).2
  rcases u.filter (fun b => decide (d ∈ getCell s.1 b)) with _ | ⟨b, _ | _⟩
  · exact logLe_refl _
  · exact assign_valueL_log s b [d]
  · exact logLe_refl _

theorem only_choiceL_log (s : SState) : LogLe s.2 (only_choiceL s).2 :=
  foldl_logLe Prod.snd
    (fun s u => foldl_logLe Prod.snd (fun s d => ocDigitL_log u s d) digits s)
    unitlist s

theorem processTwinL_log (s : SState) (pr : Nat × Nat) :
    LogLe s.2 (processTwinL s pr).2 := by
  unfold processTwinL
  by_cases hlt : (getCell s.1 pr.1).length < 2
  · rw [if_pos hlt]
    exact logLe_refl _
  · rw [if_neg hlt]
    show LogLe s.2
      ((match getCell s.1 pr.1 with
        | d1 :: d2 :: _ => (sharedPeers pr.1 pr.2).foldl (twinPeerL d1 d2) s
        | _ => s)).2
    rcases getCell s.1 pr.1 with _ | ⟨d1, _ | ⟨d2, rest⟩⟩
    · exact logLe_refl _
    · exact logLe_refl _
    · exact foldl_logLe Prod.snd (fun s p => assign_valueL_log s p _) _ s

theorem naked_twinsL_log (s : SState) : LogLe s.2 (naked_twinsL s).2 :=
  foldl_logLe Prod.snd
    (fun s u => foldl_logLe Prod.snd (fun s pr => processTwinL_log s pr)
      (twinPairs s.1 u) s)
    unitlist s

theorem reduceStepL_log (s : SState) : LogLe s.2 (reduceStepL s).2 :=
  logLe_trans (eliminateL_log s)
    (logLe_trans (only_choiceL_log (eliminateL s))
      (naked_twinsL_log (only_choiceL (eliminateL s))))

/-- The side state the reducer hands back, case by case. -/
theorem reduceAuxL_succ_snd (f : Nat) (s : SState) :
    (reduceAuxL (f + 1) s).2 =
      if hasEmpty (reduceStepL s).1 then (reduceStepL s).2
      else if nSolved (reduceStepL s).1 = nSolved s.1 then (reduceStepL s).2
      else (reduceAuxL f (reduceStepL s)).2 := by
  rw [reduceAuxL_succ]
  by_cases h1 : hasEmpty (reduceStepL s).1 = true
  · rw [if_pos h1, if_pos h1]
  · rw [if_neg h1, if_neg h1]
    by_cases h2 : nSolved (reduceStepL s).1 = nSolved s.1
    · rw [if_pos h2, if_pos h2]
    · rw [if_neg h2, if_neg h2]

theorem reduceAuxL_log : ∀ (f : Nat) (s : SState), LogLe s.2 (reduceAuxL f s).2
  | 0, s => by
    rw [reduceAuxL_zero]
    exact logLe_refl _
  | f + 1, s => by
    rw [reduceAuxL_succ_snd]
    by_cases h1 : hasEmpty (reduceStepL s).1 = true
    · rw [if_pos h1]
      exact reduceStepL_log s
    · rw [if_neg h1]
      by_cases h2 : nSolved (reduceStepL s).1 = nSolved s.1
      · rw [if_pos h2]
        exact reduceStepL_log s
      · rw [if_neg h2]
        exact logLe_trans (reduceStepL_log s) (reduceAuxL_log f (reduceStepL s))

theorem reduce_puzzleL_log (s : SState) : LogLe s.2 (reduce_puzzleL s).2 :=
  reduceAuxL_log 82 s

/-- The instrumented search respects the growth discipline: the log only
grows, by at most the growth of the event counter. -/
theorem searchAuxL_log : ∀ (f : Nat) (s : SState), LogLe s.2 (searchAuxL f s).2
  | 0, s => by
    rw [searchAuxL_zero]
    exact logLe_refl _
  | f + 1, s => by
    rw [searchAuxL_succ]
    rcases hred : reduce_puzzleL s with ⟨o, t⟩
    have ht : LogLe s.2 t := by
      have h := reduce_puzzleL_log s
      rw [hred] at h
      exact h
    rcases o with _ | w
    · rw [searchBodyL_none hred]
      exact ht
    · rw [searchBodyL_some hred]
      by_cases hall : allSingleton w = true
      · rw [if_pos hall]
        exact ht
      · rw [if_neg hall]
        rcases pickBox w with _ | nb
        · exact ht
        · refine logLe_trans ht
            (foldl_logLe Prod.snd (fun acc d => ?_) (getCell w nb.2) (none, t))
          rcases acc with ⟨_ | bb, t'⟩
          · show LogLe t' (searchAuxL f (setCell w nb.2 [d], t'.1, t'.2 + 1)).2
            refine logLe_trans (b := (t'.1, t'.2 + 1)) ?_
              (searchAuxL_log f (setCell w nb.2 [d], t'.1, t'.2 + 1))
            refine ⟨⟨[], (List.append_nil _).symm⟩, ?_⟩
            show t'.2 + t'.1.length ≤ t'.1.length + (t'.2 + 1)
            omega
          · exact logLe_refl _

/-- Over a whole run, the record never has more snapshots than there were
fixing events. -/
theorem solveL_log (g : List Nat) : (solveL g).2.1.length ≤ (solveL g).2.2 := by
  rcases hg : grid_values g with _ | v
  · have h : solveL g = (none, [], 0) := by
      unfold solveL
      rw [hg]
    rw [h]
    exact Nat.le_refl _
  · have hs : solveL g = searchAuxL 82 (v, [], 0) := by
      unfold solveL
      rw [hg]
    rw [hs]
    have h := (searchAuxL_log 82 (v, [], 0)).2
    simpa using h

/-! ### No two consecutive snapshots are equal -/

/-- The assignment primitive preserves the record invariant whenever the
assigned value shrinks the box (as every call of the program does). -/
theorem assign_valueL_inv {s : SState} {b : Nat} {x : List Nat} (hb : b < 81)
    (hx : x <+ getCell s.1 b) (h : RecordInv s) :
    RecordInv (assign_valueL s b x) := by
  rw [assign_valueL_eq]
  by_cases heq : getCell s.1 b = x
  · rw [if_pos heq]
    exact h
  · rw [if_neg heq]
    obtain ⟨h81, hch, hlast⟩ := h
    by_cases hlen : (x.length == 1) = true
    · rw [if_pos hlen]
      refine ⟨?_, ?_, ?_⟩
      · show (setCell s.1 b x).length = 81
        rw [length_setCell]
        exact h81
      · show (s.2.1 ++ [setCell s.1 b x]).Chain' (· ≠ ·)
        rw [List.chain'_append]
        refine ⟨hch, List.chain'_singleton _, ?_⟩
        intro z hz y hy
        have hylit : y = setCell s.1 b x := by
          have h2 : setCell s.1 b x = y := by simpa using hy
          exact h2.symm
        subst hylit
        intro hzy
        have h1 : getCell s.1 b <+ getCell z b := (hlast z hz).2 b
        rw [hzy, getCell_setCell, if_pos ⟨h81 ▸ hb, rfl⟩] at h1
        exact heq (List.Sublist.antisymm h1 hx)
      · intro l hl
        show bLe (setCell s.1 b x) l
        have hl2 : setCell s.1 b x = l := by
          have h2 : (s.2.1 ++ [setCell s.1 b x]).getLast? = some l := hl
          rw [List.getLast?_concat] at h2
          exact Option.some_injective _ h2
        rw [← hl2]
        exact bLe_refl _
    · rw [if_neg hlen]
      refine ⟨?_, hch, fun l hl => bLe_trans (setCell_bLe hx) (hlast l hl)⟩
      show (setCell s.1 b x).length = 81
      rw [length_setCell]
      exact h81

/-- A fold of invariant-preserving steps preserves the invariant. -/
theorem foldl_recordInv {α : Type} {f : SState → α → SState} :
    ∀ {l : List α} {s : SState},
      (∀ s x, x ∈ l → RecordInv s → RecordInv (f s x)) → RecordInv s →
      RecordInv (l.foldl f s)
  | [], _, _, h => h
  | x :: t, s, hf, h => by
    rw [List.foldl_cons]
    exact foldl_recordInv
      (fun s y hy => hf s y (List.mem_cons_of_mem x hy))
      (hf s x (List.mem_cons_self x t) h)

theorem elimBoxL_inv {s : SState} (b : Nat) (h : RecordInv s) :
    RecordInv (elimBoxL s b) := by
  show RecordInv
    (match getCell s.1 b with
      | [d] => (peers b).foldl (elimPeerL d) s
      | _ => s)
  rcases getCell s.1 b with _ | ⟨d, _ | _⟩
  · exact h
  · refine foldl_recordInv (fun _ p hp hs => ?_) h
    exact assign_valueL_inv (mem_boxes.1 (mem_peers_mem_boxes hp))
      (List.filter_sublist _) hs
  · exact h

theorem eliminateL_inv {s : SState} (h : RecordInv s) :
    RecordInv (eliminateL s) :=
  foldl_recordInv (fun _ b _ hs => elimBoxL_inv b hs) h

theorem ocDigitL_inv {s : SState} {u : List Nat} (hu : ∀ b ∈ u, b < 81)
    (d : Nat) (h : RecordInv s) : RecordInv (ocDigitL u s d) := by
  show RecordInv
    (match u.filter (fun b => decide (d ∈ getCell s.1 b)) with
      | [b] => assign_valueL s b [d]
      | _ => s)
  rcases hf : u.filter (fun b => decide (d ∈ getCell s.1 b)) with _ | ⟨b, _ | _⟩
  · exact h
  · have hbmem : b ∈ u.filter (fun b => decide (d ∈ getCell s.1 b)) := by
      rw [hf]
      exact List.mem_cons_self b []
    have hin := List.mem_filter.1 hbmem
    exact assign_valueL_inv (hu b hin.1)
      (List.singleton_sublist.2 (of_decide_eq_true hin.2)) h
  · exact h

theorem only_choiceL_inv {s : SState} (h : RecordInv s) :
    RecordInv (only_choiceL s) :=
  foldl_recordInv
    (fun _ u hu hs =>
      foldl_recordInv
        (fun _ d _ hs2 =>
          ocDigitL_inv
            (fun b hb => mem_boxes.1 ((unitlist_facts u hu).2.2 b hb)) d hs2)
        hs)
    h

theorem processTwinL_inv {s : SState} (pr : Nat × Nat) (h : RecordInv s) :
    RecordInv (processTwinL s pr) := by
  unfold processTwinL
  by_cases hlt : (getCell s.1 pr.1).length < 2
  · rw [if_pos hlt]
    exact h
  · rw [if_neg hlt]
    show RecordInv
      (match getCell s.1 pr.1 with
        | d1 :: d2 :: _ => (sharedPeers pr.1 pr.2).foldl (twinPeerL d1 d2) s
        | _ => s)
    rcases getCell s.1 pr.1 with _ | ⟨d1, _ | ⟨d2, rest⟩⟩
    · exact h
    · exact h
    · refine foldl_recordInv (fun _ p hp hs => ?_) h
      have hp1 : p ∈ peers pr.1 := (List.mem_filter.1 hp).1
      exact assign_valueL_inv (mem_boxes.1 (mem_peers_mem_boxes hp1))
        ((List.filter_sublist _).trans (List.filter_sublist _)) hs

theorem naked_twinsL_inv {s : SState} (h : RecordInv s) :
    RecordInv (naked_twinsL s) :=
  foldl_recordInv
    (fun _ _ _ hs =>
      foldl_recordInv (fun _ pr _ hs2 => processTwinL_inv pr hs2) hs)
    h

theorem reduceStepL_inv {s : SState} (h : RecordInv s) :
    RecordInv (reduceStepL s) :=
  naked_twinsL_inv (only_choiceL_inv (eliminateL_inv h))

/-- The reducer verdict, case by case. -/
theorem reduceAuxL_succ_fst (f : Nat) (s : SState) :
    (reduceAuxL (f + 1) s).1 =
      if hasEmpty (reduceStepL s).1 then none
      else if nSolved (reduceStepL s).1 = nSolved s.1 then
        some (reduceStepL s).1
      else (reduceAuxL f (reduceStepL s)).1 := by
  rw [reduceAuxL_succ]
  by_cases h1 : hasEmpty (reduceStepL s).1 = true
  · rw [if_pos h1, if_pos h1]
  · rw [if_neg h1, if_neg h1]
    by_cases h2 : nSolved (reduceStepL s).1 = nSolved s.1
    · rw [if_pos h2, if_pos h2]
    · rw [if_neg h2, if_neg h2]

/-- The side state the reducer hands back is the side state of some
invariant-satisfying intermediate state, which also carries the returned
board. -/
theorem reduceAuxL_state :
    ∀ (f : Nat) (s : SState), RecordInv s →
      ∃ s' : SState, RecordInv s' ∧ (reduceAuxL f s).2 = s'.2 ∧
        ∀ w, (reduceAuxL f s).1 = some w → w = s'.1
  | 0, s, h => by
    refine ⟨s, h, by rw [reduceAuxL_zero], fun w hw => ?_⟩
    rw [reduceAuxL_zero] at hw
    exact Option.noConfusion hw
  | f + 1, s, h => by
    by_cases h1 : hasEmpty (reduceStepL s).1 = true
    · refine ⟨reduceStepL s, reduceStepL_inv h,
        by rw [reduceAuxL_succ_snd, if_pos h1], fun w hw => ?_⟩
      rw [reduceAuxL_succ_fst, if_pos h1] at hw
      exact Option.noConfusion hw
    · by_cases h2 : nSolved (reduceStepL s).1 = nSolved s.1
      · refine ⟨reduceStepL s, reduceStepL_inv h,
          by rw [reduceAuxL_succ_snd, if_neg h1, if_pos h2], fun w hw => ?_⟩
        rw [reduceAuxL_succ_fst, if_neg h1, if_pos h2] at hw
        exact (Option.some_injective _ hw).symm
      · obtain ⟨s', hs', heq, hv⟩ :=
          reduceAuxL_state f (reduceStepL s) (reduceStepL_inv h)
        refine ⟨s', hs',
          by rw [reduceAuxL_succ_snd, if_neg h1, if_neg h2, heq], fun w hw => ?_⟩
        rw [reduceAuxL_succ_fst, if_neg h1, if_neg h2] at hw
        exact hv w hw

/-- Along the reducer loop, the record never repeats a snapshot twice in a
row. -/
theorem reduceAuxL_chain (f : Nat) {s : SState} (h : RecordInv s) :
    ((reduceAuxL f s).2.1).Chain' (· ≠ ·) := by
  obtain ⟨s', hs', heq, _⟩ := reduceAuxL_state f s h
  rw [heq]
  exact hs'.2.1

/-- The original C3 claim is refuted by the deadly-rectangle grid: the
whole run appends three snapshots to the record but fixes a box four
times — the branch assignment in `search` is a fixing event with no
append. -/
theorem C3_assignment_record_counterexample :
    (solveL rectGrid).2.1.length = 3 ∧ (solveL rectGrid).2.2 = 4 ∧
      (solveL rectGrid).2.1.length ≠ (solveL rectGrid).2.2 := by
  rw [solveL_rectGrid]
  exact ⟨rfl, rfl, by decide⟩

/-! ## Peers are symmetric -/

theorem peers_oob {b : Nat} (hb : 81 ≤ b) : peers b = [] := by
  show peers_list.getD b [] = []
  rw [List.getD_eq_default]
  rw [peers_list_length]
  exact hb

theorem peers_symm {b p : Nat} (h : p ∈ peers b) : b ∈ peers p := by
  rcases Nat.lt_or_ge b 81 with hb | hb
  · obtain ⟨hpB, hne, u, hu, hbu, hpu⟩ := (mem_peers_iff hb).1 h
    have hp : p < 81 := mem_boxes.1 hpB
    exact (mem_peers_iff hp).2
      ⟨mem_boxes.2 hb, fun he => hne he.symm, u, hu, hpu, hbu⟩
  · rw [peers_oob hb] at h
    cases h

theorem not_mem_peers_self (b : Nat) : b ∉ peers b := by
  intro h
  rcases Nat.lt_or_ge b 81 with hb | hb
  · exact ((mem_peers_iff hb).1 h).2.1 rfl
  · rw [peers_oob hb] at h
    cases h

/-! ## Generic fold threading -/

/-- Threading a state property together with a property of the newly
logged snapshots through a fold. -/
theorem foldl_pres_log {α : Type} {f : SState → α → SState} {P : SState → Prop}
    {Q : Board → Prop} :
    ∀ {l : List α} {s : SState},
      (∀ s x, x ∈ l → P s → P (f s x) ∧ ∀ S ∈ (f s x).2.1, S ∈ s.2.1 ∨ Q S) →
      P s → P (l.foldl f s) ∧ ∀ S ∈ (l.foldl f s).2.1, S ∈ s.2.1 ∨ Q S
  | [], _, _, h => ⟨h, fun _ hS => Or.inl hS⟩
  | x :: t, s, hf, h => by
    rw [List.foldl_cons]
    obtain ⟨h1, h2⟩ := hf s x (List.mem_cons_self x t) h
    obtain ⟨h3, h4⟩ := foldl_pres_log (l := t)
      (fun s y hy => hf s y (List.mem_cons_of_mem x hy)) h1
    refine ⟨h3, fun S hS => ?_⟩
    rcases h4 S hS with hS2 | hq
    · exact h2 S hS2
    · exact Or.inr hq

/-! ## The log is threaded opaquely: older entries shift out -/

theorem assign_valueL_shift (L0 : List Board) (s : SState) (b : Nat)
    (x : List Nat) :
    assign_valueL (shiftL L0 s) b x = shiftL L0 (assign_valueL s b x) := by
  rw [assign_valueL_eq, assign_valueL_eq]
  unfold shiftL
  by_cases heq : getCell s.1 b = x
  · rw [if_pos heq, if_pos heq]
  · rw [if_neg heq, if_neg heq]
    by_cases hlen : (x.length == 1) = true
    · rw [if_pos hlen, if_pos hlen]
      show (setCell s.1 b x, (L0 ++ s.2.1) ++ [setCell s.1 b x], s.2.2 + 1) = _
      rw [List.append_assoc]
    · rw [if_neg hlen, if_neg hlen]

theorem foldl_shift {α : Type} {f : SState → α → SState} (L0 : List Board)
    (hf : ∀ s x, f (shiftL L0 s) x = shiftL L0 (f s x)) :
    ∀ (l : List α) (s : SState), l.foldl f (shiftL L0 s) = shiftL L0 (l.foldl f s)
  | [], _ => rfl
  | x :: t, s => by
    rw [List.foldl_cons, List.foldl_cons, hf, foldl_shift L0 hf t]

theorem elimPeerL_shift (L0 : List Board) (d : Nat) (s : SState) (p : Nat) :
    elimPeerL d (shiftL L0 s) p = shiftL L0 (elimPeerL d s p) := by
  show assign_valueL (shiftL L0 s) p
      (((shiftL L0 s).1.getD p []).filter (fun e => decide (e ≠ d))) = _
  exact assign_valueL_shift L0 s p _

theorem elimBoxL_shift (L0 : List Board) (s : SState) (b : Nat) :
    elimBoxL (shiftL L0 s) b = shiftL L0 (elimBoxL s b) := by
  show (match getCell s.1 b with
      | [d] => (peers b).foldl (elimPeerL d) (shiftL L0 s)
      | _ => shiftL L0 s) =
    shiftL L0 (match getCell s.1 b with
      | [d] => (peers b).foldl (elimPeerL d) s
      | _ => s)
  rcases getCell s.1 b with _ | ⟨d, _ | _⟩
  · rfl
  · exact foldl_shift L0 (fun s p => elimPeerL_shift L0 d s p) _ s
  · rfl

theorem eliminateL_shift (L0 : List Board) (s : SState) :
    eliminateL (shiftL L0 s) = shiftL L0 (eliminateL s) := by
  show (boxes.filter (fun b => (getCell s.1 b).length == 1)).foldl
      elimBoxL (shiftL L0 s) = _
  exact foldl_shift L0 (fun s b => elimBoxL_shift L0 s b) _ s

theorem ocDigitL_shift (L0 : List Board) (u : List Nat) (s : SState) (d : Nat) :
    ocDigitL u (shiftL L0 s) d = shiftL L0 (ocDigitL u s d) := by
  show (match u.filter (fun b => decide (d ∈ getCell s.1 b)) with
      | [b] => assign_valueL (shiftL L0 s) b [d]
      | _ => shiftL L0 s) =
    shiftL L0 (match u.filter (fun b => decide (d ∈ getCell s.1 b)) with
      | [b] => assign_valueL s b [d]
      | _ => s)
  rcases u.filter (fun b => decide (d ∈ getCell s.1 b)) with _ | ⟨b, _ | _⟩
  · rfl
  · exact assign_valueL_shift L0 s b [d]
  · rfl

theorem only_choiceL_shift (L0 : List Board) (s : SState) :
    only_choiceL (shiftL L0 s) = shiftL L0 (only_choiceL s) := by
  show unitlist.foldl ocUnitL (shiftL L0 s) = _
  refine foldl_shift L0 (fun s u => ?_) _ s
  show digits.foldl (ocDigitL u) (shiftL L0 s) = _
  exact foldl_shift L0 (fun s d => ocDigitL_shift L0 u s d) _ s

theorem twinPeerL_shift (L0 : List Board) (d1 d2 : Nat) (s : SState) (p : Nat) :
    twinPeerL d1 d2 (shiftL L0 s) p = shiftL L0 (twinPeerL d1 d2 s p) := by
  show assign_valueL (shiftL L0 s) p
      ((((shiftL L0 s).1.getD p []).filter (fun e => decide (e ≠ d1))).filter
        (fun e => decide (e ≠ d2))) = _
  exact assign_valueL_shift L0 s p _

theorem processTwinL_shift (L0 : List Board) (s : SState) (pr : Nat × Nat) :
    processTwinL (shiftL L0 s) pr = shiftL L0 (processTwinL s pr) := by
  show (if (getCell s.1 pr.1).length < 2 then shiftL L0 s
      else
        match getCell s.1 pr.1 with
        | d1 :: d2 :: _ =>
          (sharedPeers pr.1 pr.2).foldl (twinPeerL d1 d2) (shiftL L0 s)
        | _ => shiftL L0 s) =
    shiftL L0
      (if (getCell s.1 pr.1).length < 2 then s
      else
        match getCell s.1 pr.1 with
        | d1 :: d2 :: _ => (sharedPeers pr.1 pr.2).foldl (twinPeerL d1 d2) s
        | _ => s)
  by_cases hlt : (getCell s.1 pr.1).length < 2
  · rw [if_pos hlt, if_pos hlt]
  · rw [if_neg hlt, if_neg hlt]
    rcases getCell s.1 pr.1 with _ | ⟨d1, _ | ⟨d2, rest⟩⟩
    · rfl
    · rfl
    · exact foldl_shift L0 (fun s p => twinPeerL_shift L0 d1 d2 s p) _ s

theorem naked_twinsL_shift (L0 : List Board) (s : SState) :
    naked_twinsL (shiftL L0 s) = shiftL L0 (naked_twinsL s) := by
  show unitlist.foldl ntUnitL (shiftL L0 s) = _
  refine foldl_shift L0 (fun s u => ?_) _ s
  show (twinPairs s.1 u).foldl processTwinL (shiftL L0 s) = _
  exact foldl_shift L0 (fun s pr => processTwinL_shift L0 s pr) _ s

theorem reduceStepL_shift (L0 : List Board) (s : SState) :
    reduceStepL (shiftL L0 s) = shiftL L0 (reduceStepL s) := by
  unfold reduceStepL
  rw [eliminateL_shift, only_choiceL_shift, naked_twinsL_shift]

theorem shiftL_fst (L0 : List Board) (s : SState) : (shiftL L0 s).1 = s.1 := rfl

theorem shiftL_snd (L0 : List Board) (s : SState) :
    (shiftL L0 s).2 = (L0 ++ s.2.1, s.2.2) := rfl

theorem reduceAuxL_shift (L0 : List Board) :
    ∀ (f : Nat) (s : SState),
      reduceAuxL f (shiftL L0 s) =
        ((reduceAuxL f s).1, L0 ++ (reduceAuxL f s).2.1, (reduceAuxL f s).2.2)
  | 0, s => by
    rw [reduceAuxL_zero, reduceAuxL_zero]
    rfl
  | f + 1, s => by
    rw [reduceAuxL_succ, reduceAuxL_succ, reduceStepL_shift, shiftL_fst,
      shiftL_fst, shiftL_snd]
    by_cases h1 : hasEmpty (reduceStepL s).1 = true
    · rw [if_pos h1, if_pos h1]
    · rw [if_neg h1, if_neg h1]
      by_cases h2 : nSolved (reduceStepL s).1 = nSolved s.1
      · rw [if_pos h2, if_pos h2]
      · rw [if_neg h2, if_neg h2]
        exact reduceAuxL_shift L0 f (reduceStepL s)

/-! ## The instrumented board is the plain board -/

theorem assign_valueL_fst (s : SState) (b : Nat) (x : List Nat) :
    (assign_valueL s b x).1 = assign_value s.1 b x := by
  rw [assign_valueL_eq]
  unfold assign_value
  by_cases heq : getCell s.1 b = x
  · rw [if_pos heq, if_pos heq]
  · rw [if_neg heq, if_neg heq]
    by_cases hlen : (x.length == 1) = true
    · rw [if_pos hlen]
    · rw [if_neg hlen]

theorem foldl_fst {α : Type} {fL : SState → α → SState} {f : Board → α → Board}
    (hf : ∀ s x, (fL s x).1 = f s.1 x) :
    ∀ (l : List α) (s : SState), (l.foldl fL s).1 = l.foldl f s.1
  | [], _ => rfl
  | x :: t, s => by
    rw [List.foldl_cons, List.foldl_cons, ← hf]
    exact foldl_fst hf t (fL s x)

theorem elimPeerL_fst (d : Nat) (s : SState) (p : Nat) :
    (elimPeerL d s p).1 = elimPeer d s.1 p :=
  assign_valueL_fst s p _

theorem elimBoxL_fst (s : SState) (b : Nat) : (elimBoxL s b).1 = elimBox s.1 b := by
  show (match getCell s.1 b with
      | [d] => (peers b).foldl (elimPeerL d) s
      | _ => s).1 =
    (match getCell s.1 b with
      | [d] => (peers b).foldl (elimPeer d) s.1
      | _ => s.1)
  rcases getCell s.1 b with _ | ⟨d, _ | _⟩
  · rfl
  · exact foldl_fst (fun s p => elimPeerL_fst d s p) _ s
  · rfl

theorem eliminateL_fst (s : SState) : (eliminateL s).1 = eliminate s.1 :=
  foldl_fst (fun s b => elimBoxL_fst s b) _ s

theorem ocDigitL_fst (u : List Nat) (s : SState) (d : Nat) :
    (ocDigitL u s d).1 = ocDigit u s.1 d := by
  show (match u.filter (fun b => decide (d ∈ getCell s.1 b)) with
      | [b] => assign_valueL s b [d]
      | _ => s).1 =
    (match u.filter (fun b => decide (d ∈ getCell s.1 b)) with
      | [b] => assign_value s.1 b [d]
      | _ => s.1)
  rcases u.filter (fun b => decide (d ∈ getCell s.1 b)) with _ | ⟨b, _ | _⟩
  · rfl
  · exact assign_valueL_fst s b [d]
  · rfl

theorem only_choiceL_fst (s : SState) : (only_choiceL s).1 = only_choice s.1 := by
  refine foldl_fst (fun s u => ?_) _ s
  exact foldl_fst (fun s d => ocDigitL_fst u s d) _ s

theorem twinPeerL_fst (d1 d2 : Nat) (s : SState) (p : Nat) :
    (twinPeerL d1 d2 s p).1 = twinPeer d1 d2 s.1 p :=
  assign_valueL_fst s p _

theorem processTwinL_fst (s : SState) (pr : Nat × Nat) :
    (processTwinL s pr).1 = processTwin s.1 pr := by
  unfold processTwinL processTwin
  by_cases hlt : (getCell s.1 pr.1).length < 2
  · rw [if_pos hlt, if_pos hlt]
  · rw [if_neg hlt, if_neg hlt]
    show (match getCell s.1 pr.1 with
        | d1 :: d2 :: _ => (sharedPeers pr.1 pr.2).foldl (twinPeerL d1 d2) s
        | _ => s).1 =
      (match getCell s.1 pr.1 with
        | d1 :: d2 :: _ => (sharedPeers pr.1 pr.2).foldl (twinPeer d1 d2) s.1
        | _ => s.1)
    rcases getCell s.1 pr.1 with _ | ⟨d1, _ | ⟨d2, rest⟩⟩
    · rfl
    · rfl
    · exact foldl_fst (fun s p => twinPeerL_fst d1 d2 s p) _ s

theorem naked_twinsL_fst (s : SState) : (naked_twinsL s).1 = naked_twins s.1 := by
  refine foldl_fst (fun s u => ?_) _ s
  exact foldl_fst (fun s pr => processTwinL_fst s pr) _ s

theorem reduceStepL_fst (s : SState) : (reduceStepL s).1 = reduceStep s.1 := by
  unfold reduceStepL reduceStep
  rw [← eliminateL_fst, ← only_choiceL_fst, ← naked_twinsL_fst]

theorem reduceAuxL_fst : ∀ (f : Nat) (s : SState),
    (reduceAuxL f s).1 = reduceAux f s.1
  | 0, s => by
    rw [reduceAuxL_zero, reduceAux_zero]
  | f + 1, s => by
    rw [reduceAuxL_succ, reduceAux_succ, reduceStepL_fst]
    by_cases h1 : hasEmpty (reduceStep s.1) = true
    · rw [if_pos h1, if_pos h1]
    · rw [if_neg h1, if_neg h1]
      by_cases h2 : nSolved (reduceStep s.1) = nSolved s.1
      · rw [if_pos h2, if_pos h2]
      · rw [if_neg h2, if_neg h2]
        rw [← reduceStepL_fst]
        exact reduceAuxL_fst f (reduceStepL s)

/-! ## A finished `eliminate` pass leaves no surviving conflict -/

/-- A shrink preserves the absence of a digit. -/
theorem not_mem_of_bLe {w v : Board} (h : bLe w v) {c d : Nat}
    (hd : d ∉ getCell v c) : d ∉ getCell w c :=
  fun hmem => hd ((h.2 c).subset hmem)

/-- One peer sweep removes the digit from its own target. -/
theorem elimPeer_strips (d : Nat) (b : Board) (p : Nat) :
    d ∉ getCell (elimPeer d b p) p := by
  unfold elimPeer
  rw [getCell_assign]
  by_cases hp : p < b.length ∧ p = p
  · rw [if_pos hp]
    intro hmem
    have h2 := (List.mem_filter.1 hmem).2
    simp at h2
  · rw [if_neg hp]
    have hple : b.length ≤ p := by
      rcases Nat.lt_or_ge p b.length with hlt | hge
      · exact absurd ⟨hlt, rfl⟩ hp
      · exact hge
    rw [getCell_eq_nil hple]
    exact List.not_mem_nil d

/-- After the whole peer sweep for digit `d`, no swept cell holds `d`. -/
theorem foldl_elimPeer_strips (d : Nat) :
    ∀ (l : List Nat) (b : Board), ∀ p ∈ l, d ∉ getCell (l.foldl (elimPeer d) b) p
  | [], _ => by
    intro p hp
    cases hp
  | p0 :: t, b => by
    intro p hp
    rw [List.foldl_cons]
    rcases List.mem_cons.1 hp with rfl | hpt
    · exact not_mem_of_bLe
        (foldl_bLe _ _ (fun w q _ => elimPeer_bLe d w q) (elimPeer d b p))
        (elimPeer_strips d b p)
    · exact foldl_elimPeer_strips d t (elimPeer d b p0) p hpt

/-- A box in `eliminate`'s snapshot that is not emptied by the pass has
had its digit removed from every one of its peers by the end of the
pass. -/
theorem foldl_elimBox_post :
    ∀ (l : List Nat) (b : Board) (q d : Nat), q ∈ l → getCell b q = [d] →
      getCell (l.foldl elimBox b) q ≠ [] →
      ∀ p ∈ peers q, d ∉ getCell (l.foldl elimBox b) p
  | [], _, _, _, hq, _, _ => by cases hq
  | r :: t, b, q, d, hq, hbq, hne => by
    intro p hp
    rw [List.foldl_cons] at hne ⊢
    rcases List.mem_cons.1 hq with rfl | hqt
    · have hbox : ∀ p2 ∈ peers q, d ∉ getCell (elimBox b q) p2 := by
        intro p2 hp2
        show d ∉ getCell
          (match getCell b q with
            | [d] => (peers q).foldl (elimPeer d) b
            | _ => b) p2
        rw [hbq]
        exact foldl_elimPeer_strips d (peers q) b p2 hp2
      exact not_mem_of_bLe
        (foldl_bLe _ _ (fun w x _ => elimBox_bLe w x) (elimBox b q))
        (hbox p hp)
    · have hb1 : getCell (elimBox b r) q <+ getCell b q := (elimBox_bLe b r).2 q
      rw [hbq] at hb1
      rcases sublist_of_singleton hb1 rfl with h0 | h0
      · exfalso
        apply hne
        have h2 := (foldl_bLe elimBox t (fun w x _ => elimBox_bLe w x)
          (elimBox b r)).2 q
        rw [h0] at h2
        exact List.sublist_nil.1 h2
      · exact foldl_elimBox_post t (elimBox b r) q d hqt h0 hne p hp

/-- `eliminate` on a snapshot box that survives the pass. -/
theorem eliminate_post {u : Board} {q d : Nat} (hq81 : q < 81)
    (hqd : getCell u q = [d]) (hne : getCell (eliminate u) q ≠ []) :
    ∀ p ∈ peers q, d ∉ getCell (eliminate u) p := by
  have hmem : q ∈ boxes.filter (fun b => (getCell u b).length == 1) := by
    rw [List.mem_filter]
    refine ⟨mem_boxes.2 hq81, ?_⟩
    rw [hqd]
    rfl
  exact foldl_elimBox_post _ u q d hmem hqd hne

/-- Filtering by a pointwise-weaker predicate gives a subsequence. -/
theorem filter_sub_of_imp {α : Type} {p q : α → Bool} :
    ∀ (l : List α), (∀ a ∈ l, p a = true → q a = true) →
      l.filter p <+ l.filter q
  | [], _ => List.Sublist.refl _
  | a :: t, h => by
    rw [List.filter_cons, List.filter_cons]
    by_cases hpa : p a = true
    · rw [if_pos hpa, if_pos (h a (List.mem_cons_self a t) hpa)]
      exact List.Sublist.cons₂ a
        (filter_sub_of_imp t (fun x hx => h x (List.mem_cons_of_mem a hx)))
    · rw [if_neg hpa]
      by_cases hqa : q a = true
      · rw [if_pos hqa]
        exact List.Sublist.cons a
          (filter_sub_of_imp t (fun x hx => h x (List.mem_cons_of_mem a hx)))
      · rw [if_neg hqa]
        exact filter_sub_of_imp t (fun x hx => h x (List.mem_cons_of_mem a hx))

/-- At a reducer stall (a pass with no empty cell and no new solved box),
the returned board has no solved-box conflicts: the stall pass already
swept every solved box's digit out of its peers. -/
theorem stall_no_conflict {u w : Board} (hu81 : u.length = 81)
    (hw : reduceStep u = w) (hne : hasEmpty w = false)
    (hns : nSolved w = nSolved u) : StallFree w := by
  intro q e hqe p hp
  have hble : bLe w u := hw ▸ reduceStep_bLe u
  have hq81 : q < 81 := by
    rcases Nat.lt_or_ge q w.length with hlt | hge
    · have hlen : w.length = u.length := hble.1
      omega
    · rw [getCell_eq_nil hge] at hqe
      cases hqe
  have hqb : q ∈ boxes := mem_boxes.2 hq81
  -- the stall pass creates no new solved boxes: the solved filters agree
  have hfil : boxes.filter (fun b => (getCell u b).length == 1) =
      boxes.filter (fun b => (getCell w b).length == 1) := by
    refine List.Sublist.eq_of_length ?_ ?_
    · refine filter_sub_of_imp boxes (fun b hb hu1 => ?_)
      have hu1n : (getCell u b).length = 1 := by simpa using hu1
      have hbw : getCell w b = getCell u b :=
        getCell_eq_of_singleton hble hne hb hu1n
      rw [hbw]
      exact hu1
    · exact hns.symm
  -- q is solved in u with the same digit
  have hqw1 : ((getCell w q).length == 1) = true := by
    rw [hqe]
    rfl
  have hqmem : q ∈ boxes.filter (fun b => (getCell u b).length == 1) := by
    rw [hfil, List.mem_filter]
    exact ⟨hqb, hqw1⟩
  have hqu1 : (getCell u q).length = 1 := by
    have h2 := (List.mem_filter.1 hqmem).2
    simpa using h2
  have hqval : getCell w q = getCell u q := getCell_eq_of_singleton hble hne hqb hqu1
  have hque : getCell u q = [e] := by
    rw [← hqval]
    exact hqe
  -- after the pass, e is out of every peer of q
  have hwE : bLe w (eliminate u) := by
    rw [← hw]
    unfold reduceStep
    exact bLe_trans (naked_twins_bLe _) (only_choice_bLe _)
  have hEq_ne : getCell (eliminate u) q ≠ [] := by
    intro h0
    have h2 := hwE.2 q
    rw [h0] at h2
    rw [List.sublist_nil.1 h2] at hqe
    cases hqe
  exact not_mem_of_bLe hwE (eliminate_post hq81 hque hEq_ne p hp)

/-! ## A generic walk over the propagators

Any property of the board preserved by every `PropCall` assignment, with a
companion property of the boards such assignments snapshot, survives each
propagator and holds of every snapshot the propagator logs. -/

theorem getCell_assign_ne {v : Board} {p : Nat} {x : List Nat} {c : Nat}
    (h : c ≠ p) : getCell (assign_value v p x) c = getCell v c := by
  rw [getCell_assign]
  exact if_neg (fun hand => h hand.2)

theorem walk_assign {P Q : Board → Prop}
    (hP : ∀ v p x, PropCall v p x → P v → P (assign_value v p x))
    (hQ : ∀ v p x, PropCall v p x → P v → Q (setCell v p x))
    {s : SState} {p : Nat} {x : List Nat} (hcall : PropCall s.1 p x)
    (h : P s.1) :
    P (assign_valueL s p x).1 ∧
      ∀ S ∈ (assign_valueL s p x).2.1, S ∈ s.2.1 ∨ Q S := by
  constructor
  · rw [assign_valueL_fst]
    exact hP _ _ _ hcall h
  · rw [assign_valueL_eq]
    by_cases heq : getCell s.1 p = x
    · rw [if_pos heq]
      exact fun S hS => Or.inl hS
    · rw [if_neg heq]
      by_cases hlen : (x.length == 1) = true
      · rw [if_pos hlen]
        intro S hS
        have hS2 : S ∈ s.2.1 ++ [setCell s.1 p x] := hS
        rcases List.mem_append.1 hS2 with h1 | h1
        · exact Or.inl h1
        · have h2 : S = setCell s.1 p x := by simpa using h1
          exact Or.inr (h2 ▸ hQ _ _ _ hcall h)
      · rw [if_neg hlen]
        exact fun S hS => Or.inl hS

theorem walk_elimBox {P Q : Board → Prop}
    (hP : ∀ v p x, PropCall v p x → P v → P (assign_value v p x))
    (hQ : ∀ v p x, PropCall v p x → P v → Q (setCell v p x))
    (s : SState) (b : Nat) (h : P s.1) :
    P (elimBoxL s b).1 ∧ ∀ S ∈ (elimBoxL s b).2.1, S ∈ s.2.1 ∨ Q S := by
  show P ((match getCell s.1 b with
      | [d] => (peers b).foldl (elimPeerL d) s
      | _ => s)).1 ∧
    ∀ S ∈ ((match getCell s.1 b with
      | [d] => (peers b).foldl (elimPeerL d) s
      | _ => s)).2.1, S ∈ s.2.1 ∨ Q S
  rcases hd : getCell s.1 b with _ | ⟨e, _ | _⟩
  · exact ⟨h, fun S hS => Or.inl hS⟩
  · have hstep : ∀ (s2 : SState) (p : Nat), p ∈ peers b →
        P s2.1 ∧ getCell s2.1 b = [e] →
        (P (elimPeerL e s2 p).1 ∧ getCell (elimPeerL e s2 p).1 b = [e]) ∧
          ∀ S ∈ (elimPeerL e s2 p).2.1, S ∈ s2.2.1 ∨ Q S := by
      intro s2 p hp h2
      obtain ⟨hP2, hf2⟩ := h2
      have hpb : p ≠ b := fun hpe => not_mem_peers_self b (hpe ▸ hp)
      have hcall : PropCall s2.1 p
          ((getCell s2.1 p).filter (fun a => decide (a ≠ e))) :=
        PropCall.elim s2.1 b e p hf2 hp
      have hw2 := walk_assign hP hQ hcall hP2
      refine ⟨⟨hw2.1, ?_⟩, hw2.2⟩
      show getCell (assign_valueL s2 p
        ((getCell s2.1 p).filter (fun a => decide (a ≠ e)))).1 b = [e]
      rw [assign_valueL_fst, getCell_assign_ne (fun he2 => hpb he2.symm)]
      exact hf2
    have hw := foldl_pres_log (f := elimPeerL e) (l := peers b) (s := s)
      (P := fun s2 => P s2.1 ∧ getCell s2.1 b = [e]) (Q := Q) hstep ⟨h, hd⟩
    exact ⟨hw.1.1, hw.2⟩
  · exact ⟨h, fun S hS => Or.inl hS⟩

theorem walk_eliminate {P Q : Board → Prop}
    (hP : ∀ v p x, PropCall v p x → P v → P (assign_value v p x))
    (hQ : ∀ v p x, PropCall v p x → P v → Q (setCell v p x))
    (s : SState) (h : P s.1) :
    P (eliminateL s).1 ∧ ∀ S ∈ (eliminateL s).2.1, S ∈ s.2.1 ∨ Q S := by
  unfold eliminateL
  exact foldl_pres_log (f := elimBoxL)
    (l := boxes.filter (fun b => (getCell s.1 b).length == 1)) (s := s)
    (P := fun s2 => P s2.1) (Q := Q)
    (fun s2 b _ h2 => walk_elimBox hP hQ s2 b h2) h

theorem walk_ocDigit {P Q : Board → Prop}
    (hP : ∀ v p x, PropCall v p x → P v → P (assign_value v p x))
    (hQ : ∀ v p x, PropCall v p x → P v → Q (setCell v p x))
    (u : List Nat) (s : SState) (e : Nat) (h : P s.1) :
    P (ocDigitL u s e).1 ∧ ∀ S ∈ (ocDigitL u s e).2.1, S ∈ s.2.1 ∨ Q S := by
  show P ((match u.filter (fun b => decide (e ∈ getCell s.1 b)) with
      | [b] => assign_valueL s b [e]
      | _ => s)).1 ∧
    ∀ S ∈ ((match u.filter (fun b => decide (e ∈ getCell s.1 b)) with
      | [b] => assign_valueL s b [e]
      | _ => s)).2.1, S ∈ s.2.1 ∨ Q S
  rcases hf : u.filter (fun b => decide (e ∈ getCell s.1 b)) with _ | ⟨b, _ | _⟩
  · exact ⟨h, fun S hS => Or.inl hS⟩
  · exact walk_assign hP hQ (PropCall.oc s.1 u e b hf) h
  · exact ⟨h, fun S hS => Or.inl hS⟩

theorem walk_only_choice {P Q : Board → Prop}
    (hP : ∀ v p x, PropCall v p x → P v → P (assign_value v p x))
    (hQ : ∀ v p x, PropCall v p x → P v → Q (setCell v p x))
    (s : SState) (h : P s.1) :
    P (only_choiceL s).1 ∧ ∀ S ∈ (only_choiceL s).2.1, S ∈ s.2.1 ∨ Q S := by
  unfold only_choiceL
  refine foldl_pres_log (f := ocUnitL) (l := unitlist) (s := s)
    (P := fun s2 => P s2.1) (Q := Q) (fun s2 u _ h2 => ?_) h
  show P (ocUnitL s2 u).1 ∧ ∀ S ∈ (ocUnitL s2 u).2.1, S ∈ s2.2.1 ∨ Q S
  unfold ocUnitL
  exact foldl_pres_log (f := ocDigitL u) (l := digits) (s := s2)
    (P := fun s3 => P s3.1) (Q := Q)
    (fun s3 e _ h3 => walk_ocDigit hP hQ u s3 e h3) h2

theorem walk_processTwin {P Q : Board → Prop}
    (hP : ∀ v p x, PropCall v p x → P v → P (assign_value v p x))
    (hQ : ∀ v p x, PropCall v p x → P v → Q (setCell v p x))
    (s : SState) (pr : Nat × Nat) (h : P s.1) :
    P (processTwinL s pr).1 ∧ ∀ S ∈ (processTwinL s pr).2.1, S ∈ s.2.1 ∨ Q S := by
  show P ((if (getCell s.1 pr.1).length < 2 then s
      else
        match getCell s.1 pr.1 with
        | d1 :: d2 :: _ => (sharedPeers pr.1 pr.2).foldl (twinPeerL d1 d2) s
        | _ => s)).1 ∧
    ∀ S ∈ ((if (getCell s.1 pr.1).length < 2 then s
      else
        match getCell s.1 pr.1 with
        | d1 :: d2 :: _ => (sharedPeers pr.1 pr.2).foldl (twinPeerL d1 d2) s
        | _ => s)).2.1, S ∈ s.2.1 ∨ Q S
  by_cases hlt : (getCell s.1 pr.1).length < 2
  · rw [if_pos hlt]
    exact ⟨h, fun S hS => Or.inl hS⟩
  · rw [if_neg hlt]
    rcases ht : getCell s.1 pr.1 with _ | ⟨d1, _ | ⟨d2, rest⟩⟩
    · exact ⟨h, fun S hS => Or.inl hS⟩
    · exact ⟨h, fun S hS => Or.inl hS⟩
    · have hstep : ∀ (s2 : SState) (p : Nat), p ∈ sharedPeers pr.1 pr.2 →
          P s2.1 ∧ getCell s2.1 pr.1 = d1 :: d2 :: rest →
          (P (twinPeerL d1 d2 s2 p).1 ∧
            getCell (twinPeerL d1 d2 s2 p).1 pr.1 = d1 :: d2 :: rest) ∧
            ∀ S ∈ (twinPeerL d1 d2 s2 p).2.1, S ∈ s2.2.1 ∨ Q S := by
        intro s2 p hp h2
        obtain ⟨hP2, hf2⟩ := h2
        have hpt : p ≠ pr.1 := by
          intro hpe
          have hp1 : p ∈ peers pr.1 := (List.mem_filter.1 hp).1
          exact not_mem_peers_self pr.1 (hpe ▸ hp1)
        have hcall : PropCall s2.1 p
            (((getCell s2.1 p).filter (fun a => decide (a ≠ d1))).filter
              (fun a => decide (a ≠ d2))) :=
          PropCall.twin s2.1 pr.1 pr.2 p d1 d2 rest hf2 hp
        have hw2 := walk_assign hP hQ hcall hP2
        refine ⟨⟨hw2.1, ?_⟩, hw2.2⟩
        show getCell (assign_valueL s2 p
          (((getCell s2.1 p).filter (fun a => decide (a ≠ d1))).filter
            (fun a => decide (a ≠ d2)))).1 pr.1 = d1 :: d2 :: rest
        rw [assign_valueL_fst, getCell_assign_ne (fun he2 => hpt he2.symm)]
        exact hf2
      have hw := foldl_pres_log (f := twinPeerL d1 d2)
        (l := sharedPeers pr.1 pr.2) (s := s)
        (P := fun s2 => P s2.1 ∧ getCell s2.1 pr.1 = d1 :: d2 :: rest) (Q := Q)
        hstep ⟨h, ht⟩
      exact ⟨hw.1.1, hw.2⟩

theorem walk_naked_twins {P Q : Board → Prop}
    (hP : ∀ v p x, PropCall v p x → P v → P (assign_value v p x))
    (hQ : ∀ v p x, PropCall v p x → P v → Q (setCell v p x))
    (s : SState) (h : P s.1) :
    P (naked_twinsL s).1 ∧ ∀ S ∈ (naked_twinsL s).2.1, S ∈ s.2.1 ∨ Q S := by
  unfold naked_twinsL
  refine foldl_pres_log (f := ntUnitL) (l := unitlist) (s := s)
    (P := fun s2 => P s2.1) (Q := Q) (fun s2 u _ h2 => ?_) h
  show P (ntUnitL s2 u).1 ∧ ∀ S ∈ (ntUnitL s2 u).2.1, S ∈ s2.2.1 ∨ Q S
  unfold ntUnitL
  exact foldl_pres_log (f := processTwinL) (l := twinPairs s2.1 u) (s := s2)
    (P := fun s3 => P s3.1) (Q := Q)
    (fun s3 pr _ h3 => walk_processTwin hP hQ s3 pr h3) h2

theorem walk_reduceStep {P Q : Board → Prop}
    (hP : ∀ v p x, PropCall v p x → P v → P (assign_value v p x))
    (hQ : ∀ v p x, PropCall v p x → P v → Q (setCell v p x))
    (s : SState) (h : P s.1) :
    P (reduceStepL s).1 ∧ ∀ S ∈ (reduceStepL s).2.1, S ∈ s.2.1 ∨ Q S := by
  unfold reduceStepL
  obtain ⟨h1, l1⟩ := walk_eliminate hP hQ s h
  obtain ⟨h2, l2⟩ := walk_only_choice hP hQ (eliminateL s) h1
  obtain ⟨h3, l3⟩ := walk_naked_twins hP hQ (only_choiceL (eliminateL s)) h2
  refine ⟨h3, fun S hS => ?_⟩
  rcases l3 S hS with hS2 | hq
  · rcases l2 S hS2 with hS3 | hq
    · exact l1 S hS3
    · exact Or.inr hq
  · exact Or.inr hq

theorem walk_reduceAux {P Q : Board → Prop}
    (hP : ∀ v p x, PropCall v p x → P v → P (assign_value v p x))
    (hQ : ∀ v p x, PropCall v p x → P v → Q (setCell v p x)) :
    ∀ (f : Nat) (s : SState), P s.1 →
      (∀ w, (reduceAuxL f s).1 = some w → P w) ∧
        ∀ S ∈ (reduceAuxL f s).2.1, S ∈ s.2.1 ∨ Q S
  | 0, s, h => by
    refine ⟨fun w hw => ?_, ?_⟩
    · rw [reduceAuxL_zero] at hw
      exact Option.noConfusion hw
    · rw [reduceAuxL_zero]
      exact fun S hS => Or.inl hS
  | f + 1, s, h => by
    obtain ⟨hstep, hlog⟩ := walk_reduceStep hP hQ s h
    by_cases h1 : hasEmpty (reduceStepL s).1 = true
    · refine ⟨fun w hw => ?_, ?_⟩
      · rw [reduceAuxL_succ_fst, if_pos h1] at hw
        exact Option.noConfusion hw
      · rw [reduceAuxL_succ_snd, if_pos h1]
        exact hlog
    · by_cases h2 : nSolved (reduceStepL s).1 = nSolved s.1
      · refine ⟨fun w hw => ?_, ?_⟩
        · rw [reduceAuxL_succ_fst, if_neg h1, if_pos h2] at hw
          rw [← Option.some_injective _ hw]
          exact hstep
        · rw [reduceAuxL_succ_snd, if_neg h1, if_pos h2]
          exact hlog
      · obtain ⟨hv, hl⟩ := walk_reduceAux hP hQ f (reduceStepL s) hstep
        refine ⟨fun w hw => ?_, ?_⟩
        · rw [reduceAuxL_succ_fst, if_neg h1, if_neg h2] at hw
          exact hv w hw
        · rw [reduceAuxL_succ_snd, if_neg h1, if_neg h2]
          intro S hS
          rcases hl S hS with hS2 | hq
          · exact hlog S hS2
          · exact Or.inr hq

/-! ## Instances of the walk: pins and pointwise shrinking -/

/-- On a pinned board every propagator call at the pinned box re-assigns
its current value, and any call at a peer assigns a list still free of the
pinned digit. -/
theorem propCall_facts {c d : Nat} {v : Board} {p : Nat} {x : List Nat}
    (hc : PropCall v p x) (h : Pinned v c d) :
    (p = c → x = [d]) ∧ (d ∉ getCell v p → d ∉ x) := by
  cases hc with
  | elim q e p hq hp =>
    constructor
    · intro hpc
      rw [hpc] at hp
      have hde : d ≠ e := by
        intro he
        exact h.2 q (peers_symm hp) (by rw [hq, he]; exact List.mem_singleton_self e)
      rw [hpc, h.1]
      simp [List.filter_singleton, hde]
    · exact fun hd hm => hd (List.mem_of_mem_filter hm)
  | oc u e b hb =>
    have he : e ∈ getCell v p := by
      have hm : p ∈ u.filter (fun b2 => decide (e ∈ getCell v b2)) := by
        rw [hb]; exact List.mem_singleton_self p
      exact of_decide_eq_true (List.mem_filter.1 hm).2
    constructor
    · intro hbc
      rw [hbc, h.1] at he
      rw [List.eq_of_mem_singleton he]
    · intro hd hm
      exact hd (by rw [List.eq_of_mem_singleton hm]; exact he)
  | twin t1 t2 p d1 d2 rest ht hp =>
    constructor
    · intro hpc
      rw [hpc] at hp
      have hnd : d ∉ getCell v t1 := h.2 t1 (peers_symm (mem_sharedPeers.1 hp).1)
      rw [ht] at hnd
      have hd1 : d ≠ d1 := fun he =>
        hnd (by rw [he]; exact List.mem_cons_self d1 (d2 :: rest))
      have hd2 : d ≠ d2 := fun he =>
        hnd (by rw [he]; exact List.mem_cons_of_mem d1 (List.mem_cons_self d2 rest))
      rw [hpc, h.1]
      simp [List.filter_singleton, hd1, hd2]
    · exact fun hd hm => hd (List.mem_of_mem_filter (List.mem_of_mem_filter hm))

/-- A pin survives every propagator assignment. -/
theorem pinned_assign {c d : Nat} : ∀ v p x, PropCall v p x → Pinned v c d →
    Pinned (assign_value v p x) c d := by
  intro v p x hc h
  obtain ⟨hx1, hx2⟩ := propCall_facts hc h
  constructor
  · rw [getCell_assign]
    split
    · next hcond => exact hx1 hcond.2.symm
    · exact h.1
  · intro q hq
    rw [getCell_assign]
    split
    · next hcond =>
      refine hx2 ?_
      rw [← hcond.2]
      exact h.2 q hq
    · exact h.2 q hq

/-- Every board a propagator snapshots from a pinned board still shows the
pinned digit at the pinned box. -/
theorem pinned_set {c d : Nat} : ∀ v p x, PropCall v p x → Pinned v c d →
    getCell (setCell v p x) c = [d] := by
  intro v p x hc h
  rw [getCell_setCell]
  split
  · next hcond => exact (propCall_facts hc h).1 hcond.2.symm
  · exact h.1

/-- A pin on entry to the reducer is a pin on its verdict board and shows
on every snapshot it appends. -/
theorem pinned_reduceAuxL {c d : Nat} (f : Nat) (s : SState) (h : Pinned s.1 c d) :
    (∀ w, (reduceAuxL f s).1 = some w → Pinned w c d) ∧
      ∀ S ∈ (reduceAuxL f s).2.1, S ∈ s.2.1 ∨ getCell S c = [d] :=
  walk_reduceAux (P := fun v => Pinned v c d) (Q := fun S => getCell S c = [d])
    pinned_assign pinned_set f s h

/-- Every propagator call assigns a sublist of the box's current value. -/
theorem propCall_sublist {v : Board} {p : Nat} {x : List Nat}
    (hc : PropCall v p x) : x <+ getCell v p := by
  cases hc with
  | elim q e p hq hp => exact List.filter_sublist _
  | oc u e b hb =>
    have hm : p ∈ u.filter (fun b2 => decide (e ∈ getCell v b2)) := by
      rw [hb]; exact List.mem_singleton_self p
    exact List.singleton_sublist.2 (of_decide_eq_true (List.mem_filter.1 hm).2)
  | twin t1 t2 p d1 d2 rest ht hp =>
    exact (List.filter_sublist _).trans (List.filter_sublist _)

theorem bLe_assign (v0 : Board) : ∀ v p x, PropCall v p x → bLe v v0 →
    bLe (assign_value v p x) v0 :=
  fun _ _ _ hc h => bLe_trans (assign_bLe (propCall_sublist hc)) h

theorem bLe_set (v0 : Board) : ∀ v p x, PropCall v p x → bLe v v0 →
    bLe (setCell v p x) v0 :=
  fun _ _ _ hc h => bLe_trans (setCell_bLe (propCall_sublist hc)) h

/-- Every snapshot the reducer appends, and its verdict board, shrink the
entry board pointwise. -/
theorem bLe_reduceAuxL (v0 : Board) (f : Nat) (s : SState) (h : bLe s.1 v0) :
    (∀ w, (reduceAuxL f s).1 = some w → bLe w v0) ∧
      ∀ S ∈ (reduceAuxL f s).2.1, S ∈ s.2.1 ∨ bLe S v0 :=
  walk_reduceAux (P := fun v => bLe v v0) (Q := fun S => bLe S v0)
    (bLe_assign v0) (bLe_set v0) f s h

/-! ### Small list facts used when stitching record stretches -/

theorem head?_mem2 {α : Type} : ∀ {l : List α} {a : α}, l.head? = some a → a ∈ l
  | [], _, h => by cases h
  | x :: t, a, h => by
    rw [List.head?_cons] at h
    injection h with h2
    rw [← h2]
    exact List.mem_cons_self x t

theorem getLast?_mem2 {α : Type} : ∀ {l : List α} {a : α}, l.getLast? = some a → a ∈ l
  | [], _, h => by cases h
  | [x], a, h => by
    have h2 : x = a := by
      have h3 : some x = some a := h
      injection h3
    rw [← h2]
    exact List.mem_singleton_self x
  | x :: y :: t, a, h => by
    rw [List.getLast?_cons_cons] at h
    exact List.mem_cons_of_mem x (getLast?_mem2 h)

theorem getLast?_append2 {α : Type} (l2 : List α) (hne : l2 ≠ []) :
    ∀ (l1 : List α), (l1 ++ l2).getLast? = l2.getLast?
  | [] => rfl
  | x :: t => by
    rw [List.cons_append]
    have hne2 : t ++ l2 ≠ [] := fun h => hne (List.append_eq_nil.1 h).2
    rcases h2 : t ++ l2 with _ | ⟨y, u⟩
    · exact absurd h2 hne2
    · rw [List.getLast?_cons_cons, ← h2]
      exact getLast?_append2 l2 hne t

/-! ## The first eliminate pass after a branch pins the branch box -/

/-- An assignment at another box changes neither the value this box shows
on the board nor the value it shows on any snapshot the call appends. -/
theorem assign_valueL_frame {s : SState} {p : Nat} {x : List Nat} {c : Nat}
    (hcp : c ≠ p) :
    getCell (assign_valueL s p x).1 c = getCell s.1 c ∧
      ∀ S ∈ (assign_valueL s p x).2.1, S ∈ s.2.1 ∨ getCell S c = getCell s.1 c := by
  rw [assign_valueL_eq]
  by_cases heq : getCell s.1 p = x
  · rw [if_pos heq]
    exact ⟨rfl, fun S hS => Or.inl hS⟩
  · rw [if_neg heq]
    have hset : getCell (setCell s.1 p x) c = getCell s.1 c := by
      rw [getCell_setCell]
      exact if_neg (fun hand => hcp hand.2)
    by_cases hlen : (x.length == 1) = true
    · rw [if_pos hlen]
      refine ⟨hset, fun S hS => ?_⟩
      rcases List.mem_append.1 hS with h1 | h2
      · exact Or.inl h1
      · rw [List.mem_singleton.1 h2]
        exact Or.inr hset
    · rw [if_neg hlen]
      exact ⟨hset, fun S hS => Or.inl hS⟩

/-- Running `eliminate` on a branch-entry board (`SeamState`): the
already-settled boxes eliminate nothing, the branch box's own sweep strips
its digit from all its peers — pinning it — and the rest of the pass keeps
the pin; every snapshot the pass appends shows the branch digit at the
branch box. -/
theorem seam_eliminate {bx d : Nat} {s : SState} (hseam : SeamState s.1 bx d)
    (hbx : bx < 81) :
    Pinned (eliminateL s).1 bx d ∧
      ∀ S ∈ (eliminateL s).2.1, S ∈ s.2.1 ∨ getCell S bx = [d] := by
  have hmem : bx ∈ boxes.filter (fun b => (getCell s.1 b).length == 1) := by
    rw [List.mem_filter]
    refine ⟨mem_boxes.2 hbx, ?_⟩
    rw [hseam.1]
    rfl
  obtain ⟨pre, post, hsplit⟩ := List.append_of_mem hmem
  have hnd : (boxes.filter (fun b => (getCell s.1 b).length == 1)).Nodup :=
    boxes_nodup.filter _
  rw [hsplit] at hnd
  have hpre : bx ∉ pre := fun hmem2 =>
    (List.nodup_append.1 hnd).2.2 hmem2 (List.mem_cons_self bx post)
  have hA : pre.foldl elimBoxL s = s := by
    refine foldl_id fun b hb => ?_
    have hbne : b ≠ bx := fun he => hpre (he ▸ hb)
    exact elimBoxL_id fun e he p hp => hseam.2 b e hbne he p hp
  have hstep : ∀ (s2 : SState) (p : Nat), p ∈ peers bx →
      getCell s2.1 bx = [d] →
      getCell (elimPeerL d s2 p).1 bx = [d] ∧
        ∀ S ∈ (elimPeerL d s2 p).2.1, S ∈ s2.2.1 ∨ getCell S bx = [d] := by
    intro s2 p hp h2
    have hne : bx ≠ p := fun he => not_mem_peers_self bx (he ▸ hp)
    have hfr := assign_valueL_frame (s := s2) (p := p)
      (x := (getCell s2.1 p).filter (fun e => decide (e ≠ d))) hne
    unfold elimPeerL
    refine ⟨by rw [hfr.1]; exact h2, fun S hS => ?_⟩
    rcases hfr.2 S hS with h3 | h3
    · exact Or.inl h3
    · rw [h2] at h3
      exact Or.inr h3
  have hB : Pinned (elimBoxL s bx).1 bx d ∧
      ∀ S ∈ (elimBoxL s bx).2.1, S ∈ s.2.1 ∨ getCell S bx = [d] := by
    have heq : elimBoxL s bx = (peers bx).foldl (elimPeerL d) s := by
      show (match getCell s.1 bx with
          | [e] => (peers bx).foldl (elimPeerL e) s
          | _ => s) = (peers bx).foldl (elimPeerL d) s
      rw [hseam.1]
    rw [heq]
    obtain ⟨hP1, hL1⟩ := foldl_pres_log (f := elimPeerL d) (l := peers bx)
      (s := s) (P := fun s2 => getCell s2.1 bx = [d])
      (Q := fun S => getCell S bx = [d]) hstep hseam.1
    have hfst : ((peers bx).foldl (elimPeerL d) s).1 =
        (peers bx).foldl (elimPeer d) s.1 :=
      foldl_fst (fun s2 p => elimPeerL_fst d s2 p) (peers bx) s
    refine ⟨⟨hP1, ?_⟩, hL1⟩
    rw [hfst]
    exact fun p hp => foldl_elimPeer_strips d (peers bx) s.1 p hp
  unfold eliminateL
  rw [hsplit, List.foldl_append, hA, List.foldl_cons]
  obtain ⟨hBP, hBL⟩ := hB
  obtain ⟨hCP, hCL⟩ := foldl_pres_log (f := elimBoxL) (l := post)
    (s := elimBoxL s bx) (P := fun s2 => Pinned s2.1 bx d)
    (Q := fun S => getCell S bx = [d])
    (fun s2 b2 _ h2 => walk_elimBox pinned_assign pinned_set s2 b2 h2) hBP
  refine ⟨hCP, fun S hS => ?_⟩
  rcases hCL S hS with h1 | h2
  · exact hBL S h1
  · exact Or.inr h2

/-- The whole reducer run from a branch-entry board: the first pass pins
the branch box, so the verdict is pinned and every appended snapshot shows
the branch digit at the branch box. -/
theorem seam_reduceAuxL {bx d : Nat} (f : Nat) (s : SState)
    (hseam : SeamState s.1 bx d) (hbx : bx < 81) :
    (∀ w, (reduceAuxL (f + 1) s).1 = some w → Pinned w bx d) ∧
      ∀ S ∈ (reduceAuxL (f + 1) s).2.1, S ∈ s.2.1 ∨ getCell S bx = [d] := by
  have hE := seam_eliminate hseam hbx
  have hO := walk_only_choice (P := fun v => Pinned v bx d)
    (Q := fun S => getCell S bx = [d]) pinned_assign pinned_set
    (eliminateL s) hE.1
  have hN := walk_naked_twins (P := fun v => Pinned v bx d)
    (Q := fun S => getCell S bx = [d]) pinned_assign pinned_set
    (only_choiceL (eliminateL s)) hO.1
  have hpin : Pinned (reduceStepL s).1 bx d := by
    unfold reduceStepL
    exact hN.1
  have hlog : ∀ S ∈ (reduceStepL s).2.1, S ∈ s.2.1 ∨ getCell S bx = [d] := by
    unfold reduceStepL
    intro S hS
    rcases hN.2 S hS with h1 | h2
    · rcases hO.2 S h1 with h3 | h4
      · exact hE.2 S h3
      · exact Or.inr h4
    · exact Or.inr h2
  by_cases h1 : hasEmpty (reduceStepL s).1 = true
  · refine ⟨fun w hw => ?_, ?_⟩
    · rw [reduceAuxL_succ_fst, if_pos h1] at hw
      exact Option.noConfusion hw
    · rw [reduceAuxL_succ_snd, if_pos h1]
      exact hlog
  · by_cases h2 : nSolved (reduceStepL s).1 = nSolved s.1
    · refine ⟨fun w hw => ?_, ?_⟩
      · rw [reduceAuxL_succ_fst, if_neg h1, if_pos h2] at hw
        rw [← Option.some_injective _ hw]
        exact hpin
      · rw [reduceAuxL_succ_snd, if_neg h1, if_pos h2]
        exact hlog
    · obtain ⟨hv, hl⟩ := pinned_reduceAuxL f (reduceStepL s) hpin
      refine ⟨fun w hw => ?_, ?_⟩
      · rw [reduceAuxL_succ_fst, if_neg h1, if_neg h2] at hw
        exact hv w hw
      · rw [reduceAuxL_succ_snd, if_neg h1, if_neg h2]
        intro S hS
        rcases hl S hS with hS2 | hq
        · exact hlog S hS2
        · exact Or.inr hq

/-! ## Running the reducer after a branch: verdicts are stall boards,
pins and seams propagate -/

/-- A successful reducer verdict is a conflict-free stall board. -/
theorem reduce_verdict_stallFree {f : Nat} {v w : Board} (hlen : v.length = 81)
    (h : reduceAux f v = some w) : StallFree w := by
  obtain ⟨hble, hne, u, hu1, hu2, hu3⟩ := reduceAux_some h
  exact stall_no_conflict (hu1.1.trans hlen) hu2 hne hu3

/-- Setting one unsolved box of a stall board to a branch digit yields a
`SeamState` for that box. -/
theorem seamState_setCell {w : Board} {bx d : Nat} (hsf : StallFree w)
    (hd : d ∈ getCell w bx) (hbxlen : bx < w.length) :
    SeamState (setCell w bx [d]) bx d := by
  constructor
  · rw [getCell_setCell, if_pos ⟨hbxlen, rfl⟩]
  · intro q e hq hqe p hpq
    rw [getCell_setCell] at hqe
    rw [if_neg (fun hand => hq hand.2)] at hqe
    rw [getCell_setCell]
    split
    · next hand =>
      intro hmem
      have hed : e = d := List.eq_of_mem_singleton hmem
      exact hsf q e hqe p hpq (by rw [hand.2, hed]; exact hd)
    · exact hsf q e hqe p hpq

/-- A pin on a stall board survives the branch assignment at the (strictly
larger) branch box. -/
theorem pinned_setCell_branch {w : Board} {bx d c e : Nat}
    (hp : Pinned w c e) (hd : d ∈ getCell w bx)
    (hlen : 1 < (getCell w bx).length) :
    Pinned (setCell w bx [d]) c e := by
  have hcbx : c ≠ bx := by
    intro h
    rw [← h, hp.1] at hlen
    simp at hlen
  constructor
  · rw [getCell_setCell, if_neg (fun hand => hcbx hand.2)]
    exact hp.1
  · intro p hpp
    rw [getCell_setCell]
    split
    · next hand =>
      intro hmem
      have hed : e = d := List.eq_of_mem_singleton hmem
      exact hp.2 p hpp (by rw [hand.2, hed]; exact hd)
    · exact hp.2 p hpp

/-- A branch assignment keeps every candidate list a sublist of the digit
alphabet. -/
theorem setCell_canonical {w : Board} {bx d : Nat}
    (hcan : ∀ c, getCell w c <+ digits) (hd : d ∈ getCell w bx) :
    ∀ c, getCell (setCell w bx [d]) c <+ digits := by
  intro c
  rw [getCell_setCell]
  split
  · exact (List.singleton_sublist.2 hd).trans (hcan bx)
  · exact hcan c

/-- One `reduce_puzzle` call, seen from an arbitrary entry state: the
record grows by a chain of pairwise-consecutively-distinct snapshots, each
shrinking the entry board and respecting entry pins and seams; on a
successful verdict the verdict board is a conflict-free shrink of the
entry board that keeps pins and turns seams into pins, and it refines the
last appended snapshot. -/
theorem reduce_puzzleL_split (s : SState) (hlen : s.1.length = 81) :
    ∃ ext0 : List Board,
      (reduce_puzzleL s).2.1 = s.2.1 ++ ext0 ∧
      ext0.Chain' (· ≠ ·) ∧
      (∀ S ∈ ext0, bLe S s.1) ∧
      (∀ c e, Pinned s.1 c e → ∀ S ∈ ext0, getCell S c = [e]) ∧
      (∀ bx dd, SeamState s.1 bx dd → bx < 81 → ∀ S ∈ ext0, getCell S bx = [dd]) ∧
      ∀ w, (reduce_puzzleL s).1 = some w →
        bLe w s.1 ∧ StallFree w ∧
        (∀ c e, Pinned s.1 c e → Pinned w c e) ∧
        (∀ bx dd, SeamState s.1 bx dd → bx < 81 → Pinned w bx dd) ∧
        ∀ x, ext0.getLast? = some x → bLe w x := by
  have hs0inv : RecordInv (s.1, ([] : List Board), s.2.2) :=
    ⟨hlen, List.chain'_nil, fun l hl => by cases hl⟩
  obtain ⟨s', hs', heq, hv⟩ := reduceAuxL_state 82 (s.1, [], s.2.2) hs0inv
  obtain ⟨hbv, hbl⟩ := bLe_reduceAuxL s.1 82 (s.1, [], s.2.2) (bLe_refl s.1)
  have h21 : (reduceAuxL 82 ((s.1, [], s.2.2) : SState)).2.1 = s'.2.1 := by
    rw [heq]
  have hshift : reduce_puzzleL s =
      ((reduceAuxL 82 ((s.1, [], s.2.2) : SState)).1,
       s.2.1 ++ (reduceAuxL 82 ((s.1, [], s.2.2) : SState)).2.1,
       (reduceAuxL 82 ((s.1, [], s.2.2) : SState)).2.2) := by
    have hsh : shiftL s.2.1 ((s.1, [], s.2.2) : SState) = s := by
      show (s.1, s.2.1 ++ [], s.2.2) = s
      rw [List.append_nil]
    show reduceAuxL 82 s = _
    conv_lhs => rw [← hsh]
    exact reduceAuxL_shift s.2.1 82 (s.1, [], s.2.2)
  refine ⟨(reduceAuxL 82 ((s.1, [], s.2.2) : SState)).2.1, by rw [hshift],
    ?_, ?_, ?_, ?_, ?_⟩
  · rw [h21]
    exact hs'.2.1
  · intro S hS
    rcases hbl S hS with h0 | h0
    · cases h0
    · exact h0
  · intro c e hp S hS
    rcases (pinned_reduceAuxL 82 ((s.1, [], s.2.2) : SState) hp).2 S hS with h0 | h0
    · cases h0
    · exact h0
  · intro bx dd hss hbx S hS
    rcases (seam_reduceAuxL 81 ((s.1, [], s.2.2) : SState) hss hbx).2 S hS with h0 | h0
    · cases h0
    · exact h0
  · intro w hw
    have hw0 : (reduceAuxL 82 ((s.1, [], s.2.2) : SState)).1 = some w := by
      rw [hshift] at hw
      exact hw
    have hw1 := hw0
    rw [reduceAuxL_fst] at hw1
    refine ⟨hbv w hw0, reduce_verdict_stallFree hlen hw1,
      fun c e hp => (pinned_reduceAuxL 82 ((s.1, [], s.2.2) : SState) hp).1 w hw0,
      fun bx dd hss hbx =>
        (seam_reduceAuxL 81 ((s.1, [], s.2.2) : SState) hss hbx).1 w hw0,
      fun x hx => ?_⟩
    · rw [h21] at hx
      have hb := hs'.2.2 x hx
      rw [hv w hw0]
      exact hb

/-- Master invariant of the instrumented search: every call appends a
`SearchExt` stretch to the record it receives. -/
theorem searchAuxL_master : ∀ (f : Nat) (s : SState), s.1.length = 81 →
    (∀ c, getCell s.1 c <+ digits) → SearchExt s (searchAuxL f s)
  | 0, s, _, _ => by
    rw [searchAuxL_zero]
    exact ⟨[], (List.append_nil _).symm, List.chain'_nil,
      fun S hS => absurd hS (List.not_mem_nil S),
      fun c e _ S hS => absurd hS (List.not_mem_nil S),
      fun bx dd _ _ S hS => absurd hS (List.not_mem_nil S)⟩
  | f + 1, s, hlen, hcan => by
    rw [searchAuxL_succ]
    obtain ⟨ext0, hlog0, hchain0, hble0, hpin0, hseam0, hverd⟩ :=
      reduce_puzzleL_split s hlen
    rcases hred : reduce_puzzleL s with ⟨o, t⟩
    rw [hred] at hlog0 hverd
    rcases o with _ | w
    · rw [searchBodyL_none hred]
      exact ⟨ext0, hlog0, hchain0, hble0, hpin0, hseam0⟩
    · obtain ⟨hbw, hsf, hpinw, hseamw, hlastw⟩ := hverd w rfl
      by_cases hall : allSingleton w = true
      · rw [searchBodyL_some hred, if_pos hall]
        exact ⟨ext0, hlog0, hchain0, hble0, hpin0, hseam0⟩
      · rcases hpick : pickBox w with _ | nb
        · rw [searchBodyL_some hred, if_neg hall, hpick]
          exact ⟨ext0, hlog0, hchain0, hble0, hpin0, hseam0⟩
        · obtain ⟨hbxb, hbxlen2⟩ := pickBox_some hpick
          have hbx81 : nb.2 < 81 := mem_boxes.1 hbxb
          have hw81 : w.length = 81 := by rw [hbw.1, hlen]
          have hcanw : ∀ c, getCell w c <+ digits :=
            fun c => (hbw.2 c).trans (hcan c)
          have hnd : (getCell w nb.2).Nodup := (hcanw nb.2).nodup digits_nodup
          rw [searchBodyL_branch hred (by simpa using hall) hpick]
          have hinner : ∀ (todo done : List Nat),
              getCell w nb.2 = done ++ todo →
              ∀ acc : Option Board × List Board × Nat,
              (∃ ext1 : List Board,
                acc.2.1 = s.2.1 ++ (ext0 ++ ext1) ∧
                (ext0 ++ ext1).Chain' (· ≠ ·) ∧
                (∀ S ∈ ext1, bLe S w) ∧
                (∀ c e, Pinned w c e → ∀ S ∈ ext1, getCell S c = [e]) ∧
                (∀ S ∈ ext1, ∃ d2 ∈ done, getCell S nb.2 = [d2])) →
              ∃ ext1 : List Board,
                ((todo.foldl
                  (fun acc2 d =>
                    match acc2 with
                    | (some _, _) => acc2
                    | (none, t') =>
                      searchAuxL f (setCell w nb.2 [d], t'.1, t'.2 + 1))
                  acc).2.1 = s.2.1 ++ (ext0 ++ ext1)) ∧
                (ext0 ++ ext1).Chain' (· ≠ ·) ∧
                (∀ S ∈ ext1, bLe S w) ∧
                (∀ c e, Pinned w c e → ∀ S ∈ ext1, getCell S c = [e]) := by
            intro todo
            induction todo with
            | nil =>
              intro done hspl acc hacc
              obtain ⟨ext1, h1, h2, h3, h4, _⟩ := hacc
              exact ⟨ext1, h1, h2, h3, h4⟩
            | cons d todo ih =>
              intro done hspl acc hacc
              rw [List.foldl_cons]
              have hspl2 : getCell w nb.2 = (done ++ [d]) ++ todo := by
                rw [List.append_assoc]
                exact hspl
              rcases acc with ⟨o2, t2⟩
              rcases o2 with _ | bfound
              · -- live accumulator: run the branch
                obtain ⟨ext1, h1, h2, h3, h4, h5⟩ := hacc
                have hd : d ∈ getCell w nb.2 := by
                  rw [hspl]
                  exact List.mem_append_right done (List.mem_cons_self d todo)
                have hdnotdone : d ∉ done := fun hmem =>
                  (List.nodup_append.1 (hspl ▸ hnd)).2.2 hmem
                    (List.mem_cons_self d todo)
                have hb0len : ((setCell w nb.2 [d] : Board)).length = 81 := by
                  rw [length_setCell, hw81]
                have hb0can : ∀ c, getCell (setCell w nb.2 [d]) c <+ digits :=
                  setCell_canonical hcanw hd
                have hseamb : SeamState (setCell w nb.2 [d]) nb.2 d :=
                  seamState_setCell hsf hd (by rw [hw81]; exact hbx81)
                obtain ⟨extj, hj1, hj2, hj3, hj4, hj5⟩ :=
                  searchAuxL_master f (setCell w nb.2 [d], t2.1, t2.2 + 1)
                    hb0len hb0can
                have hpinj : ∀ S ∈ extj, getCell S nb.2 = [d] :=
                  hj5 nb.2 d hseamb hbx81
                have hlink : ∀ x ∈ (ext0 ++ ext1).getLast?,
                    ∀ y ∈ extj.head?, x ≠ y := by
                  intro x hx y hy hxy
                  have hy2 : getCell y nb.2 = [d] :=
                    hpinj y (head?_mem2 (Option.mem_def.1 hy))
                  by_cases hne1 : ext1 = []
                  · rw [hne1, List.append_nil] at hx
                    have hwx := hlastw x (Option.mem_def.1 hx)
                    have hlen2 := (hwx.2 nb.2).length_le
                    rw [hxy, hy2, List.length_singleton] at hlen2
                    omega
                  · rw [getLast?_append2 ext1 hne1 ext0] at hx
                    obtain ⟨d2, hd2a, hd2b⟩ :=
                      h5 x (getLast?_mem2 (Option.mem_def.1 hx))
                    rw [hxy, hy2] at hd2b
                    have hdd : d = d2 := by
                      injection hd2b
                    exact hdnotdone (by rw [hdd]; exact hd2a)
                have hchain2 : (ext0 ++ (ext1 ++ extj)).Chain' (· ≠ ·) := by
                  rw [← List.append_assoc]
                  exact List.chain'_append.2 ⟨h2, hj2, hlink⟩
                have hb0w : bLe (setCell w nb.2 [d]) w :=
                  setCell_bLe (List.singleton_sublist.2 hd)
                refine ih (done ++ [d]) hspl2 _
                  ⟨ext1 ++ extj, ?_, hchain2, ?_, ?_, ?_⟩
                · show (searchAuxL f (setCell w nb.2 [d], t2.1, t2.2 + 1)).2.1 =
                    s.2.1 ++ (ext0 ++ (ext1 ++ extj))
                  rw [hj1]
                  show t2.1 ++ extj = _
                  rw [h1]
                  simp [List.append_assoc]
                · intro S hS
                  rcases List.mem_append.1 hS with h6 | h6
                  · exact h3 S h6
                  · exact bLe_trans (hj3 S h6) hb0w
                · intro c e hp S hS
                  rcases List.mem_append.1 hS with h6 | h6
                  · exact h4 c e hp S h6
                  · exact hj4 c e (pinned_setCell_branch hp hd hbxlen2) S h6
                · intro S hS
                  rcases List.mem_append.1 hS with h6 | h6
                  · obtain ⟨d2, hd2a, hd2b⟩ := h5 S h6
                    exact ⟨d2, List.mem_append_left _ hd2a, hd2b⟩
                  · exact ⟨d, List.mem_append_right _ (List.mem_singleton_self d),
                      hpinj S h6⟩
              · -- a solution was already found: the fold is inert
                obtain ⟨ext1, h1, h2, h3, h4, h5⟩ := hacc
                refine ih (done ++ [d]) hspl2 _
                  ⟨ext1, h1, h2, h3, h4, fun S hS => ?_⟩
                obtain ⟨d2, hd2a, hd2b⟩ := h5 S hS
                exact ⟨d2, List.mem_append_left _ hd2a, hd2b⟩
          obtain ⟨ext1, k1, k2, k3, k4⟩ :=
            hinner (getCell w nb.2) [] rfl (none, t)
              ⟨[], by rw [List.append_nil]; exact hlog0,
                by rw [List.append_nil]; exact hchain0,
                fun S hS => absurd hS (List.not_mem_nil S),
                fun c e _ S hS => absurd hS (List.not_mem_nil S),
                fun S hS => absurd hS (List.not_mem_nil S)⟩
          refine ⟨ext0 ++ ext1, k1, k2, ?_, ?_, ?_⟩
          · intro S hS
            rcases List.mem_append.1 hS with h6 | h6
            · exact hble0 S h6
            · exact bLe_trans (k3 S h6) hbw
          · intro c e hp S hS
            rcases List.mem_append.1 hS with h6 | h6
            · exact hpin0 c e hp S h6
            · exact k4 c e (hpinw c e hp) S h6
          · intro bx dd hss hbx S hS
            rcases List.mem_append.1 hS with h6 | h6
            · exact hseam0 bx dd hss hbx S h6
            · exact k4 bx dd (hseamw bx dd hss hbx) S h6

/-- Across a whole instrumented run, no two consecutive snapshots of the
assignment record are equal. -/
theorem solveL_chain (g : List Nat) : ((solveL g).2.1).Chain' (· ≠ ·) := by
  rcases hg : grid_values g with _ | v
  · have h : solveL g = (none, [], 0) := by
      unfold solveL
      rw [hg]
    rw [h]
    exact List.chain'_nil
  · have hs : solveL g = searchAuxL 82 (v, [], 0) := by
      unfold solveL
      rw [hg]
    rw [hs]
    obtain ⟨hv81, hvcan⟩ := grid_values_some hg
    have hcanAll : ∀ c, getCell v c <+ digits := by
      intro c
      by_cases hc : c < 81
      · exact hvcan c (mem_boxes.2 hc)
      · rw [getCell_eq_nil (by rw [hv81]; omega)]
        exact List.nil_sublist _
    obtain ⟨ext, h1, h2, _⟩ := searchAuxL_master 82 ((v, [], 0) : SState)
      hv81 hcanAll
    rw [h1]
    exact h2

/-- **C3** (amended): the Assignment Record is appended to exactly at the
fixing events that go through the assignment primitive — `assign_value`
appends one snapshot of the updated board when the value changes to a
single-element set, and leaves the record alone otherwise; across the
search the record only grows; the record never has more snapshots than the
run had fixing events (the branch assignment `new_values[box] = v` in
`search` is a fixing event that bypasses the primitive and appends
nothing, so equality can fail); and across a whole run no two consecutive
snapshots of the record are equal. -/
theorem C3_assignment_record :
    (∀ (s : SState) (b : Nat) (x : List Nat),
        (assign_valueL s b x).2.1 =
          (if getCell s.1 b ≠ x ∧ x.length = 1 then
            s.2.1 ++ [setCell s.1 b x] else s.2.1) ∧
        (assign_valueL s b x).2.2 =
          (if getCell s.1 b ≠ x ∧ x.length = 1 then s.2.2 + 1 else s.2.2)) ∧
      (∀ (f : Nat) (s : SState), ∃ t, (searchAuxL f s).2.1 = s.2.1 ++ t) ∧
      (∀ g : List Nat, (solveL g).2.1.length ≤ (solveL g).2.2) ∧
      (∀ g : List Nat, ((solveL g).2.1).Chain' (· ≠ ·)) := by
  refine ⟨fun s b x => ?_, fun f s => (searchAuxL_log f s).1, solveL_log,
    solveL_chain⟩
  rw [assign_valueL_eq]
  by_cases heq : getCell s.1 b = x
  · rw [if_pos heq, if_neg (fun hc => hc.1 heq), if_neg (fun hc => hc.1 heq)]
    exact ⟨rfl, rfl⟩
  · by_cases hlen : x.length = 1
    · rw [if_neg heq,
        show (x.length == 1) = true from beq_iff_eq.mpr hlen, if_pos rfl,
        if_pos ⟨heq, hlen⟩, if_pos ⟨heq, hlen⟩]
      exact ⟨rfl, rfl⟩
    · rw [if_neg heq,
        show (x.length == 1) = false from beq_eq_false_iff_ne.mpr hlen,
        if_neg Bool.false_ne_true, if_neg (fun hc => hlen hc.2),
        if_neg (fun hc => hlen hc.2)]
      exact ⟨rfl, rfl⟩

end Sudoku
